import Mathlib

/-!
Verification of the gmlib genealogy-tree core (`gmlib/__init__.py`, the
authoritative data model) and of the undo/redo session logic of
`gmui/window.py`.

Embedding conventions:
* Python `int` is `Int`; Python `float` (layout code only) is `ℚ`,
  exact where the examined runs stay in dyadic rationals.
* Python strings are modeled as lists of characters.
* Python dicts are modeled as key-sorted association lists: lookup,
  update, deletion and the key set agree with Python dicts; iteration
  order (which no queried behaviour of the program depends on) is by
  key instead of by insertion.
* The layer lists hold node ids; the node data lives in the dict, which
  matches the source's aliasing of layer entries and dict entries on
  coherent stores (every layer entry is the dict entry of its id).
* A raised exception is modeled as `Tree × Option PyErr`, keeping the
  partially mutated store exactly as Python leaves it.
-/

namespace GM

/-! ### Python list semantics -/

/-- Python index normalisation: `l[i]` accepts negative indices counting
from the end and raises `IndexError` out of range. -/
def pyNorm (n : Nat) (i : Int) : Option Nat :=
  if 0 ≤ i then (if i < (n : Int) then some i.toNat else none)
  else (if 0 ≤ (n : Int) + i then some ((n : Int) + i).toNat else none)

/-- Python `l[i]`. -/
def pyIdx (l : List α) (i : Int) : Option α := (pyNorm l.length i).bind l.get?

/-- A Python slice or insert bound: clamped into `[0, n]`, negative values
counting from the end. -/
def pyBound (n : Nat) (i : Int) : Nat :=
  if 0 ≤ i then min i.toNat n else ((n : Int) + i).toNat

/-- Python `l[a:]`. -/
def pySliceFrom (l : List α) (a : Int) : List α := l.drop (pyBound l.length a)

/-- Python `l[a:b]`. -/
def pySlice (l : List α) (a b : Int) : List α :=
  (l.take (pyBound l.length b)).drop (pyBound l.length a)

/-- Python `l.insert(i, x)` (clamps out-of-range positions, never raises). -/
def pyInsert (l : List α) (i : Int) (x : α) : List α :=
  l.take (pyBound l.length i) ++ x :: l.drop (pyBound l.length i)

/-! ### Python dict semantics (key-sorted association lists) -/

/-- Dict lookup. -/
def alookup : List (Int × α) → Int → Option α
  | [], _ => none
  | (k', v) :: m, k => if k = k' then some v else alookup m k

/-- Dict store `d[k] = v`: replace in place, or insert at the sorted spot. -/
def ainsert : List (Int × α) → Int → α → List (Int × α)
  | [], k, v => [(k, v)]
  | (k', v') :: m, k, v =>
    if k < k' then (k, v) :: (k', v') :: m
    else if k = k' then (k, v) :: m
    else (k', v') :: ainsert m k v

/-- Dict deletion `del d[k]` (the presence check is made at the call sites,
mirroring Python's `KeyError`). -/
def aerase : List (Int × α) → Int → List (Int × α)
  | [], _ => []
  | (k', v') :: m, k => if k = k' then aerase m k else (k', v') :: aerase m k

/-- In-place mutation of one entry's value, `d[k].field = v`. -/
def amodify (m : List (Int × α)) (k : Int) (f : α → α) : List (Int × α) :=
  m.map fun p => if p.1 = k then (p.1, f p.2) else p

def akeys (m : List (Int × α)) : List Int := m.map Prod.fst

theorem alookup_ainsert_self (m : List (Int × α)) (k : Int) (v : α) :
    alookup (ainsert m k v) k = some v := by
  induction m with
  | nil => simp [ainsert, alookup]
  | cons p m ih =>
    obtain ⟨k', v'⟩ := p
    by_cases hlt : k < k'
    · simp [ainsert, alookup, hlt]
    · by_cases heq : k = k'
      · simp [ainsert, alookup, hlt, heq]
      · simp [ainsert, alookup, hlt, heq, ih]

theorem alookup_ainsert_ne (m : List (Int × α)) (k k' : Int) (v : α)
    (h : k' ≠ k) : alookup (ainsert m k v) k' = alookup m k' := by
  induction m with
  | nil => simp [ainsert, alookup, h]
  | cons p m ih =>
    obtain ⟨k0, v0⟩ := p
    by_cases hlt : k < k0
    · simp [ainsert, alookup, hlt, h]
    · by_cases heq : k = k0
      · subst heq
        simp [ainsert, alookup, hlt, h]
      · simp only [ainsert, if_neg hlt, if_neg heq, alookup]
        by_cases h0 : k' = k0 <;> simp [h0, ih]

/-- Key-sortedness, the representation invariant of the embedded dicts. -/
def SKeys (m : List (Int × α)) : Prop := List.Chain' (· < ·) (akeys m)

instance (m : List (Int × α)) : Decidable (SKeys m) :=
  inferInstanceAs (Decidable (List.Chain' (· < ·) (akeys m)))

theorem SKeys.nodup {m : List (Int × α)} (h : SKeys m) : (akeys m).Nodup :=
  (List.chain'_iff_pairwise.1 h).nodup

theorem alookup_of_mem {m : List (Int × α)} {k : Int} {v : α}
    (hnd : (akeys m).Nodup) (h : (k, v) ∈ m) : alookup m k = some v := by
  induction m with
  | nil => cases h
  | cons q m ih =>
    obtain ⟨k0, v0⟩ := q
    have hnd' : k0 ∉ akeys m ∧ (akeys m).Nodup := by
      simpa [akeys] using hnd
    rcases List.mem_cons.1 h with he | hm
    · rw [Prod.mk.injEq] at he
      obtain ⟨rfl, rfl⟩ := he
      simp [alookup]
    · have hk : k ≠ k0 := by
        rintro rfl
        exact hnd'.1 (List.mem_map.2 ⟨(k, v), hm, rfl⟩)
      simpa [alookup, hk] using ih hnd'.2 hm

theorem mem_of_alookup {m : List (Int × α)} {k : Int} {v : α}
    (h : alookup m k = some v) : (k, v) ∈ m := by
  induction m with
  | nil => cases h
  | cons q m ih =>
    obtain ⟨k0, v0⟩ := q
    by_cases hk : k = k0
    · subst hk
      rw [alookup, if_pos rfl, Option.some.injEq] at h
      subst h
      exact List.mem_cons_self _ _
    · rw [alookup, if_neg hk] at h
      exact List.mem_cons_of_mem _ (ih h)

/-- The head key of `ainsert m k v` is `k` or the head key of `m`. -/
theorem ainsert_head_key (m : List (Int × α)) (k : Int) (v : α) (y : Int)
    (hy : (akeys (ainsert m k v)).head? = some y) :
    k = y ∨ (akeys m).head? = some y := by
  match m with
  | [] =>
    left
    simpa [ainsert, akeys] using hy
  | (k1, v1) :: m1 =>
    by_cases hlt1 : k < k1
    · left
      rw [ainsert, if_pos hlt1] at hy
      simpa [akeys] using hy
    · by_cases heq1 : k = k1
      · left
        rw [ainsert, if_neg hlt1, if_pos heq1] at hy
        simpa [akeys] using hy
      · right
        rw [ainsert, if_neg hlt1, if_neg heq1] at hy
        simpa [akeys] using hy

theorem skeys_ainsert {m : List (Int × α)} (h : SKeys m) (k : Int) (v : α) :
    SKeys (ainsert m k v) := by
  induction m with
  | nil => simp [ainsert, SKeys, akeys]
  | cons q m ih =>
    obtain ⟨k0, v0⟩ := q
    unfold SKeys akeys at h ⊢
    rw [List.map_cons, List.chain'_cons'] at h
    by_cases hlt : k < k0
    · rw [ainsert, if_pos hlt]
      simp only [List.map_cons, List.chain'_cons']
      refine ⟨?_, ?_, h.2⟩
      · intro y hy
        simp only [List.head?_cons, Option.mem_def, Option.some.injEq] at hy
        omega
      · exact h.1
    · by_cases heq : k = k0
      · subst heq
        rw [ainsert, if_neg hlt, if_pos rfl]
        simpa only [List.map_cons, List.chain'_cons'] using h
      · have hgt : k0 < k := by omega
        rw [ainsert, if_neg hlt, if_neg heq]
        simp only [List.map_cons, List.chain'_cons']
        refine ⟨?_, ih h.2⟩
        intro y hy
        rcases ainsert_head_key m k v y (by simpa [akeys] using hy) with rfl | hy'
        · exact hgt
        · exact h.1 y hy'

theorem mem_keys_of_alookup {m : List (Int × α)} {k : Int} {v : α}
    (h : alookup m k = some v) : k ∈ akeys m :=
  List.mem_map.2 ⟨(k, v), mem_of_alookup h, rfl⟩

theorem alookup_none_of_keys_gt {m : List (Int × α)} {k : Int}
    (h : ∀ key ∈ akeys m, k < key) : alookup m k = none := by
  induction m with
  | nil => rfl
  | cons q m ih =>
    obtain ⟨k0, v0⟩ := q
    have hk : k ≠ k0 := by
      have := h k0 (by simp [akeys])
      omega
    rw [alookup, if_neg hk]
    exact ih fun key hkey => h key (by simp [akeys]; right; simpa [akeys] using hkey)

/-- Sorted association lists with the same lookup function are equal. -/
theorem alookup_ext : ∀ (m m' : List (Int × α)), SKeys m → SKeys m' →
    (∀ k, alookup m k = alookup m' k) → m = m' := by
  intro m
  induction m with
  | nil =>
    intro m' _ _ h
    cases m' with
    | nil => rfl
    | cons q' t' =>
      have := h q'.1
      rw [show alookup (q' :: t') q'.1 = some q'.2 by
        obtain ⟨a, b⟩ := q'
        simp [alookup]] at this
      cases this
  | cons q t ih =>
    intro m' hs hs' h
    obtain ⟨k, v⟩ := q
    cases m' with
    | nil =>
      have := h k
      rw [show alookup ((k, v) :: t) k = some v by simp [alookup]] at this
      cases this
    | cons q' t' =>
      obtain ⟨k', v'⟩ := q'
      have hbk : ∀ key ∈ akeys t, k < key := by
        intro key hkey
        have hp : List.Pairwise (· < ·) (k :: akeys t) :=
          List.chain'_iff_pairwise.1 hs
        exact (List.pairwise_cons.1 hp).1 key hkey
      have hbk' : ∀ key ∈ akeys t', k' < key := by
        intro key hkey
        have hp : List.Pairwise (· < ·) (k' :: akeys t') :=
          List.chain'_iff_pairwise.1 hs'
        exact (List.pairwise_cons.1 hp).1 key hkey
      have hkk : k = k' := by
        by_contra hne
        have h1 : alookup ((k', v') :: t') k = some v := by
          rw [← h k]
          simp [alookup]
        rw [alookup, if_neg hne] at h1
        have hlt1 : k' < k := hbk' k (mem_keys_of_alookup h1)
        have h2 : alookup ((k, v) :: t) k' = some v' := by
          rw [h k']
          simp [alookup]
        rw [alookup, if_neg (by omega)] at h2
        have hlt2 : k < k' := hbk k' (mem_keys_of_alookup h2)
        omega
      subst hkk
      have hvv : v = v' := by
        have := h k
        simp [alookup] at this
        exact this
      subst hvv
      have hst : SKeys t := by
        unfold SKeys akeys at hs ⊢
        exact (List.chain'_cons'.1 hs).2
      have hst' : SKeys t' := by
        unfold SKeys akeys at hs' ⊢
        exact (List.chain'_cons'.1 hs').2
      have htail : ∀ k0, alookup t k0 = alookup t' k0 := by
        intro k0
        by_cases hk0 : k0 = k
        · subst hk0
          rw [alookup_none_of_keys_gt hbk, alookup_none_of_keys_gt hbk']
        · have := h k0
          rwa [alookup, alookup, if_neg hk0, if_neg hk0] at this
      rw [ih t' hst hst' htail]

theorem alookup_aerase_self (m : List (Int × α)) (k : Int) :
    alookup (aerase m k) k = none := by
  induction m with
  | nil => rfl
  | cons q m ih =>
    obtain ⟨k0, v0⟩ := q
    by_cases hk : k = k0
    · rw [aerase, if_pos hk]
      exact ih
    · rw [aerase, if_neg hk, alookup, if_neg hk]
      exact ih

theorem alookup_aerase_ne (m : List (Int × α)) (k k' : Int) (h : k' ≠ k) :
    alookup (aerase m k) k' = alookup m k' := by
  induction m with
  | nil => rfl
  | cons q m ih =>
    obtain ⟨k0, v0⟩ := q
    by_cases hk : k = k0
    · subst hk
      rw [aerase, if_pos rfl, alookup, if_neg h]
      exact ih
    · rw [aerase, if_neg hk, alookup, alookup]
      by_cases h0 : k' = k0
      · rw [if_pos h0, if_pos h0]
      · rw [if_neg h0, if_neg h0]
        exact ih

theorem akeys_aerase_sublist (m : List (Int × α)) (k : Int) :
    List.Sublist (akeys (aerase m k)) (akeys m) := by
  induction m with
  | nil => exact List.Sublist.refl _
  | cons q m ih =>
    obtain ⟨k0, v0⟩ := q
    by_cases hk : k = k0
    · rw [aerase, if_pos hk]
      exact ih.trans (by simp [akeys])
    · rw [aerase, if_neg hk]
      exact List.Sublist.cons₂ _ ih

theorem skeys_aerase {m : List (Int × α)} (h : SKeys m) (k : Int) :
    SKeys (aerase m k) := by
  unfold SKeys at h ⊢
  rw [List.chain'_iff_pairwise] at h ⊢
  exact h.sublist (akeys_aerase_sublist m k)

/-- Removing a freshly inserted key restores the map. -/
theorem aerase_ainsert_fresh {m : List (Int × α)} (hs : SKeys m) (k : Int)
    (v : α) (hf : alookup m k = none) : aerase (ainsert m k v) k = m := by
  apply alookup_ext _ _ (skeys_aerase (skeys_ainsert hs k v) k) hs
  intro k0
  by_cases hk : k0 = k
  · subst hk
    rw [alookup_aerase_self, hf]
  · rw [alookup_aerase_ne _ _ _ hk, alookup_ainsert_ne _ _ _ _ hk]

/-- Re-inserting an erased binding restores the map. -/
theorem ainsert_aerase {m : List (Int × α)} (hs : SKeys m) (k : Int)
    (v : α) (hv : alookup m k = some v) : ainsert (aerase m k) k v = m := by
  apply alookup_ext _ _ (skeys_ainsert (skeys_aerase hs k) k v) hs
  intro k0
  by_cases hk : k0 = k
  · subst hk
    rw [alookup_ainsert_self, hv]
  · rw [alookup_ainsert_ne _ _ _ _ hk, alookup_aerase_ne _ _ _ hk]

theorem alookup_cons (p : Int × α) (m : List (Int × α)) (k : Int) :
    alookup (p :: m) k = if k = p.1 then some p.2 else alookup m k := by
  obtain ⟨a, b⟩ := p
  rfl

/-- Lookup through a key-preserving entry map. -/
theorem alookup_map_entry (m : List (Int × α)) (g : Int × α → Int × α)
    (hg : ∀ q, (g q).1 = q.1) (k : Int) :
    alookup (m.map g) k = (alookup m k).map fun v => (g (k, v)).2 := by
  induction m with
  | nil => rfl
  | cons q m ih =>
    rw [List.map_cons, alookup_cons, alookup_cons, hg]
    by_cases hk : k = q.1
    · rw [if_pos hk, if_pos hk]
      subst hk
      rfl
    · rw [if_neg hk, if_neg hk, ih]

theorem akeys_map_entry (m : List (Int × α)) (g : Int × α → Int × α)
    (hg : ∀ q, (g q).1 = q.1) : akeys (m.map g) = akeys m := by
  unfold akeys
  rw [List.map_map]
  exact List.map_congr_left fun q _ => hg q

theorem skeys_map_entry {m : List (Int × α)} (h : SKeys m)
    (g : Int × α → Int × α) (hg : ∀ q, (g q).1 = q.1) : SKeys (m.map g) := by
  unfold SKeys
  rw [akeys_map_entry m g hg]
  exact h

/-- Setting an index back to the value it already holds is the identity. -/
theorem set_get?_self : ∀ (l : List α) (j : Nat) (a : α),
    l.get? j = some a → l.set j a = l := by
  intro l
  induction l with
  | nil => intro j a h; cases h
  | cons x l ih =>
    intro j a h
    cases j with
    | zero =>
      simp only [List.get?] at h
      cases h
      rfl
    | succ j =>
      simp only [List.get?] at h
      show x :: l.set j a = x :: l
      rw [ih j a h]

/-! ### Data model (`gmlib/__init__.py`) -/

/-- `Card`: member data. The `name` default is the source's sentinel. -/
structure Card where
  name : List Char := ['未', '知']
  birth_year : Option Int := none
  death_year : Option Int := none
  bio : List Char := []
deriving DecidableEq, Repr

/-- `Node`. -/
structure Node where
  id : Int
  card : Card
  parent_id : Int
  child_ids : List Int
deriving DecidableEq, Repr

/-- `Node.__init__`: fresh nodes have `parent_id = -1` and no children. -/
def Node.new (id : Int) (card : Card) : Node := ⟨id, card, -1, []⟩

structure GenerationIndexDefinition where
  name : List Char
  offset : Int
deriving DecidableEq, Repr

structure GenerationIndexSettings where
  base : Int := 1
  defs : List GenerationIndexDefinition := [⟨['默', '认', '序', '世'], 0⟩]
deriving DecidableEq, Repr

/-- `TreeSettings`. (In the source `gi` is a class attribute shared by all
instances; no claim observes two trees at once, so it is modeled per tree.) -/
structure TreeSettings where
  gi : GenerationIndexSettings := {}
deriving DecidableEq, Repr

/-- The atomic edits (`TreeEdit` subclasses). -/
inductive TreeEdit where
  | NewRightmostNode (y : Int) (id : Int) (card : Card)
  | DeleteRightmostNode (y : Int) (id : Int) (card : Card)
  | NewLayer (y : Int)
  | DeleteLayer (y : Int)
  | SetAsChild (parent_id child_id : Int)
  | UnsetAsChild (parent_id child_id : Int)
  | MoveNode (id : Int) (old_x new_x : Int)
  | ModifyCard (id : Int) (old_card new_card : Card)
  | ModifyGenerationIndex (id : Int) (gi_index : Int) (old_gi new_gi : Int)
deriving DecidableEq, Repr

/-- `TreeEdit.reverse`. `ModifyGenerationIndex` does not override the base
class method, whose body is the ellipsis statement; calling it returns
Python `None`, modeled as `none`. -/
def TreeEdit.reverse : TreeEdit → Option TreeEdit
  | .NewRightmostNode y id card => some (.DeleteRightmostNode y id card)
  | .DeleteRightmostNode y id card => some (.NewRightmostNode y id card)
  | .NewLayer y => some (.DeleteLayer y)
  | .DeleteLayer y => some (.NewLayer y)
  | .SetAsChild p c => some (.UnsetAsChild p c)
  | .UnsetAsChild p c => some (.SetAsChild p c)
  | .MoveNode id ox nx => some (.MoveNode id nx ox)
  | .ModifyCard id oc nc => some (.ModifyCard id nc oc)
  | .ModifyGenerationIndex _ _ _ _ => none

/-- `Tree`: the store. `node_yxs` is the id → (y, x) reverse index. -/
structure Tree where
  last_id : Int := -1
  node_dict : List (Int × Node) := []
  node_layers : List (List Int) := []
  node_yxs : List (Int × Int × Int) := []
  settings : TreeSettings := {}
deriving DecidableEq, Repr

def Tree.nlayers (t : Tree) : Int := (t.node_layers.length : Int)

def Tree.ids (t : Tree) : List Int := akeys t.node_dict

def Tree.get_node_yx (t : Tree) (id : Int) : Option (Int × Int) :=
  alookup t.node_yxs id

def Tree.get_node_card (t : Tree) (id : Int) : Option Card :=
  (alookup t.node_dict id).map Node.card

def Tree.get_node_parent_id (t : Tree) (id : Int) : Option Int :=
  (alookup t.node_dict id).map Node.parent_id

def Tree.get_node_child_ids (t : Tree) (id : Int) : Option (List Int) :=
  (alookup t.node_dict id).map Node.child_ids

def Tree.compute_layer_gi (t : Tree) (y : Int) : List Int :=
  t.settings.gi.defs.map fun d => t.settings.gi.base + y + d.offset

def Tree.compute_gi (t : Tree) (id : Int) : Option (List Int) :=
  (alookup t.node_yxs id).map fun yx => t.compute_layer_gi yx.1

/-- Exception outcomes of `Tree._apply_edit`: the typed `TreeEditError`
plus Python's untyped `KeyError` / `IndexError` (messages not modeled). -/
inductive PyErr where
  | treeEditError
  | keyError
  | indexError
deriving DecidableEq, Repr

/-- The nested index-shift loops of `NewLayer` / `DeleteLayer`: each listed
id's cached `y` is shifted by `delta`; a missing id raises `KeyError`
mid-loop, keeping the shifts already made. -/
def bumpYs (yxs : List (Int × Int × Int)) (ids : List Int) (delta : Int) :
    List (Int × Int × Int) × Option PyErr :=
  match ids with
  | [] => (yxs, none)
  | id :: rest =>
    match alookup yxs id with
    | none => (yxs, some .keyError)
    | some (y, x) => bumpYs (ainsert yxs id (y + delta, x)) rest delta

/-- The index-shift loop of `MoveNode`: each listed id's cached `x` is
shifted by `delta`. -/
def bumpXs (yxs : List (Int × Int × Int)) (ids : List Int) (delta : Int) :
    List (Int × Int × Int) × Option PyErr :=
  match ids with
  | [] => (yxs, none)
  | id :: rest =>
    match alookup yxs id with
    | none => (yxs, some .keyError)
    | some (y, x) => bumpXs (ainsert yxs id (y, x + delta)) rest delta

/-- `Tree._apply_edit`. Returns the possibly partially mutated store (as
Python leaves it when an exception is raised mid-edit) and the error. -/
def Tree.applyEdit (t : Tree) : TreeEdit → Tree × Option PyErr
  | .NewRightmostNode y id card =>
    let d := ainsert t.node_dict id (Node.new id card)
    match pyNorm t.node_layers.length y with
    | none => ({ t with node_dict := d }, some .indexError)
    | some j =>
      let layer := t.node_layers.getD j []
      ({ t with
          node_dict := d
          node_layers := t.node_layers.set j (layer ++ [id])
          node_yxs := ainsert t.node_yxs id (y, (layer.length : Int)) }, none)
  | .DeleteRightmostNode y id card =>
    match pyNorm t.node_layers.length y with
    | none => (t, some .indexError)
    | some j =>
      let layer := t.node_layers.getD j []
      match layer.getLast? with
      | none => (t, some .indexError)
      | some lid =>
        match alookup t.node_dict lid with
        | none => (t, some .keyError)
        | some node =>
          if node.id ≠ id ∨ node.card ≠ card then (t, some .treeEditError)
          else
            match alookup t.node_dict id with
            | none => (t, some .keyError)
            | some _ =>
              let t1 := { t with
                node_dict := aerase t.node_dict id
                node_layers := t.node_layers.set j layer.dropLast }
              match alookup t1.node_yxs id with
              | none => (t1, some .keyError)
              | some _ => ({ t1 with node_yxs := aerase t1.node_yxs id }, none)
  | .NewLayer y =>
    match bumpYs t.node_yxs (pySliceFrom t.node_layers y).join 1 with
    | (yxs, some e) => ({ t with node_yxs := yxs }, some e)
    | (yxs, none) =>
      ({ t with node_yxs := yxs, node_layers := pyInsert t.node_layers y [] },
       none)
  | .DeleteLayer y =>
    match bumpYs t.node_yxs (pySliceFrom t.node_layers (y + 1)).join (-1) with
    | (yxs, some e) => ({ t with node_yxs := yxs }, some e)
    | (yxs, none) =>
      match pyNorm t.node_layers.length y with
      | none => ({ t with node_yxs := yxs }, some .indexError)
      | some j =>
        ({ t with node_yxs := yxs, node_layers := t.node_layers.eraseIdx j },
         none)
  | .SetAsChild parent_id child_id =>
    match alookup t.node_dict parent_id with
    | none => (t, some .keyError)
    | some parent =>
      match alookup t.node_dict child_id with
      | none => (t, some .keyError)
      | some child =>
        if child_id ∈ parent.child_ids ∨ child.parent_id = parent_id then
          (t, some .treeEditError)
        else
          match alookup t.node_yxs parent_id with
          | none => (t, some .keyError)
          | some (parent_y, _) =>
            match alookup t.node_yxs child_id with
            | none => (t, some .keyError)
            | some (child_y, _) =>
              if child_y ≠ parent_y + 1 then (t, some .treeEditError)
              else
                let d1 := amodify t.node_dict parent_id fun n =>
                  { n with child_ids := n.child_ids ++ [child_id] }
                let d2 := amodify d1 child_id fun n =>
                  { n with parent_id := parent_id }
                ({ t with node_dict := d2 }, none)
  | .UnsetAsChild parent_id child_id =>
    match alookup t.node_dict parent_id with
    | none => (t, some .keyError)
    | some parent =>
      match alookup t.node_dict child_id with
      | none => (t, some .keyError)
      | some child =>
        if child_id ∉ parent.child_ids ∨ child.parent_id ≠ parent_id then
          (t, some .treeEditError)
        else
          match alookup t.node_yxs parent_id with
          | none => (t, some .keyError)
          | some (parent_y, _) =>
            match alookup t.node_yxs child_id with
            | none => (t, some .keyError)
            | some (child_y, _) =>
              if child_y ≠ parent_y + 1 then (t, some .treeEditError)
              else
                let d1 := amodify t.node_dict parent_id fun n =>
                  { n with child_ids := n.child_ids.erase child_id }
                let d2 := amodify d1 child_id fun n =>
                  { n with parent_id := -1 }
                ({ t with node_dict := d2 }, none)
  | .MoveNode id old_x new_x =>
    if old_x = new_x then (t, none)
    else
      match alookup t.node_yxs id with
      | none => (t, some .keyError)
      | some (y, x) =>
        if x ≠ old_x then (t, some .treeEditError)
        else
          match pyNorm t.node_layers.length y with
          | none => (t, some .indexError)
          | some j =>
            let layer := t.node_layers.getD j []
            let affected :=
              if old_x < new_x then pySlice layer (old_x + 1) new_x
              else pySlice layer new_x (old_x - 1)
            let delta : Int := if old_x < new_x then -1 else 1
            -- the leftward shift loop rebinds `id = node.id` (a stale
            -- leftover in the source), so the del/insert/reindex tail acts
            -- on the LAST slice node whenever that slice is non-empty
            let mid := if old_x < new_x then id
              else (affected.getLast?).getD id
            match bumpXs t.node_yxs affected delta with
            | (yxs, some e) => ({ t with node_yxs := yxs }, some e)
            | (yxs1, none) =>
              match pyNorm layer.length old_x with
              | none => ({ t with node_yxs := yxs1 }, some .indexError)
              | some jx =>
                let layer1 := layer.eraseIdx jx
                match alookup t.node_dict mid with
                | none =>
                  ({ t with node_yxs := yxs1
                            node_layers := t.node_layers.set j layer1 },
                   some .keyError)
                | some _ =>
                  let layer2 := pyInsert layer1 new_x mid
                  match alookup yxs1 mid with
                  | none =>
                    ({ t with node_yxs := yxs1
                              node_layers := t.node_layers.set j layer2 },
                     some .keyError)
                  | some (y2, _) =>
                    ({ t with node_yxs := ainsert yxs1 mid (y2, new_x)
                              node_layers := t.node_layers.set j layer2 },
                     none)
  | .ModifyCard id _ new_card =>
    match alookup t.node_dict id with
    | none => (t, some .keyError)
    | some _ =>
      ({ t with
          node_dict := amodify t.node_dict id fun n =>
            { n with card := new_card } }, none)
  | .ModifyGenerationIndex id gi_index _ new_gi =>
    match alookup t.node_yxs id with
    | none => (t, some .keyError)
    | some (node_y, _) =>
      match pyIdx t.settings.gi.defs gi_index with
      | none => (t, some .indexError)
      | some d =>
        ({ t with settings := { t.settings with gi :=
            { t.settings.gi with base := new_gi - d.offset - node_y } } },
         none)

/-- `Tree.apply_edits` on a list (a raised exception propagates, aborting
the rest of the sequence). -/
def Tree.applyEdits (t : Tree) : List TreeEdit → Tree × Option PyErr
  | [] => (t, none)
  | e :: es =>
    match t.applyEdit e with
    | (t', none) => t'.applyEdits es
    | (t', some err) => (t', some err)

/-- Applying a list that may contain Python `None` entries (as produced by
reversing a `ModifyGenerationIndex`): `_apply_edit(None)` matches no case
of the `match` statement and silently does nothing. -/
def Tree.applyOptEdits (t : Tree) : List (Option TreeEdit) → Tree × Option PyErr
  | [] => (t, none)
  | none :: es => t.applyOptEdits es
  | some e :: es =>
    match t.applyEdit e with
    | (t', none) => t'.applyOptEdits es
    | (t', some err) => (t', some err)

/-! ### The undo-aware session (`gmui/window.py`) -/

/-- `Window`'s undo/redo state: the tree plus two stacks of edit sequences
(`deque.append` / `deque.pop` work at the right end, as list push/pop). -/
structure Session where
  tree : Tree
  undo_stack : List (List TreeEdit)
  redo_stack : List (List TreeEdit)
deriving Repr

/-- `Window._do`: apply the edits and push them onto the undo stack.
The redo stack is not touched. -/
def Session.doOp (s : Session) (edits : List TreeEdit) : Session :=
  { s with
      tree := (s.tree.applyEdits edits).1
      undo_stack := s.undo_stack ++ [edits] }

/-- `Window._undo` (on a non-empty undo stack; `deque.pop` on an empty
deque raises, which no claim exercises). -/
def Session.undoOp (s : Session) : Session :=
  match s.undo_stack.getLast? with
  | none => s
  | some edits =>
    { tree := (s.tree.applyOptEdits (edits.reverse.map TreeEdit.reverse)).1
      undo_stack := s.undo_stack.dropLast
      redo_stack := s.redo_stack ++ [edits] }

/-- `Window._redo` (on a non-empty redo stack). -/
def Session.redoOp (s : Session) : Session :=
  match s.redo_stack.getLast? with
  | none => s
  | some edits =>
    { tree := (s.tree.applyEdits edits).1
      undo_stack := s.undo_stack ++ [edits]
      redo_stack := s.redo_stack.dropLast }

/-! ### C1: exact invertibility of valid atomic edits -/

theorem pyNorm_of_nonneg (n : Nat) (y : Int) (h0 : 0 ≤ y) (h1 : y < (n : Int)) :
    pyNorm n y = some y.toNat := by
  unfold pyNorm
  rw [if_pos h0, if_pos h1]

theorem getD_eq_of_get? {l : List α} {j : Nat} {L : α} (d : α)
    (h : l.get? j = some L) : l.getD j d = L := by
  rw [List.getD_eq_getElem?_getD, ← List.get?_eq_getElem?, h]
  rfl

theorem pyBound_of_nonneg (n : Nat) (i : Int) (h : 0 ≤ i) :
    pyBound n i = min i.toNat n := if_pos h

/-- The documented validity conditions (the spec's "valid edit sequence")
under which one atomic edit applies cleanly and its reverse restores the
store exactly: in-range non-negative indices, fresh ids on node creation,
relation-free deletion that reads back the stored card and position,
well-indexed duplicate-free cells where the edit shifts neighbours,
unsetting only a rightmost child, and no `ModifyGenerationIndex`, whose
reverse is unimplemented. -/
def validEditB (t : Tree) : TreeEdit → Bool
  | .NewRightmostNode y id _ =>
      decide (0 ≤ y) && decide (y < (t.node_layers.length : Int)) &&
      (alookup t.node_dict id).isNone && (alookup t.node_yxs id).isNone
  | .DeleteRightmostNode y id card =>
      decide (0 ≤ y) && decide (y < (t.node_layers.length : Int)) &&
      ((t.node_layers.getD y.toNat []).getLast? == some id) &&
      (match alookup t.node_dict id with
       | none => false
       | some node =>
         decide (node.id = id) && (node.card == card) &&
         decide (node.parent_id = -1) && decide (node.child_ids = []) &&
         (alookup t.node_yxs id ==
           some (y, ((t.node_layers.getD y.toNat []).length : Int) - 1)))
  | .NewLayer y =>
      decide (0 ≤ y) && decide (y ≤ (t.node_layers.length : Int)) &&
      decide (pySliceFrom t.node_layers y).join.Nodup &&
      ((pySliceFrom t.node_layers y).join.all fun k =>
        (alookup t.node_yxs k).isSome)
  | .DeleteLayer y =>
      decide (0 ≤ y) && decide (y < (t.node_layers.length : Int)) &&
      decide (t.node_layers.getD y.toNat [] = []) &&
      decide (pySliceFrom t.node_layers (y + 1)).join.Nodup &&
      ((pySliceFrom t.node_layers (y + 1)).join.all fun k =>
        (alookup t.node_yxs k).isSome)
  | .SetAsChild p c =>
      decide (0 ≤ p) &&
      (match alookup t.node_dict p, alookup t.node_dict c,
             alookup t.node_yxs p, alookup t.node_yxs c with
       | some P, some C, some pyx, some cyx =>
           decide (c ∉ P.child_ids) && decide (C.parent_id = -1) &&
           decide (cyx.1 = pyx.1 + 1)
       | _, _, _, _ => false)
  | .UnsetAsChild p c =>
      decide (0 ≤ p) &&
      (match alookup t.node_dict p, alookup t.node_dict c,
             alookup t.node_yxs p, alookup t.node_yxs c with
       | some P, some C, some pyx, some cyx =>
           (P.child_ids.getLast? == some c) &&
           decide (c ∉ P.child_ids.dropLast) &&
           decide (C.parent_id = p) && decide (cyx.1 = pyx.1 + 1)
       | _, _, _, _ => false)
  | .MoveNode id ox nx =>
      (ox == nx) ||
      (match alookup t.node_yxs id with
       | none => false
       | some q =>
         decide (q.2 = ox) && decide (0 ≤ q.1) &&
         decide (q.1 < (t.node_layers.length : Int)) &&
         decide (0 ≤ ox) &&
         decide (ox < ((t.node_layers.getD q.1.toNat []).length : Int)) &&
         decide (0 ≤ nx) &&
         decide (nx < ((t.node_layers.getD q.1.toNat []).length : Int)) &&
         ((t.node_layers.getD q.1.toNat []).get? ox.toNat == some id) &&
         decide (t.node_layers.getD q.1.toNat []).Nodup &&
         ((t.node_layers.getD q.1.toNat []).all fun k =>
           (alookup t.node_yxs k).isSome) &&
         (alookup t.node_dict id).isSome)
  | .ModifyCard id old_card _ =>
      match alookup t.node_dict id with
      | none => false
      | some node => node.card == old_card
  | .ModifyGenerationIndex _ _ _ _ => false

theorem bumpYs_spec : ∀ (ids : List Int) (yxs : List (Int × Int × Int))
    (δ : Int), SKeys yxs → ids.Nodup →
    (∀ id ∈ ids, ∃ q, alookup yxs id = some q) →
    (bumpYs yxs ids δ).2 = none ∧
    SKeys (bumpYs yxs ids δ).1 ∧
    (∀ k, alookup (bumpYs yxs ids δ).1 k =
      if k ∈ ids then (alookup yxs k).map (fun q => (q.1 + δ, q.2))
      else alookup yxs k) := by
  intro ids
  induction ids with
  | nil =>
    intro yxs δ hs _ _
    exact ⟨rfl, hs, fun k => by simp [bumpYs]⟩
  | cons id rest ih =>
    intro yxs δ hs hnd hmem
    obtain ⟨⟨y, x⟩, hq⟩ := hmem id (List.mem_cons_self _ _)
    have hnd' := List.nodup_cons.1 hnd
    have hrw : bumpYs yxs (id :: rest) δ =
        bumpYs (ainsert yxs id (y + δ, x)) rest δ := by
      rw [bumpYs, hq]
    have hs1 : SKeys (ainsert yxs id (y + δ, x)) := skeys_ainsert hs _ _
    have hmem1 : ∀ i ∈ rest, ∃ q,
        alookup (ainsert yxs id (y + δ, x)) i = some q := by
      intro i hi
      obtain ⟨q, hq'⟩ := hmem i (List.mem_cons_of_mem _ hi)
      refine ⟨q, ?_⟩
      rwa [alookup_ainsert_ne _ _ _ _ (fun he => hnd'.1 (by rw [← he]; exact hi))]
    obtain ⟨he, hs2, hchar⟩ := ih (ainsert yxs id (y + δ, x)) δ hs1 hnd'.2 hmem1
    rw [hrw]
    refine ⟨he, hs2, fun k => ?_⟩
    rw [hchar k]
    by_cases hk : k ∈ rest
    · rw [if_pos hk, if_pos (List.mem_cons_of_mem _ hk)]
      rw [alookup_ainsert_ne _ _ _ _ (fun he' => hnd'.1 (by rw [← he']; exact hk))]
    · rw [if_neg hk]
      by_cases hki : k = id
      · subst hki
        rw [if_pos (List.mem_cons_self _ _), alookup_ainsert_self, hq]
        rfl
      · rw [if_neg (by simp [hki, hk]), alookup_ainsert_ne _ _ _ _ hki]

/-- The `MoveNode` x-shift loop characterised (clone of `bumpYs_spec`). -/
theorem bumpXs_spec : ∀ (ids : List Int) (yxs : List (Int × Int × Int))
    (δ : Int), SKeys yxs → ids.Nodup →
    (∀ id ∈ ids, ∃ q, alookup yxs id = some q) →
    (bumpXs yxs ids δ).2 = none ∧
    SKeys (bumpXs yxs ids δ).1 ∧
    (∀ k, alookup (bumpXs yxs ids δ).1 k =
      if k ∈ ids then (alookup yxs k).map (fun q => (q.1, q.2 + δ))
      else alookup yxs k) := by
  intro ids
  induction ids with
  | nil =>
    intro yxs δ hs _ _
    exact ⟨rfl, hs, fun k => by simp [bumpXs]⟩
  | cons id rest ih =>
    intro yxs δ hs hnd hmem
    obtain ⟨⟨y, x⟩, hq⟩ := hmem id (List.mem_cons_self _ _)
    have hnd' := List.nodup_cons.1 hnd
    have hrw : bumpXs yxs (id :: rest) δ =
        bumpXs (ainsert yxs id (y, x + δ)) rest δ := by
      rw [bumpXs, hq]
    have hs1 : SKeys (ainsert yxs id (y, x + δ)) := skeys_ainsert hs _ _
    have hmem1 : ∀ i ∈ rest, ∃ q,
        alookup (ainsert yxs id (y, x + δ)) i = some q := by
      intro i hi
      obtain ⟨q, hq'⟩ := hmem i (List.mem_cons_of_mem _ hi)
      refine ⟨q, ?_⟩
      rwa [alookup_ainsert_ne _ _ _ _ (fun he => hnd'.1 (by rw [← he]; exact hi))]
    obtain ⟨he, hs2, hchar⟩ := ih (ainsert yxs id (y, x + δ)) δ hs1 hnd'.2 hmem1
    rw [hrw]
    refine ⟨he, hs2, fun k => ?_⟩
    rw [hchar k]
    by_cases hk : k ∈ rest
    · rw [if_pos hk, if_pos (List.mem_cons_of_mem _ hk)]
      rw [alookup_ainsert_ne _ _ _ _ (fun he' => hnd'.1 (by rw [← he']; exact hk))]
    · rw [if_neg hk]
      by_cases hki : k = id
      · subst hki
        rw [if_pos (List.mem_cons_self _ _), alookup_ainsert_self, hq]
        rfl
      · rw [if_neg (by simp [hki, hk]), alookup_ainsert_ne _ _ _ _ hki]

/-- The net effect of a successful `SetAsChild(p, c)` on the dict (the two
in-place mutations, fused). -/
def setChildMap (p c : Int) (q : Int × Node) : Int × Node :=
  if q.1 = p then (q.1, { q.2 with child_ids := q.2.child_ids ++ [c] })
  else if q.1 = c then (q.1, { q.2 with parent_id := p }) else q

theorem setChildMap_fst (p c : Int) (q : Int × Node) :
    (setChildMap p c q).1 = q.1 := by
  unfold setChildMap
  split <;> try rfl
  split <;> rfl

theorem setChildMap_child_ids (p c : Int) (q : Int × Node) (hpc : p ≠ c) :
    (setChildMap p c q).2.child_ids =
      if q.1 = p then q.2.child_ids ++ [c] else q.2.child_ids := by
  unfold setChildMap
  by_cases h1 : q.1 = p
  · rw [if_pos h1, if_pos h1]
  · rw [if_neg h1, if_neg h1]
    by_cases h2 : q.1 = c
    · rw [if_pos h2]
    · rw [if_neg h2]

theorem setChildMap_parent (p c : Int) (q : Int × Node) (hpc : p ≠ c) :
    (setChildMap p c q).2.parent_id =
      if q.1 = c then p else q.2.parent_id := by
  unfold setChildMap
  by_cases h1 : q.1 = p
  · rw [if_pos h1, if_neg (by rw [h1]; exact hpc)]
  · rw [if_neg h1]
    by_cases h2 : q.1 = c
    · rw [if_pos h2, if_pos h2]
    · rw [if_neg h2, if_neg h2]

theorem applyEdit_setAsChild_success (t : Tree) (p c : Int)
    (P C : Node) (py px cy cx : Int)
    (hP : alookup t.node_dict p = some P)
    (hC : alookup t.node_dict c = some C)
    (hdup : ¬(c ∈ P.child_ids ∨ C.parent_id = p))
    (hyP : alookup t.node_yxs p = some (py, px))
    (hyC : alookup t.node_yxs c = some (cy, cx))
    (hadj : cy = py + 1) :
    t.applyEdit (.SetAsChild p c) =
      ({ t with node_dict := t.node_dict.map (setChildMap p c) }, none) := by
  have hpc : p ≠ c := by
    intro he
    rw [he, hyC, Option.some.injEq, Prod.mk.injEq] at hyP
    omega
  simp only [Tree.applyEdit, hP, hC, hyP, hyC, if_neg hdup,
    if_neg (show ¬cy ≠ py + 1 from fun h => h hadj)]
  rw [Prod.mk.injEq]
  refine ⟨?_, rfl⟩
  congr 1
  unfold amodify
  rw [List.map_map]
  apply List.map_congr_left
  intro q _
  unfold setChildMap
  by_cases h1 : q.1 = p
  · have h1' : q.1 ≠ c := fun he => hpc (h1 ▸ he)
    simp only [Function.comp_apply, if_pos h1, if_neg h1']
  · by_cases h2 : q.1 = c
    · simp only [Function.comp_apply, if_neg h1, if_pos h2]
    · simp only [Function.comp_apply, if_neg h1, if_neg h2]

/-- The shape of the invertibility result for one valid edit. -/
def InvertsTo (t : Tree) (e : TreeEdit) : Prop :=
  (t.applyEdit e).2 = none ∧
  SKeys (t.applyEdit e).1.node_dict ∧ SKeys (t.applyEdit e).1.node_yxs ∧
  ∃ e', e.reverse = some e' ∧ (t.applyEdit e).1.applyEdit e' = (t, none)

theorem invert_newRightmost (t : Tree) (y id : Int) (card : Card)
    (hsd : SKeys t.node_dict) (hsy : SKeys t.node_yxs)
    (hv : validEditB t (.NewRightmostNode y id card) = true) :
    InvertsTo t (.NewRightmostNode y id card) := by
  unfold validEditB at hv
  simp only [Bool.and_eq_true, decide_eq_true_eq,
    Option.isNone_iff_eq_none] at hv
  obtain ⟨⟨⟨hy0, hyn⟩, hdn⟩, hyn2⟩ := hv
  have hlt : y.toNat < t.node_layers.length := by omega
  have hnorm : pyNorm t.node_layers.length y = some y.toNat :=
    pyNorm_of_nonneg _ _ hy0 hyn
  obtain ⟨L, hLe⟩ : ∃ L, t.node_layers[y.toNat]? = some L :=
    ⟨_, List.getElem?_eq_getElem hlt⟩
  have hL : t.node_layers.get? y.toNat = some L := by
    rw [List.get?_eq_getElem?]; exact hLe
  have hgetD : t.node_layers.getD y.toNat [] = L := getD_eq_of_get? _ hL
  have happ : t.applyEdit (.NewRightmostNode y id card) =
      ({ t with
          node_dict := ainsert t.node_dict id (Node.new id card)
          node_layers := t.node_layers.set y.toNat (L ++ [id])
          node_yxs := ainsert t.node_yxs id (y, (L.length : Int)) }, none) := by
    simp [Tree.applyEdit, hnorm, hLe]
  rw [InvertsTo, happ]
  refine ⟨rfl, skeys_ainsert hsd _ _, skeys_ainsert hsy _ _,
    .DeleteRightmostNode y id card, rfl, ?_⟩
  have hlen : (t.node_layers.set y.toNat (L ++ [id])).length =
      t.node_layers.length := by simp
  have hnorm2 : pyNorm (t.node_layers.set y.toNat (L ++ [id])).length y =
      some y.toNat := by rw [hlen]; exact hnorm
  have hget2 : (t.node_layers.set y.toNat (L ++ [id])).get? y.toNat =
      some (L ++ [id]) := by
    rw [List.get?_eq_getElem?]
    exact List.getElem?_set_eq (by simpa using hlt)
  have hgetD2 : (t.node_layers.set y.toNat (L ++ [id])).getD y.toNat [] =
      L ++ [id] := getD_eq_of_get? _ hget2
  have hlast : (L ++ [id]).getLast? = some id := by simp
  have hdl : (L ++ [id]).dropLast = L := by simp
  have hdict : alookup (ainsert t.node_dict id (Node.new id card)) id =
      some (Node.new id card) := alookup_ainsert_self _ _ _
  have hyxl : alookup (ainsert t.node_yxs id (y, (L.length : Int))) id =
      some (y, (L.length : Int)) := alookup_ainsert_self _ _ _
  have hcheck : ¬((Node.new id card).id ≠ id ∨ (Node.new id card).card ≠ card) := by
    simp [Node.new]
  simp only [Tree.applyEdit, hnorm2, hgetD2, hlast, hdict, hyxl, hdl,
    if_neg hcheck]
  rw [aerase_ainsert_fresh hsd id (Node.new id card) hdn,
    aerase_ainsert_fresh hsy id (y, (L.length : Int)) hyn2,
    List.set_set, set_get?_self _ _ _ hL]

theorem invert_deleteRightmost (t : Tree) (y id : Int) (card : Card)
    (hsd : SKeys t.node_dict) (hsy : SKeys t.node_yxs)
    (hv : validEditB t (.DeleteRightmostNode y id card) = true) :
    InvertsTo t (.DeleteRightmostNode y id card) := by
  unfold validEditB at hv
  simp only [Bool.and_eq_true, decide_eq_true_eq, beq_iff_eq] at hv
  obtain ⟨⟨⟨hy0, hyn⟩, hlast⟩, hmatch⟩ := hv
  cases hdict : alookup t.node_dict id with
  | none => rw [hdict] at hmatch; cases hmatch
  | some node =>
    rw [hdict] at hmatch
    simp only [Bool.and_eq_true, decide_eq_true_eq, beq_iff_eq] at hmatch
    obtain ⟨⟨⟨⟨hnid, hncard⟩, hnpar⟩, hnch⟩, hyxs⟩ := hmatch
    have hlt : y.toNat < t.node_layers.length := by omega
    have hnorm : pyNorm t.node_layers.length y = some y.toNat :=
      pyNorm_of_nonneg _ _ hy0 hyn
    obtain ⟨L, hLe⟩ : ∃ L, t.node_layers[y.toNat]? = some L :=
      ⟨_, List.getElem?_eq_getElem hlt⟩
    have hL : t.node_layers.get? y.toNat = some L := by
      rw [List.get?_eq_getElem?]; exact hLe
    have hgetD : t.node_layers.getD y.toNat [] = L := getD_eq_of_get? _ hL
    rw [hgetD] at hlast hyxs
    obtain ⟨L', rfl⟩ : ∃ L', L = L' ++ [id] := List.getLast?_eq_some_iff.mp hlast
    have hcheck : ¬(node.id ≠ id ∨ node.card ≠ card) := by
      simp [hnid, hncard]
    have happ : t.applyEdit (.DeleteRightmostNode y id card) =
        ({ t with
            node_dict := aerase t.node_dict id
            node_layers := t.node_layers.set y.toNat L'
            node_yxs := aerase t.node_yxs id }, none) := by
      simp only [Tree.applyEdit, hnorm, List.getD_eq_getElem?_getD, hLe,
        Option.getD_some, hlast, hdict, if_neg hcheck, hyxs]
      simp
    rw [InvertsTo, happ]
    refine ⟨rfl, skeys_aerase hsd _, skeys_aerase hsy _,
      .NewRightmostNode y id card, rfl, ?_⟩
    have hnorm2 : pyNorm (t.node_layers.set y.toNat L').length y =
        some y.toNat := by
      rw [List.length_set]; exact hnorm
    have hget2 : (t.node_layers.set y.toNat L')[y.toNat]? = some L' :=
      List.getElem?_set_eq (by simpa using hlt)
    have hnode : node = Node.new id card := by
      obtain ⟨a, b, cc, d⟩ := node
      simp only at hnid hncard hnpar hnch
      rw [Node.new, hnid, hncard, hnpar, hnch]
    simp only [Tree.applyEdit, hnorm2, List.getD_eq_getElem?_getD, hget2,
      Option.getD_some]
    rw [← hnode, ainsert_aerase hsd id node hdict]
    have hlen : (L'.length : Int) = ((L' ++ [id]).length : Int) - 1 := by
      simp
    rw [hlen, ainsert_aerase hsy id _ hyxs,
      List.set_set, set_get?_self _ _ _ hL]

/-- Cancelling a `+δ` then `-δ` bump, through the lookup characterisations. -/
theorem bump_cancel {yxs B1 B2 : List (Int × Int × Int)} {J : List Int}
    {δ δ' : Int} (hδ : δ + δ' = 0)
    (hchar1 : ∀ k, alookup B1 k =
      if k ∈ J then (alookup yxs k).map (fun q => (q.1 + δ, q.2))
      else alookup yxs k)
    (hchar2 : ∀ k, alookup B2 k =
      if k ∈ J then (alookup B1 k).map (fun q => (q.1 + δ', q.2))
      else alookup B1 k)
    (hs : SKeys yxs) (hs2 : SKeys B2) : B2 = yxs := by
  apply alookup_ext _ _ hs2 hs
  intro k
  rw [hchar2 k, hchar1 k]
  by_cases hk : k ∈ J
  · rw [if_pos hk, if_pos hk, Option.map_map]
    cases alookup yxs k with
    | none => rfl
    | some q =>
      obtain ⟨qy, qx⟩ := q
      simp only [Option.map_some', Function.comp_apply, Option.some.injEq,
        Prod.mk.injEq]
      constructor
      · omega
      · trivial
  · rw [if_neg hk, if_neg hk]

theorem invert_newLayer (t : Tree) (y : Int)
    (hsd : SKeys t.node_dict) (hsy : SKeys t.node_yxs)
    (hv : validEditB t (.NewLayer y) = true) :
    InvertsTo t (.NewLayer y) := by
  unfold validEditB at hv
  simp only [Bool.and_eq_true, decide_eq_true_eq, List.all_eq_true,
    Option.isSome_iff_exists] at hv
  obtain ⟨⟨⟨hy0, hyn⟩, hnd⟩, hmem⟩ := hv
  have htn : y.toNat ≤ t.node_layers.length := by omega
  have hslice : pySliceFrom t.node_layers y = t.node_layers.drop y.toNat := by
    unfold pySliceFrom
    rw [pyBound_of_nonneg _ _ hy0, min_eq_left htn]
  rw [hslice] at hnd hmem
  obtain ⟨hbe, hbs, hbchar⟩ :=
    bumpYs_spec (t.node_layers.drop y.toNat).join t.node_yxs 1 hsy hnd
      (fun id hid => hmem id hid)
  have hbpair : bumpYs t.node_yxs (pySliceFrom t.node_layers y).join 1 =
      ((bumpYs t.node_yxs (t.node_layers.drop y.toNat).join 1).1, none) := by
    rw [hslice]
    exact Prod.ext rfl hbe
  have hins : pyInsert t.node_layers y ([] : List Int) =
      t.node_layers.take y.toNat ++ [] :: t.node_layers.drop y.toNat := by
    unfold pyInsert
    rw [pyBound_of_nonneg _ _ hy0, min_eq_left htn]
  have happ : t.applyEdit (.NewLayer y) =
      ({ t with
          node_yxs := (bumpYs t.node_yxs (t.node_layers.drop y.toNat).join 1).1
          node_layers := t.node_layers.take y.toNat ++
            [] :: t.node_layers.drop y.toNat }, none) := by
    simp only [Tree.applyEdit, hbpair, hins]
  rw [InvertsTo, happ]
  refine ⟨rfl, hsd, hbs, .DeleteLayer y, rfl, ?_⟩
  have hlentake : (t.node_layers.take y.toNat).length = y.toNat :=
    List.length_take_of_le htn
  have hsl2 : pySliceFrom (t.node_layers.take y.toNat ++
      [] :: t.node_layers.drop y.toNat) (y + 1) =
      t.node_layers.drop y.toNat := by
    unfold pySliceFrom
    rw [pyBound_of_nonneg _ _ (by omega)]
    have hlen2 : (t.node_layers.take y.toNat ++
        [] :: t.node_layers.drop y.toNat).length =
        t.node_layers.length + 1 := by
      simp [hlentake]
      omega
    rw [hlen2, min_eq_left (by omega)]
    have h1 : (y + 1).toNat = y.toNat + 1 := by omega
    rw [h1, show y.toNat + 1 = (t.node_layers.take y.toNat).length + 1 by
      rw [hlentake], List.drop_append]
    rfl
  obtain ⟨hbe2, hbs2, hbchar2⟩ :=
    bumpYs_spec (t.node_layers.drop y.toNat).join
      (bumpYs t.node_yxs (t.node_layers.drop y.toNat).join 1).1 (-1) hbs hnd
      (fun id hid => by
        rw [hbchar id, if_pos hid]
        obtain ⟨q, hq⟩ := hmem id hid
        exact ⟨_, by rw [hq]; rfl⟩)
  have hbpair2 : bumpYs
      (bumpYs t.node_yxs (t.node_layers.drop y.toNat).join 1).1
      (pySliceFrom (t.node_layers.take y.toNat ++
        [] :: t.node_layers.drop y.toNat) (y + 1)).join (-1) =
      ((bumpYs (bumpYs t.node_yxs (t.node_layers.drop y.toNat).join 1).1
        (t.node_layers.drop y.toNat).join (-1)).1, none) := by
    rw [hsl2]
    exact Prod.ext rfl hbe2
  have hnorm2 : pyNorm (t.node_layers.take y.toNat ++
      [] :: t.node_layers.drop y.toNat).length y = some y.toNat := by
    apply pyNorm_of_nonneg _ _ hy0
    simp [hlentake]
    omega
  simp only [Tree.applyEdit, hbpair2, hnorm2]
  have herase : (t.node_layers.take y.toNat ++
      [] :: t.node_layers.drop y.toNat).eraseIdx y.toNat = t.node_layers := by
    rw [List.eraseIdx_eq_take_drop_succ]
    rw [List.take_append_of_le_length (by rw [hlentake])]
    rw [List.take_of_length_le (by rw [hlentake])]
    rw [show y.toNat + 1 = (t.node_layers.take y.toNat).length + 1 by
      rw [hlentake], List.drop_append]
    show t.node_layers.take y.toNat ++ t.node_layers.drop y.toNat = _
    exact List.take_append_drop _ _
  rw [herase,
    bump_cancel (by omega) hbchar hbchar2 hsy hbs2]

theorem drop_append_eq (l1 l2 : List α) (n : Nat) (h : n = l1.length) :
    (l1 ++ l2).drop n = l2 := by
  subst h
  exact List.drop_left l1 l2

theorem take_append_eq (l1 l2 : List α) (n : Nat) (h : n = l1.length) :
    (l1 ++ l2).take n = l1 := by
  subst h
  exact List.take_left l1 l2

theorem invert_deleteLayer (t : Tree) (y : Int)
    (hsd : SKeys t.node_dict) (hsy : SKeys t.node_yxs)
    (hv : validEditB t (.DeleteLayer y) = true) :
    InvertsTo t (.DeleteLayer y) := by
  unfold validEditB at hv
  simp only [Bool.and_eq_true, decide_eq_true_eq, List.all_eq_true,
    Option.isSome_iff_exists] at hv
  obtain ⟨⟨⟨⟨hy0, hyn⟩, hempty⟩, hnd⟩, hmem⟩ := hv
  have hlt : y.toNat < t.node_layers.length := by omega
  obtain ⟨L, hLe⟩ : ∃ L, t.node_layers[y.toNat]? = some L :=
    ⟨_, List.getElem?_eq_getElem hlt⟩
  have hL : t.node_layers.get? y.toNat = some L := by
    rw [List.get?_eq_getElem?]; exact hLe
  have hLnil : L = [] := by
    have := getD_eq_of_get? ([] : List Int) hL
    rw [this] at hempty
    exact hempty
  subst hLnil
  have hslice : pySliceFrom t.node_layers (y + 1) =
      t.node_layers.drop (y.toNat + 1) := by
    unfold pySliceFrom
    rw [pyBound_of_nonneg _ _ (by omega), min_eq_left (by omega)]
    congr 1
    omega
  rw [hslice] at hnd hmem
  obtain ⟨hbe, hbs, hbchar⟩ :=
    bumpYs_spec (t.node_layers.drop (y.toNat + 1)).join t.node_yxs (-1) hsy
      hnd (fun id hid => hmem id hid)
  have hbpair : bumpYs t.node_yxs
      (pySliceFrom t.node_layers (y + 1)).join (-1) =
      ((bumpYs t.node_yxs (t.node_layers.drop (y.toNat + 1)).join (-1)).1,
        none) := by
    rw [hslice]
    exact Prod.ext rfl hbe
  have hnorm : pyNorm t.node_layers.length y = some y.toNat :=
    pyNorm_of_nonneg _ _ hy0 hyn
  have happ : t.applyEdit (.DeleteLayer y) =
      ({ t with
          node_yxs :=
            (bumpYs t.node_yxs (t.node_layers.drop (y.toNat + 1)).join (-1)).1
          node_layers := t.node_layers.eraseIdx y.toNat }, none) := by
    simp only [Tree.applyEdit, hbpair, hnorm]
  rw [InvertsTo, happ]
  refine ⟨rfl, hsd, hbs, .NewLayer y, rfl, ?_⟩
  have hlentake : (t.node_layers.take y.toNat).length = y.toNat :=
    List.length_take_of_le (by omega)
  have heraseq : t.node_layers.eraseIdx y.toNat =
      t.node_layers.take y.toNat ++ t.node_layers.drop (y.toNat + 1) :=
    List.eraseIdx_eq_take_drop_succ _ _
  have hsl2 : pySliceFrom (t.node_layers.eraseIdx y.toNat) y =
      t.node_layers.drop (y.toNat + 1) := by
    unfold pySliceFrom
    rw [pyBound_of_nonneg _ _ hy0, heraseq]
    have hlen2 : (t.node_layers.take y.toNat ++
        t.node_layers.drop (y.toNat + 1)).length =
        t.node_layers.length - 1 := by
      simp [hlentake]
      omega
    rw [hlen2, min_eq_left (by omega),
      drop_append_eq _ _ _ (by rw [hlentake])]
  obtain ⟨hbe2, hbs2, hbchar2⟩ :=
    bumpYs_spec (t.node_layers.drop (y.toNat + 1)).join
      (bumpYs t.node_yxs (t.node_layers.drop (y.toNat + 1)).join (-1)).1 1
      hbs hnd
      (fun id hid => by
        rw [hbchar id, if_pos hid]
        obtain ⟨q, hq⟩ := hmem id hid
        exact ⟨_, by rw [hq]; rfl⟩)
  have hbpair2 : bumpYs
      (bumpYs t.node_yxs (t.node_layers.drop (y.toNat + 1)).join (-1)).1
      (pySliceFrom (t.node_layers.eraseIdx y.toNat) y).join 1 =
      ((bumpYs (bumpYs t.node_yxs
          (t.node_layers.drop (y.toNat + 1)).join (-1)).1
        (t.node_layers.drop (y.toNat + 1)).join 1).1, none) := by
    rw [hsl2]
    exact Prod.ext rfl hbe2
  have hins : pyInsert (t.node_layers.eraseIdx y.toNat) y ([] : List Int) =
      t.node_layers := by
    unfold pyInsert
    rw [pyBound_of_nonneg _ _ hy0, heraseq]
    have hlen2 : (t.node_layers.take y.toNat ++
        t.node_layers.drop (y.toNat + 1)).length =
        t.node_layers.length - 1 := by
      simp [hlentake]
      omega
    rw [hlen2, min_eq_left (by omega)]
    rw [take_append_eq _ _ _ (by rw [hlentake]),
      drop_append_eq _ _ _ (by rw [hlentake])]
    -- take y ++ [] :: drop (y+1) = the original list, whose y-th layer is []
    have hdecomp : t.node_layers.take y.toNat ++
        ([] : List Int) :: t.node_layers.drop (y.toNat + 1) =
        t.node_layers := by
      have hcd : t.node_layers[y.toNat] :: t.node_layers.drop (y.toNat + 1) =
          t.node_layers.drop y.toNat := List.getElem_cons_drop _ _ hlt
      have hval : t.node_layers[y.toNat] = [] := by
        have := List.getElem?_eq_getElem hlt
        rw [hLe] at this
        exact (Option.some.inj this).symm
      rw [← hval]
      rw [hcd]
      exact List.take_append_drop _ _
    exact hdecomp
  simp only [Tree.applyEdit, hbpair2, hins]
  rw [bump_cancel (by omega) hbchar hbchar2 hsy hbs2]

/-- The net effect of a successful `UnsetAsChild(p, c)` on the dict. -/
def unsetChildMap (p c : Int) (q : Int × Node) : Int × Node :=
  if q.1 = p then (q.1, { q.2 with child_ids := q.2.child_ids.erase c })
  else if q.1 = c then (q.1, { q.2 with parent_id := -1 }) else q

theorem unsetChildMap_fst (p c : Int) (q : Int × Node) :
    (unsetChildMap p c q).1 = q.1 := by
  unfold unsetChildMap
  split <;> try rfl
  split <;> rfl

theorem applyEdit_unsetAsChild_success (t : Tree) (p c : Int)
    (P C : Node) (py px cy cx : Int)
    (hP : alookup t.node_dict p = some P)
    (hC : alookup t.node_dict c = some C)
    (hrel : ¬(c ∉ P.child_ids ∨ C.parent_id ≠ p))
    (hyP : alookup t.node_yxs p = some (py, px))
    (hyC : alookup t.node_yxs c = some (cy, cx))
    (hadj : cy = py + 1) :
    t.applyEdit (.UnsetAsChild p c) =
      ({ t with node_dict := t.node_dict.map (unsetChildMap p c) }, none) := by
  have hpc : p ≠ c := by
    intro he
    rw [he, hyC, Option.some.injEq, Prod.mk.injEq] at hyP
    omega
  simp only [Tree.applyEdit, hP, hC, hyP, hyC, if_neg hrel,
    if_neg (show ¬cy ≠ py + 1 from fun h => h hadj)]
  rw [Prod.mk.injEq]
  refine ⟨?_, rfl⟩
  congr 1
  unfold amodify
  rw [List.map_map]
  apply List.map_congr_left
  intro q _
  unfold unsetChildMap
  by_cases h1 : q.1 = p
  · have h1' : q.1 ≠ c := fun he => hpc (h1 ▸ he)
    simp only [Function.comp_apply, if_pos h1, if_neg h1']
  · by_cases h2 : q.1 = c
    · simp only [Function.comp_apply, if_neg h1, if_pos h2]
    · simp only [Function.comp_apply, if_neg h1, if_neg h2]

theorem invert_setAsChild (t : Tree) (p c : Int)
    (hsd : SKeys t.node_dict) (hsy : SKeys t.node_yxs)
    (hv : validEditB t (.SetAsChild p c) = true) :
    InvertsTo t (.SetAsChild p c) := by
  unfold validEditB at hv
  simp only [Bool.and_eq_true, decide_eq_true_eq] at hv
  obtain ⟨hp0, hmatch⟩ := hv
  cases hP : alookup t.node_dict p with
  | none => rw [hP] at hmatch; cases hmatch
  | some P =>
  cases hC : alookup t.node_dict c with
  | none => rw [hP, hC] at hmatch; cases hmatch
  | some C =>
  cases hyP : alookup t.node_yxs p with
  | none => rw [hP, hC, hyP] at hmatch; cases hmatch
  | some pyx =>
  cases hyC : alookup t.node_yxs c with
  | none => rw [hP, hC, hyP, hyC] at hmatch; cases hmatch
  | some cyx =>
  rw [hP, hC, hyP, hyC] at hmatch
  simp only [Bool.and_eq_true, decide_eq_true_eq] at hmatch
  obtain ⟨⟨hnotin, hcpar⟩, hadj⟩ := hmatch
  obtain ⟨py, px⟩ := pyx
  obtain ⟨cy, cx⟩ := cyx
  simp only at hadj hnotin hcpar
  have hpc : p ≠ c := by
    intro he
    rw [he, hyC, Option.some.injEq, Prod.mk.injEq] at hyP
    omega
  have hdup : ¬(c ∈ P.child_ids ∨ C.parent_id = p) := by
    rintro (h | h)
    · exact hnotin h
    · rw [hcpar] at h
      omega
  have happ := applyEdit_setAsChild_success t p c P C py px cy cx hP hC hdup
    hyP hyC hadj
  rw [InvertsTo, happ]
  refine ⟨rfl, skeys_map_entry hsd _ (setChildMap_fst p c), hsy,
    .UnsetAsChild p c, rfl, ?_⟩
  have hP' : alookup (t.node_dict.map (setChildMap p c)) p =
      some { P with child_ids := P.child_ids ++ [c] } := by
    rw [alookup_map_entry _ _ (setChildMap_fst p c), hP, Option.map_some']
    unfold setChildMap
    rw [if_pos rfl]
  have hC' : alookup (t.node_dict.map (setChildMap p c)) c =
      some { C with parent_id := p } := by
    rw [alookup_map_entry _ _ (setChildMap_fst p c), hC, Option.map_some']
    unfold setChildMap
    rw [if_neg (fun he => hpc he.symm), if_pos rfl]
  have hrel : ¬(c ∉ ({ P with child_ids := P.child_ids ++ [c] } :
      Node).child_ids ∨ ({ C with parent_id := p } : Node).parent_id ≠ p) := by
    simp
  have happ2 := applyEdit_unsetAsChild_success
    ({ t with node_dict := t.node_dict.map (setChildMap p c) }) p c
    _ _ py px cy cx hP' hC' hrel hyP hyC hadj
  rw [happ2]
  rw [Prod.mk.injEq]
  refine ⟨?_, rfl⟩
  show ({ t with node_dict :=
    (t.node_dict.map (setChildMap p c)).map (unsetChildMap p c) } : Tree) = t
  have hmap : (t.node_dict.map (setChildMap p c)).map (unsetChildMap p c) =
      t.node_dict := by
    rw [List.map_map]
    have hid : ∀ q ∈ t.node_dict, (unsetChildMap p c ∘ setChildMap p c) q = q := by
      intro q hq
      unfold setChildMap unsetChildMap
      by_cases h1 : q.1 = p
      · have h1' : q.1 ≠ c := fun he => hpc (h1 ▸ he)
        simp only [Function.comp_apply, if_pos h1, if_neg h1']
        have hqP : q.2 = P := by
          have := alookup_of_mem hsd.nodup (show (q.1, q.2) ∈ t.node_dict from hq)
          rw [h1, hP] at this
          exact (Option.some.inj this).symm
        have hbase : c ∉ q.2.child_ids := by
          rw [hqP]
          exact hnotin
        obtain ⟨k, n⟩ := q
        simp only at hbase ⊢
        rw [List.erase_append_right _ hbase]
        simp
      · by_cases h2 : q.1 = c
        · simp only [Function.comp_apply, if_neg h1, if_pos h2]
          have hqC : q.2 = C := by
            have := alookup_of_mem hsd.nodup
              (show (q.1, q.2) ∈ t.node_dict from hq)
            rw [h2, hC] at this
            exact (Option.some.inj this).symm
          obtain ⟨k, n⟩ := q
          simp only at hqC ⊢
          rw [hqC, ← hcpar]
        · simp only [Function.comp_apply, if_neg h1, if_neg h2]
    rw [List.map_congr_left hid]
    exact List.map_id _
  rw [hmap]

theorem invert_unsetAsChild (t : Tree) (p c : Int)
    (hsd : SKeys t.node_dict) (hsy : SKeys t.node_yxs)
    (hv : validEditB t (.UnsetAsChild p c) = true) :
    InvertsTo t (.UnsetAsChild p c) := by
  unfold validEditB at hv
  simp only [Bool.and_eq_true, decide_eq_true_eq] at hv
  obtain ⟨hp0, hmatch⟩ := hv
  cases hP : alookup t.node_dict p with
  | none => rw [hP] at hmatch; cases hmatch
  | some P =>
  cases hC : alookup t.node_dict c with
  | none => rw [hP, hC] at hmatch; cases hmatch
  | some C =>
  cases hyP : alookup t.node_yxs p with
  | none => rw [hP, hC, hyP] at hmatch; cases hmatch
  | some pyx =>
  cases hyC : alookup t.node_yxs c with
  | none => rw [hP, hC, hyP, hyC] at hmatch; cases hmatch
  | some cyx =>
  rw [hP, hC, hyP, hyC] at hmatch
  simp only [Bool.and_eq_true, decide_eq_true_eq, beq_iff_eq] at hmatch
  obtain ⟨⟨⟨hlast, hnotdl⟩, hcpar⟩, hadj⟩ := hmatch
  obtain ⟨py, px⟩ := pyx
  obtain ⟨cy, cx⟩ := cyx
  simp only at hadj
  have hpc : p ≠ c := by
    intro he
    rw [he, hyC, Option.some.injEq, Prod.mk.injEq] at hyP
    omega
  obtain ⟨ch, hch⟩ : ∃ ch, P.child_ids = ch ++ [c] :=
    List.getLast?_eq_some_iff.mp hlast
  have hcnotch : c ∉ ch := by
    rw [hch, List.dropLast_concat] at hnotdl
    exact hnotdl
  have hrel : ¬(c ∉ P.child_ids ∨ C.parent_id ≠ p) := by
    rw [hch]
    simp [hcpar]
  have happ := applyEdit_unsetAsChild_success t p c P C py px cy cx hP hC hrel
    hyP hyC hadj
  rw [InvertsTo, happ]
  refine ⟨rfl, skeys_map_entry hsd _ (unsetChildMap_fst p c), hsy,
    .SetAsChild p c, rfl, ?_⟩
  have herase : P.child_ids.erase c = ch := by
    rw [hch, List.erase_append_right _ hcnotch]
    simp
  have hP' : alookup (t.node_dict.map (unsetChildMap p c)) p =
      some { P with child_ids := ch } := by
    rw [alookup_map_entry _ _ (unsetChildMap_fst p c), hP, Option.map_some']
    unfold unsetChildMap
    rw [if_pos rfl, herase]
  have hC' : alookup (t.node_dict.map (unsetChildMap p c)) c =
      some { C with parent_id := -1 } := by
    rw [alookup_map_entry _ _ (unsetChildMap_fst p c), hC, Option.map_some']
    unfold unsetChildMap
    rw [if_neg (fun he => hpc he.symm), if_pos rfl]
  have hdup : ¬(c ∈ ({ P with child_ids := ch } : Node).child_ids ∨
      ({ C with parent_id := -1 } : Node).parent_id = p) := by
    simp only
    rintro (h | h)
    · exact hcnotch h
    · omega
  have happ2 := applyEdit_setAsChild_success
    ({ t with node_dict := t.node_dict.map (unsetChildMap p c) }) p c
    _ _ py px cy cx hP' hC' hdup hyP hyC hadj
  rw [happ2]
  rw [Prod.mk.injEq]
  refine ⟨?_, rfl⟩
  show ({ t with node_dict :=
    (t.node_dict.map (unsetChildMap p c)).map (setChildMap p c) } : Tree) = t
  have hmap : (t.node_dict.map (unsetChildMap p c)).map (setChildMap p c) =
      t.node_dict := by
    rw [List.map_map]
    have hid : ∀ q ∈ t.node_dict,
        (setChildMap p c ∘ unsetChildMap p c) q = q := by
      intro q hq
      unfold setChildMap unsetChildMap
      by_cases h1 : q.1 = p
      · have h1' : q.1 ≠ c := fun he => hpc (h1 ▸ he)
        simp only [Function.comp_apply, if_pos h1, if_neg h1']
        have hqP : q.2 = P := by
          have := alookup_of_mem hsd.nodup
            (show (q.1, q.2) ∈ t.node_dict from hq)
          rw [h1, hP] at this
          exact (Option.some.inj this).symm
        obtain ⟨k, n⟩ := q
        simp only at hqP ⊢
        rw [hqP, herase, ← hch]
      · by_cases h2 : q.1 = c
        · simp only [Function.comp_apply, if_neg h1, if_pos h2]
          have hqC : q.2 = C := by
            have := alookup_of_mem hsd.nodup
              (show (q.1, q.2) ∈ t.node_dict from hq)
            rw [h2, hC] at this
            exact (Option.some.inj this).symm
          obtain ⟨k, n⟩ := q
          simp only at hqC ⊢
          rw [hqC, ← hcpar]
        · simp only [Function.comp_apply, if_neg h1, if_neg h2]
    rw [List.map_congr_left hid]
    exact List.map_id _
  rw [hmap]

/-! ### Inverting `MoveNode` -/

theorem nodup_get?_inj {L : List α} (hnd : L.Nodup) {i j : Nat} {x : α}
    (hi : L.get? i = some x) (hj : L.get? j = some x) : i = j :=
  List.get?_inj (List.get?_eq_some.1 hi).1 hnd (hi.trans hj.symm)

theorem eraseIdx_append_cons (A X : List α) (x : α) (n : Nat)
    (h : n = A.length) : (A ++ x :: X).eraseIdx n = A ++ X := by
  rw [List.eraseIdx_eq_take_drop_succ, take_append_eq _ _ _ h, h,
    List.append_cons A x X, drop_append_eq _ _ _ (by simp)]

theorem take_cons_drop {L : List α} {a : Nat} {x : α}
    (h : L.get? a = some x) : L.take a ++ x :: L.drop (a + 1) = L := by
  obtain ⟨ha, he⟩ := List.get?_eq_some.1 h
  simp only [List.get_eq_getElem] at he
  rw [← he, List.get_drop_eq_drop L a ha, List.take_append_drop]

/-- A slice `l[v:u]` misses any element whose (unique) position lies
outside `[v, u)`. -/
theorem not_mem_slice {L : List α} (hnd : L.Nodup) {x : α} {p u v : Nat}
    (hp : L.get? p = some x) (hout : p < v ∨ u ≤ p) :
    x ∉ (L.take u).drop v := by
  intro hmem
  obtain ⟨j, hj⟩ := List.mem_iff_get?.1 hmem
  rw [List.get?_drop] at hj
  have hlt : v + j < u := by
    by_contra hge
    rw [List.get?_eq_getElem?, List.getElem?_take, if_neg (by omega)] at hj
    cases hj
  have hLvj : L.get? (v + j) = some x := by
    rw [List.get?_eq_getElem?, List.getElem?_take, if_pos hlt,
      ← List.get?_eq_getElem?] at hj
    exact hj
  have := nodup_get?_inj hnd hp hLvj
  omega

/-- What one successful `MoveNode` does, exactly: the affected slice and
shift direction made explicit, the x-shifted reverse index exposed through
its lookup characterisation, and the layer rebuilt by `del`/`insert`. -/
theorem applyEdit_moveNode_char (t : Tree) (id ox nx y : Int) (L : List Int)
    (hne : ox ≠ nx)
    (hq : alookup t.node_yxs id = some (y, ox))
    (hy0 : 0 ≤ y) (hyn : y < (t.node_layers.length : Int))
    (hLe : t.node_layers[y.toNat]? = some L)
    (hox0 : 0 ≤ ox) (hoxn : ox < (L.length : Int))
    (hnx0 : 0 ≤ nx) (hnxn : nx < (L.length : Int))
    (hga : L.get? ox.toNat = some id)
    (hnd : L.Nodup)
    (hall : ∀ k ∈ L, (alookup t.node_yxs k).isSome = true)
    (hdid : (alookup t.node_dict id).isSome = true)
    (hsy : SKeys t.node_yxs)
    (hmid : ox < nx ∨ (L.take (ox.toNat - 1)).drop nx.toNat = []) :
    ∃ B1 : List (Int × Int × Int),
      SKeys B1 ∧
      (∀ k, alookup B1 k =
        if k ∈ (if ox < nx then (L.take nx.toNat).drop (ox.toNat + 1)
                else (L.take (ox.toNat - 1)).drop nx.toNat)
        then (alookup t.node_yxs k).map
          (fun p => (p.1, p.2 + (if ox < nx then (-1 : Int) else 1)))
        else alookup t.node_yxs k) ∧
      id ∉ (if ox < nx then (L.take nx.toNat).drop (ox.toNat + 1)
            else (L.take (ox.toNat - 1)).drop nx.toNat) ∧
      t.applyEdit (.MoveNode id ox nx) =
        ({ t with
            node_yxs := ainsert B1 id (y, nx)
            node_layers := t.node_layers.set y.toNat
              (pyInsert (L.eraseIdx ox.toNat) nx id) }, none) := by
  have hnorm : pyNorm t.node_layers.length y = some y.toNat :=
    pyNorm_of_nonneg _ _ hy0 hyn
  have hL : t.node_layers.get? y.toNat = some L := by
    rw [List.get?_eq_getElem?]; exact hLe
  have hgetD : t.node_layers.getD y.toNat [] = L := getD_eq_of_get? _ hL
  set aff := (if ox < nx then (L.take nx.toNat).drop (ox.toNat + 1)
              else (L.take (ox.toNat - 1)).drop nx.toNat) with haff
  have haffeq : (if ox < nx then pySlice L (ox + 1) nx
                 else pySlice L nx (ox - 1)) = aff := by
    rw [haff]
    by_cases hdir : ox < nx
    · rw [if_pos hdir, if_pos hdir]
      unfold pySlice
      rw [pyBound_of_nonneg _ _ hnx0,
        pyBound_of_nonneg _ _ (by omega : (0:Int) ≤ ox + 1),
        (by omega : (ox + 1).toNat = ox.toNat + 1),
        Nat.min_eq_left (by omega : nx.toNat ≤ L.length),
        Nat.min_eq_left (by omega : ox.toNat + 1 ≤ L.length)]
    · rw [if_neg hdir, if_neg hdir]
      have hlt : nx < ox := by omega
      unfold pySlice
      rw [pyBound_of_nonneg _ _ hnx0,
        pyBound_of_nonneg _ _ (by omega : (0:Int) ≤ ox - 1),
        (by omega : (ox - 1).toNat = ox.toNat - 1),
        Nat.min_eq_left (by omega : ox.toNat - 1 ≤ L.length),
        Nat.min_eq_left (by omega : nx.toNat ≤ L.length)]
  have hmideq : (if ox < nx then id else ((aff.getLast?).getD id)) = id := by
    by_cases hdir : ox < nx
    · rw [if_pos hdir]
    · rw [if_neg hdir]
      rcases hmid with h | h
      · exact absurd h hdir
      · rw [haff, if_neg hdir, h]
        rfl
  have hsubaff : aff.Sublist L := by
    rw [haff]
    split <;> exact (List.drop_sublist _ _).trans (List.take_sublist _ _)
  have haffnd : aff.Nodup := List.Sublist.nodup hsubaff hnd
  have haffmem : ∀ k ∈ aff, ∃ q, alookup t.node_yxs k = some q :=
    fun k hk => Option.isSome_iff_exists.mp (hall k (hsubaff.subset hk))
  have hnotmem : id ∉ aff := by
    rw [haff]
    by_cases hdir : ox < nx
    · rw [if_pos hdir]
      exact not_mem_slice hnd hga (Or.inl (by omega))
    · rw [if_neg hdir]
      exact not_mem_slice hnd hga (Or.inr (by omega))
  obtain ⟨hb0, hbs, hbchar⟩ := bumpXs_spec aff t.node_yxs
    (if ox < nx then (-1 : Int) else 1) hsy haffnd haffmem
  set B1 := (bumpXs t.node_yxs aff (if ox < nx then (-1 : Int) else 1)).1
    with hB1
  refine ⟨B1, hbs, hbchar, hnotmem, ?_⟩
  have hpair : bumpXs t.node_yxs aff (if ox < nx then (-1 : Int) else 1) =
      (B1, none) := by
    rw [hB1, ← hb0]
  have hnormx : pyNorm L.length ox = some ox.toNat :=
    pyNorm_of_nonneg _ _ hox0 hoxn
  obtain ⟨nd, hnd2⟩ := Option.isSome_iff_exists.mp hdid
  have hB1id : alookup B1 id = some (y, ox) := by
    rw [hbchar id, if_neg hnotmem, hq]
  have hxne : ¬(ox ≠ ox) := fun h => h rfl
  simp only [Tree.applyEdit, if_neg hne, hq, if_neg hxne, hnorm, hgetD,
    haffeq, hmideq, hpair, hnormx, hnd2, hB1id]

/-- The slice the reverse right-shift covers, `layer2[a : b-1]`, is exactly
the slice the forward left-shift covered, `L[a+1 : b]`, when `layer2` arose
from `L` by deleting position `a` and reinserting at `b > a`. -/
theorem move_aff_right (L : List α) (x : α) (a b : Nat)
    (hab : a < b) (hbn : b < L.length) (hga : L.get? a = some x) :
    (((L.eraseIdx a).take b ++ x :: (L.eraseIdx a).drop b).take (b - 1)).drop a
      = (L.take b).drop (a + 1) := by
  have han : a < L.length := lt_trans hab hbn
  have haL : a ≤ L.length := le_of_lt han
  have hMlen : (L.eraseIdx a).length = L.length - 1 := by
    rw [List.eraseIdx_eq_take_drop_succ, List.length_append,
      List.length_take, List.length_drop, Nat.min_eq_left haL]
    omega
  have htb : ((L.eraseIdx a).take b).length = b := by
    rw [List.length_take]
    exact Nat.min_eq_left (by omega)
  rw [List.take_append_of_le_length (by rw [htb]; omega),
    List.take_take, Nat.min_eq_left (by omega : b - 1 ≤ b),
    List.eraseIdx_eq_take_drop_succ, List.take_append_eq_append_take,
    List.take_take, Nat.min_eq_right (by omega : a ≤ b - 1),
    List.length_take, Nat.min_eq_left haL,
    drop_append_eq _ _ _ (by rw [List.length_take, Nat.min_eq_left haL]),
    List.drop_take, (by omega : b - 1 - a = b - (a + 1))]

/-- The mirror identity for a leftward move: `layer2[b+1 : a]` equals the
forward slice `L[b : a-1]` when position `a` of `L` was deleted and the
element reinserted at `b < a`. -/
theorem move_aff_left (L : List α) (x : α) (a b : Nat)
    (hba : b < a) (han : a < L.length) (hga : L.get? a = some x) :
    (((L.eraseIdx a).take b ++ x :: (L.eraseIdx a).drop b).take a).drop (b + 1)
      = (L.take (a - 1)).drop b := by
  have haL : a ≤ L.length := le_of_lt han
  have hMlen : (L.eraseIdx a).length = L.length - 1 := by
    rw [List.eraseIdx_eq_take_drop_succ, List.length_append,
      List.length_take, List.length_drop, Nat.min_eq_left haL]
    omega
  have htb : ((L.eraseIdx a).take b).length = b := by
    rw [List.length_take]
    exact Nat.min_eq_left (by omega)
  rw [List.take_append_eq_append_take, htb,
    List.take_take, Nat.min_eq_right (by omega : b ≤ a),
    (by omega : a - b = (a - b - 1) + 1), List.take_succ_cons,
    List.append_cons,
    drop_append_eq _ _ _ (by rw [List.length_append, htb]; rfl),
    List.eraseIdx_eq_take_drop_succ, List.drop_append_eq_append_drop,
    List.length_take, Nat.min_eq_left haL,
    Nat.sub_eq_zero_of_le (Nat.le_of_lt hba), List.drop_zero,
    List.take_append_of_le_length
      (by rw [List.length_drop, List.length_take, Nat.min_eq_left haL]; omega),
    List.drop_take, List.take_take,
    Nat.min_eq_left (by omega : a - b - 1 ≤ a - b),
    List.drop_take, (by omega : a - 1 - b = a - b - 1)]

theorem invert_moveNode (t : Tree) (id ox nx : Int)
    (hsd : SKeys t.node_dict) (hsy : SKeys t.node_yxs)
    (hv : validEditB t (.MoveNode id ox nx) = true)
    (hnear : ox - nx ≤ 1 ∧ nx - ox ≤ 1) :
    InvertsTo t (.MoveNode id ox nx) := by
  by_cases hne : ox = nx
  · subst hne
    have happ : t.applyEdit (.MoveNode id ox ox) = (t, none) := by
      simp [Tree.applyEdit]
    rw [InvertsTo, happ]
    exact ⟨rfl, hsd, hsy, .MoveNode id ox ox, rfl, happ⟩
  · unfold validEditB at hv
    rw [Bool.or_eq_true] at hv
    rcases hv with h | hv
    · exact absurd (beq_iff_eq.mp h) hne
    cases hqq : alookup t.node_yxs id with
    | none => rw [hqq] at hv; cases hv
    | some q =>
    obtain ⟨y, x⟩ := q
    rw [hqq] at hv
    simp only [Bool.and_eq_true, decide_eq_true_eq, beq_iff_eq] at hv
    obtain ⟨⟨⟨⟨⟨⟨⟨⟨⟨⟨hx, hy0⟩, hyn⟩, hox0⟩, hoxn⟩, hnx0⟩, hnxn⟩, hga⟩,
      hndL⟩, hallb⟩, hdidb⟩ := hv
    rw [hx] at hqq
    have hyNat : y.toNat < t.node_layers.length := by omega
    obtain ⟨L, hLe⟩ : ∃ L, t.node_layers[y.toNat]? = some L :=
      ⟨_, List.getElem?_eq_getElem hyNat⟩
    have hL : t.node_layers.get? y.toNat = some L := by
      rw [List.get?_eq_getElem?]; exact hLe
    have hgetD : t.node_layers.getD y.toNat [] = L := getD_eq_of_get? _ hL
    rw [hgetD] at hoxn hnxn hga hndL hallb
    have hall : ∀ k ∈ L, (alookup t.node_yxs k).isSome = true :=
      List.all_eq_true.mp hallb
    have hmid1 : ox < nx ∨ (L.take (ox.toNat - 1)).drop nx.toNat = [] := by
      by_cases hdir : ox < nx
      · exact Or.inl hdir
      · refine Or.inr (List.drop_eq_nil_of_le ?_)
        refine le_trans ?_ (show ox.toNat - 1 ≤ nx.toNat by omega)
        rw [List.length_take]
        exact Nat.min_le_left _ _
    obtain ⟨B1, hbs1, hchar1, hnm1, happ1⟩ :=
      applyEdit_moveNode_char t id ox nx y L hne hqq hy0 hyn hLe
        hox0 hoxn hnx0 hnxn hga hndL hall hdidb hsy hmid1
    have haL : ox.toNat ≤ L.length := by omega
    have hM : L.eraseIdx ox.toNat = L.take ox.toNat ++ L.drop (ox.toNat + 1) :=
      List.eraseIdx_eq_take_drop_succ L ox.toNat
    have hMlen : (L.eraseIdx ox.toNat).length = L.length - 1 := by
      rw [hM, List.length_append, List.length_take, List.length_drop,
        Nat.min_eq_left haL]
      omega
    have hMb : nx.toNat ≤ (L.eraseIdx ox.toNat).length := by
      rw [hMlen]; omega
    have htb : ((L.eraseIdx ox.toNat).take nx.toNat).length = nx.toNat := by
      rw [List.length_take]
      exact Nat.min_eq_left hMb
    have hpb : pyBound (L.eraseIdx ox.toNat).length nx = nx.toNat := by
      rw [pyBound_of_nonneg _ _ hnx0]
      exact Nat.min_eq_left hMb
    have hlayer2 : pyInsert (L.eraseIdx ox.toNat) nx id =
        (L.eraseIdx ox.toNat).take nx.toNat ++
          id :: (L.eraseIdx ox.toNat).drop nx.toNat := by
      unfold pyInsert
      rw [hpb]
    have hlen2 : (pyInsert (L.eraseIdx ox.toNat) nx id).length = L.length := by
      rw [hlayer2, List.length_append, htb, List.length_cons,
        List.length_drop, hMlen]
      omega
    have hdecomp : L.take ox.toNat ++ id :: L.drop (ox.toNat + 1) = L :=
      take_cons_drop hga
    have hmid : (id :: L.eraseIdx ox.toNat).Nodup := by
      rw [hM]
      have h := hndL
      rw [← hdecomp] at h
      exact List.nodup_middle.mp h
    have hnd2 : (pyInsert (L.eraseIdx ox.toNat) nx id).Nodup := by
      rw [hlayer2]
      refine List.nodup_middle.mpr ?_
      rw [List.take_append_drop]
      exact hmid
    have hga2 : (pyInsert (L.eraseIdx ox.toNat) nx id).get? nx.toNat =
        some id := by
      rw [hlayer2, List.get?_eq_getElem?, List.getElem?_append_right htb.le,
        htb, Nat.sub_self]
      simp
    have hall2 : ∀ k ∈ pyInsert (L.eraseIdx ox.toNat) nx id,
        (alookup (ainsert B1 id (y, nx)) k).isSome = true := by
      intro k hk
      by_cases hki : k = id
      · subst hki
        rw [alookup_ainsert_self]
        rfl
      · rw [alookup_ainsert_ne _ _ _ _ hki, hchar1 k]
        have hkL : k ∈ L := by
          rw [hlayer2] at hk
          rcases List.mem_append.mp hk with h1 | h1
          · exact (List.eraseIdx_sublist L ox.toNat).subset
              ((List.take_sublist _ _).subset h1)
          · rcases List.mem_cons.mp h1 with h2 | h2
            · exact absurd h2 hki
            · exact (List.eraseIdx_sublist L ox.toNat).subset
                ((List.drop_sublist _ _).subset h2)
        by_cases hka : k ∈ (if ox < nx
            then (L.take nx.toNat).drop (ox.toNat + 1)
            else (L.take (ox.toNat - 1)).drop nx.toNat)
        · rw [if_pos hka, Option.isSome_map']
          exact hall k hkL
        · rw [if_neg hka]
          exact hall k hkL
    set T1 : Tree :=
      { t with
          node_yxs := ainsert B1 id (y, nx)
          node_layers := t.node_layers.set y.toNat
            (pyInsert (L.eraseIdx ox.toNat) nx id) } with hT1
    have hT1y : T1.node_yxs = ainsert B1 id (y, nx) := by rw [hT1]
    have hT1l : T1.node_layers = t.node_layers.set y.toNat
        (pyInsert (L.eraseIdx ox.toNat) nx id) := by rw [hT1]
    have hq2 : alookup T1.node_yxs id = some (y, nx) := by
      rw [hT1y]; exact alookup_ainsert_self _ _ _
    have hyn2 : y < (T1.node_layers.length : Int) := by
      rw [hT1l, List.length_set]; exact hyn
    have hLe2 : T1.node_layers[y.toNat]? =
        some (pyInsert (L.eraseIdx ox.toNat) nx id) := by
      rw [hT1l]
      exact List.getElem?_set_eq (by simpa using hyNat)
    have hox_lt2 : ox < ((pyInsert (L.eraseIdx ox.toNat) nx id).length : Int) := by
      rw [hlen2]; exact hoxn
    have hnx_lt2 : nx < ((pyInsert (L.eraseIdx ox.toNat) nx id).length : Int) := by
      rw [hlen2]; exact hnxn
    have hall2' : ∀ k ∈ pyInsert (L.eraseIdx ox.toNat) nx id,
        (alookup T1.node_yxs k).isSome = true := by
      rw [hT1y]; exact hall2
    have hdid2 : (alookup T1.node_dict id).isSome = true := hdidb
    have hsy2 : SKeys T1.node_yxs := by
      rw [hT1y]; exact skeys_ainsert hbs1 _ _
    have hmid2 : nx < ox ∨
        ((pyInsert (L.eraseIdx ox.toNat) nx id).take (nx.toNat - 1)).drop
          ox.toNat = [] := by
      by_cases hdir : nx < ox
      · exact Or.inl hdir
      · refine Or.inr (List.drop_eq_nil_of_le ?_)
        refine le_trans ?_ (show nx.toNat - 1 ≤ ox.toNat by omega)
        rw [List.length_take]
        exact Nat.min_le_left _ _
    obtain ⟨B2, hbs2, hchar2, hnm2, happ2⟩ :=
      applyEdit_moveNode_char T1 id nx ox y
        (pyInsert (L.eraseIdx ox.toNat) nx id) (Ne.symm hne) hq2 hy0 hyn2
        hLe2 hnx0 hnx_lt2 hox0 hox_lt2 hga2 hnd2 hall2' hdid2 hsy2 hmid2
    have haffeq2 :
        (if nx < ox
          then ((pyInsert (L.eraseIdx ox.toNat) nx id).take ox.toNat).drop
            (nx.toNat + 1)
          else ((pyInsert (L.eraseIdx ox.toNat) nx id).take
            (nx.toNat - 1)).drop ox.toNat) =
        (if ox < nx then (L.take nx.toNat).drop (ox.toNat + 1)
          else (L.take (ox.toNat - 1)).drop nx.toNat) := by
      rcases lt_or_gt_of_ne hne with hdir | hdir
      · rw [if_neg (by omega), if_pos hdir, hlayer2]
        exact move_aff_right L id ox.toNat nx.toNat (by omega) (by omega) hga
      · rw [if_pos (by omega), if_neg (by omega), hlayer2]
        exact move_aff_left L id ox.toNat nx.toNat (by omega) (by omega) hga
    have hδ : (if ox < nx then (-1 : Int) else 1) +
        (if nx < ox then (-1 : Int) else 1) = 0 := by
      rcases lt_or_gt_of_ne hne with h | h
      · rw [if_pos h, if_neg (by omega)]; norm_num
      · rw [if_neg (by omega), if_pos h]; norm_num
    have hyxs_eq : ainsert B2 id (y, ox) = t.node_yxs := by
      apply alookup_ext _ _ (skeys_ainsert hbs2 _ _) hsy
      intro k
      by_cases hk : k = id
      · subst hk
        rw [alookup_ainsert_self, hqq]
      · rw [alookup_ainsert_ne _ _ _ _ hk, hchar2 k, haffeq2, hT1y,
          alookup_ainsert_ne _ _ _ _ hk, hchar1 k]
        by_cases hka : k ∈ (if ox < nx
            then (L.take nx.toNat).drop (ox.toNat + 1)
            else (L.take (ox.toNat - 1)).drop nx.toNat)
        · rw [if_pos hka, if_pos hka, Option.map_map]
          cases horig : alookup t.node_yxs k with
          | none => rfl
          | some p =>
            obtain ⟨py, px⟩ := p
            simp only [Option.map_some', Function.comp_apply,
              Option.some.injEq, Prod.mk.injEq]
            exact ⟨trivial, by omega⟩
        · rw [if_neg hka, if_neg hka]
    have herase : (pyInsert (L.eraseIdx ox.toNat) nx id).eraseIdx nx.toNat =
        L.eraseIdx ox.toNat := by
      rw [hlayer2, eraseIdx_append_cons _ _ _ _ htb.symm,
        List.take_append_drop]
    have hpba : pyBound (L.eraseIdx ox.toNat).length ox = ox.toNat := by
      rw [pyBound_of_nonneg _ _ hox0, hMlen]
      exact Nat.min_eq_left (by omega)
    have hrestore : pyInsert
        ((pyInsert (L.eraseIdx ox.toNat) nx id).eraseIdx nx.toNat) ox id =
        L := by
      rw [herase]
      unfold pyInsert
      rw [hpba, hM,
        take_append_eq _ _ _
          (by rw [List.length_take]; exact (Nat.min_eq_left haL).symm),
        drop_append_eq _ _ _
          (by rw [List.length_take]; exact (Nat.min_eq_left haL).symm)]
      exact hdecomp
    have hlayers_eq : T1.node_layers.set y.toNat
        (pyInsert ((pyInsert (L.eraseIdx ox.toNat) nx id).eraseIdx nx.toNat)
          ox id) = t.node_layers := by
      rw [hrestore, hT1l, List.set_set, set_get?_self _ _ _ hL]
    rw [InvertsTo, happ1]
    refine ⟨rfl, hsd, hsy2, .MoveNode id nx ox, rfl, ?_⟩
    rw [happ2, hyxs_eq, hlayers_eq, hT1]

theorem invert_modifyCard (t : Tree) (id : Int) (oc nc : Card)
    (hsd : SKeys t.node_dict) (hsy : SKeys t.node_yxs)
    (hv : validEditB t (.ModifyCard id oc nc) = true) :
    InvertsTo t (.ModifyCard id oc nc) := by
  replace hv : (match alookup t.node_dict id with
      | none => false
      | some node => node.card == oc) = true := hv
  cases hdict : alookup t.node_dict id with
  | none => rw [hdict] at hv; cases hv
  | some node =>
  rw [hdict] at hv
  have hcard : node.card = oc := beq_iff_eq.mp hv
  have hg1 : ∀ q : Int × Node,
      ((fun p : Int × Node =>
        if p.1 = id then (p.1, { p.2 with card := nc }) else p) q).1 = q.1 := by
    intro q
    by_cases h : q.1 = id <;> simp [h]
  have happ : t.applyEdit (.ModifyCard id oc nc) =
      ({ t with node_dict := amodify t.node_dict id fun n =>
          { n with card := nc } }, none) := by
    simp [Tree.applyEdit, hdict]
  rw [InvertsTo, happ]
  refine ⟨rfl, skeys_map_entry hsd _ hg1, hsy,
    .ModifyCard id nc oc, rfl, ?_⟩
  have hlook : alookup (amodify t.node_dict id fun n => { n with card := nc })
      id = some { node with card := nc } := by
    show alookup (t.node_dict.map _) id = _
    rw [alookup_map_entry _ _ hg1, hdict]
    simp
  have hmap : amodify (amodify t.node_dict id fun n => { n with card := nc })
      id (fun n => { n with card := oc }) = t.node_dict := by
    show (t.node_dict.map _).map _ = t.node_dict
    rw [List.map_map]
    have hid : ∀ q ∈ t.node_dict,
        ((fun p : Int × Node =>
            if p.1 = id then (p.1, { p.2 with card := oc }) else p) ∘
          (fun p : Int × Node =>
            if p.1 = id then (p.1, { p.2 with card := nc }) else p)) q = q := by
      intro q hq
      by_cases h1 : q.1 = id
      · have hqn : q.2 = node := by
          have := alookup_of_mem hsd.nodup
            (show (q.1, q.2) ∈ t.node_dict from hq)
          rw [h1, hdict] at this
          exact (Option.some.inj this).symm
        obtain ⟨k, n⟩ := q
        simp only at h1 hqn
        subst h1 hqn
        simp [← hcard]
      · obtain ⟨k, n⟩ := q
        simp only at h1
        simp only [Function.comp_apply, if_neg h1]
    rw [List.map_congr_left hid]
    exact List.map_id _
  simp only [Tree.applyEdit, hlook, hmap]

/-- The moves whose shift slices are empty in both directions
(`|old_x - new_x| ≤ 1`): only for those does the leftward loop's stale
`id = node.id` rebinding have nothing to rebind, so the reversed replay
reinserts the right node. -/
def nearMoveB : TreeEdit → Bool
  | .MoveNode _ ox nx => decide (ox - nx ≤ 1 ∧ nx - ox ≤ 1)
  | _ => true

/-- Every valid atomic edit (in the `validEditB` sense) whose move, if
any, is near applies cleanly, keeps the two dicts well-formed and is
exactly undone by its reverse. -/
theorem validEdit_invertible (t : Tree) (e : TreeEdit)
    (hsd : SKeys t.node_dict) (hsy : SKeys t.node_yxs)
    (hv : validEditB t e = true) (hnm : nearMoveB e = true) :
    InvertsTo t e := by
  cases e with
  | NewRightmostNode y id card => exact invert_newRightmost t y id card hsd hsy hv
  | DeleteRightmostNode y id card =>
    exact invert_deleteRightmost t y id card hsd hsy hv
  | NewLayer y => exact invert_newLayer t y hsd hsy hv
  | DeleteLayer y => exact invert_deleteLayer t y hsd hsy hv
  | SetAsChild p c => exact invert_setAsChild t p c hsd hsy hv
  | UnsetAsChild p c => exact invert_unsetAsChild t p c hsd hsy hv
  | MoveNode id ox nx =>
    simp only [nearMoveB, decide_eq_true_eq] at hnm
    exact invert_moveNode t id ox nx hsd hsy hv hnm
  | ModifyCard id oc nc => exact invert_modifyCard t id oc nc hsd hsy hv
  | ModifyGenerationIndex id gi og ng => simp [validEditB] at hv

/-- A valid edit sequence: each edit is valid on the store it actually
meets. -/
def validSeqB : Tree → List TreeEdit → Bool
  | _, [] => true
  | t, e :: es => validEditB t e && validSeqB (t.applyEdit e).1 es

theorem applyOptEdits_append (l1 : List (Option TreeEdit)) :
    ∀ (t m : Tree) (l2 : List (Option TreeEdit)),
    t.applyOptEdits l1 = (m, none) →
    t.applyOptEdits (l1 ++ l2) = m.applyOptEdits l2 := by
  induction l1 with
  | nil =>
    intro t m l2 h
    obtain ⟨rfl, -⟩ : t = m ∧ True := by
      refine ⟨?_, trivial⟩
      have := congrArg Prod.fst h
      exact this
    rfl
  | cons o l1 ih =>
    intro t m l2 h
    cases o with
    | none =>
      rw [List.cons_append]
      rw [Tree.applyOptEdits] at h ⊢
      exact ih t m l2 h
    | some e =>
      rw [List.cons_append]
      rw [Tree.applyOptEdits] at h ⊢
      cases happ : t.applyEdit e with
      | mk t' err =>
        rw [happ] at h
        cases err with
        | none => exact ih t' m l2 h
        | some er => cases h

/-- C1 (amended, positive half): starting from a store whose two dicts are
well-formed, a valid edit sequence all of whose moves are near
(`|old_x - new_x| ≤ 1`) applies cleanly, and replaying the
reversed-and-inverted list restores the starting store exactly — hence
every queryable field. -/
theorem c1_amended (S : List TreeEdit) : ∀ A : Tree,
    SKeys A.node_dict → SKeys A.node_yxs → validSeqB A S = true →
    S.all nearMoveB = true →
    (A.applyEdits S).2 = none ∧
    (A.applyEdits S).1.applyOptEdits (S.reverse.map TreeEdit.reverse) =
      (A, none) := by
  induction S with
  | nil =>
    intro A _ _ _ _
    exact ⟨rfl, rfl⟩
  | cons e es ih =>
    intro A hsd hsy hv hnm
    rw [validSeqB, Bool.and_eq_true] at hv
    obtain ⟨hv1, hv2⟩ := hv
    rw [List.all_cons, Bool.and_eq_true] at hnm
    obtain ⟨hnm1, hnm2⟩ := hnm
    obtain ⟨happ2, hsd1, hsy1, e', hrev, hre⟩ :=
      validEdit_invertible A e hsd hsy hv1 hnm1
    have hpair : A.applyEdit e = ((A.applyEdit e).1, none) := by
      rw [← happ2]
    obtain ⟨ih1, ih2⟩ := ih (A.applyEdit e).1 hsd1 hsy1 hv2 hnm2
    have hstep : A.applyEdits (e :: es) = (A.applyEdit e).1.applyEdits es := by
      rw [Tree.applyEdits, hpair]
    refine ⟨by rw [hstep]; exact ih1, ?_⟩
    rw [hstep, List.reverse_cons, List.map_append,
      applyOptEdits_append _ _ _ _ ih2, List.map_cons, List.map_nil, hrev,
      Tree.applyOptEdits, hre]
    rfl

/-! ### Concrete stores used by counterexamples and failing inputs -/

/-- A well-formed one-layer store with four relation-free nodes
0,1,2,3 sitting at x = 0,1,2,3. -/
def fourStore : Tree :=
  { last_id := 3
    node_dict := [(0, ⟨0, {}, -1, []⟩), (1, ⟨1, {}, -1, []⟩),
                  (2, ⟨2, {}, -1, []⟩), (3, ⟨3, {}, -1, []⟩)]
    node_layers := [[0, 1, 2, 3]]
    node_yxs := [(0, 0, 0), (1, 0, 1), (2, 0, 2), (3, 0, 3)]
    settings := {} }

/-! ### C9: `MoveNode` with equal `old_x`/`new_x` is a validation-free no-op -/

/-- C9: for every store state, every id and every x, `MoveNode(id, x, x)`
returns without raising and leaves the store untouched — the equal-x early
return precedes all validation, so the id need not even exist. -/
theorem c9_movenode_equal_x_noop (t : Tree) (id x : Int) :
    t.applyEdit (.MoveNode id x x) = (t, none) := by
  simp [Tree.applyEdit]

/-! ### C3: the reverse index goes stale after an interior `MoveNode` -/

/-- C3 (code bug): on the well-formed four-node layer `[0,1,2,3]`,
`MoveNode(0, 0, 2)` succeeds and yields layer `[1, 2, 0, 3]`, in which id 2
actually sits at position 1 — yet `get_node_yx 2` still answers `(0, 2)`
(the position now occupied by id 0): the shift loop covers only the slice
`[old_x+1 : new_x]` although the list surgery also displaces the node at
index `new_x`. -/
theorem c3_movenode_stale_reverse_index :
    (fourStore.applyEdit (.MoveNode 0 0 2)).2 = none ∧
    (fourStore.applyEdit (.MoveNode 0 0 2)).1.node_layers = [[1, 2, 0, 3]] ∧
    [1, 2, 0, 3].get? 1 = some 2 ∧
    (fourStore.applyEdit (.MoveNode 0 0 2)).1.get_node_yx 2 = some (0, 2) ∧
    (fourStore.applyEdit (.MoveNode 0 0 2)).1.get_node_yx 0 = some (0, 2) := by
  decide

/-! ### C10: `NewRightmostNode` accepts negative layer indices -/

/-- Normalisation of an in-range negative index. -/
theorem pyNorm_neg (n : Nat) (y : Int) (h1 : -(n : Int) ≤ y) (h2 : y < 0) :
    pyNorm n y = some ((n : Int) + y).toNat := by
  unfold pyNorm
  rw [if_neg (by omega), if_pos (by omega)]

/-- C10: on a store with `n ≥ 1` layers and `-n ≤ y ≤ -1`, applying
`NewRightmostNode(y, id, card)` does not raise; the node is appended to
layer `n + y` (Python negative indexing) while the reverse index records
the negative `y` itself, so `get_node_yx` afterwards answers a layer index
that no actual layer position `0 ≤ j < n` can match. No range validation
is performed. -/
theorem c10_newrightmost_negative_y (t : Tree) (y id : Int) (card : Card)
    (hn : 1 ≤ t.node_layers.length) (h1 : -(t.node_layers.length : Int) ≤ y)
    (h2 : y < 0) :
    (t.applyEdit (.NewRightmostNode y id card)).2 = none ∧
    (t.applyEdit (.NewRightmostNode y id card)).1.node_layers =
      t.node_layers.set ((t.node_layers.length : Int) + y).toNat
        ((t.node_layers.getD ((t.node_layers.length : Int) + y).toNat []) ++ [id]) ∧
    (t.applyEdit (.NewRightmostNode y id card)).1.get_node_yx id =
      some (y, ((t.node_layers.getD ((t.node_layers.length : Int) + y).toNat
        []).length : Int)) ∧
    ∀ j : Nat, (j : Int) ≠ y := by
  have hnorm := pyNorm_neg t.node_layers.length y h1 h2
  refine ⟨?_, ?_, ?_, ?_⟩
  · simp [Tree.applyEdit, hnorm]
  · simp [Tree.applyEdit, hnorm]
  · simp only [Tree.applyEdit, hnorm, Tree.get_node_yx]
    exact alookup_ainsert_self _ _ _
  · intro j
    omega

theorem c10_witness :
    (fourStore.applyEdit (.NewRightmostNode (-1) 9 {})).2 = none ∧
    ∀ j : Nat, (j : Int) ≠ (-1 : Int) :=
  have h := c10_newrightmost_negative_y fourStore (-1) 9 {}
    (by decide) (by decide) (by decide)
  ⟨h.1, h.2.2.2⟩

/-! ### The five structural invariants (spec §3) -/

/-- Invariant 1: the reverse index and the layer cells correspond exactly —
every indexed id's cached `(y, x)` addresses the cell holding that id, and
every cell's id is indexed with precisely its coordinates (hence "exactly
one cell" per id). -/
def inv1B (t : Tree) : Bool :=
  (t.node_yxs.all fun p =>
    decide (0 ≤ p.2.1) && decide (0 ≤ p.2.2) &&
      decide (((t.node_layers.get? p.2.1.toNat).bind fun L =>
        L.get? p.2.2.toNat) = some p.1)) &&
  (t.node_layers.enum.all fun jL => jL.2.enum.all fun ix =>
    decide (alookup t.node_yxs ix.2 = some ((jL.1 : Int), (ix.1 : Int))))

/-- Invariant 2: `child_id ∈ parent.child_ids ⇔ child.parent_id == parent_id`
for stored nodes. -/
def inv2B (t : Tree) : Bool :=
  t.node_dict.all fun p => t.node_dict.all fun c =>
    decide (c.1 ∈ p.2.child_ids) == decide (c.2.parent_id = p.1)

/-- Invariant 3: a recorded relation implies `child.y == parent.y + 1`. -/
def inv3B (t : Tree) : Bool :=
  t.node_dict.all fun p => p.2.child_ids.all fun c =>
    match alookup t.node_yxs p.1, alookup t.node_yxs c with
    | some a, some b => decide (b.1 = a.1 + 1)
    | _, _ => true

/-- Invariant 4: no layer is empty (contiguity is structural in the list
model). -/
def inv4B (t : Tree) : Bool := t.node_layers.all fun L => !L.isEmpty

def childOrderOkB (yxs : List (Int × Int × Int)) : List Int → Bool
  | [] => true
  | [_] => true
  | a :: b :: rest =>
    (match alookup yxs a, alookup yxs b with
     | some pa, some pb => decide (pa.2 < pb.2)
     | _, _ => true) && childOrderOkB yxs (b :: rest)

/-- Invariant 5: each node's child list is ordered consistently with the
children's left-to-right `x` order. -/
def inv5B (t : Tree) : Bool :=
  t.node_dict.all fun p => childOrderOkB t.node_yxs p.2.child_ids

/-- The `Inv1` correspondence in quantifier form. -/
def Inv1P (t : Tree) : Prop :=
  (∀ p ∈ t.node_yxs, 0 ≤ p.2.1 ∧ 0 ≤ p.2.2 ∧
    ((t.node_layers.get? p.2.1.toNat).bind fun L =>
      L.get? p.2.2.toNat) = some p.1) ∧
  (∀ (j : Nat) (L : List Int), t.node_layers.get? j = some L →
    ∀ (i : Nat) (id : Int), L.get? i = some id →
      alookup t.node_yxs id = some ((j : Int), (i : Int)))

theorem inv1B_iff (t : Tree) : inv1B t = true ↔ Inv1P t := by
  unfold inv1B Inv1P
  rw [Bool.and_eq_true, List.all_eq_true, List.all_eq_true]
  constructor
  · rintro ⟨ha, hb⟩
    refine ⟨fun p hp => ?_, fun j L hL i id hid => ?_⟩
    · have := ha p hp
      simp only [Bool.and_eq_true, decide_eq_true_eq] at this
      exact ⟨this.1.1, this.1.2, this.2⟩
    · have hmem : ((j, L) : Nat × List Int) ∈ t.node_layers.enum := by
        rw [List.mk_mem_enum_iff_getElem?, ← List.get?_eq_getElem?]
        exact hL
      have hall := hb _ hmem
      rw [List.all_eq_true] at hall
      have hmem2 : ((i, id) : Nat × Int) ∈ L.enum := by
        rw [List.mk_mem_enum_iff_getElem?, ← List.get?_eq_getElem?]
        exact hid
      simpa using hall _ hmem2
  · rintro ⟨ha, hb⟩
    refine ⟨fun p hp => ?_, fun jL hjL => ?_⟩
    · have := ha p hp
      simp only [Bool.and_eq_true, decide_eq_true_eq]
      exact ⟨⟨this.1, this.2.1⟩, this.2.2⟩
    · rw [List.all_eq_true]
      intro ix hix
      obtain ⟨j, L⟩ := jL
      obtain ⟨i, id⟩ := ix
      rw [List.mk_mem_enum_iff_getElem?, ← List.get?_eq_getElem?] at hjL hix
      simpa using hb j L hjL i id hix

theorem inv2B_iff (t : Tree) : inv2B t = true ↔
    ∀ p ∈ t.node_dict, ∀ c ∈ t.node_dict,
      (c.1 ∈ p.2.child_ids ↔ c.2.parent_id = p.1) := by
  unfold inv2B
  simp only [List.all_eq_true, beq_iff_eq, decide_eq_decide]

theorem inv3B_iff (t : Tree) : inv3B t = true ↔
    ∀ p ∈ t.node_dict, ∀ c ∈ p.2.child_ids, ∀ a b,
      alookup t.node_yxs p.1 = some a → alookup t.node_yxs c = some b →
      b.1 = a.1 + 1 := by
  unfold inv3B
  rw [List.all_eq_true]
  constructor
  · intro h p hp c hc a b hpa hcb
    have h2 := h p hp
    rw [List.all_eq_true] at h2
    have h3 := h2 c hc
    rw [hpa, hcb] at h3
    simpa using h3
  · intro h p hp
    rw [List.all_eq_true]
    intro c hc
    cases hpa : alookup t.node_yxs p.1 with
    | none => rfl
    | some a =>
      cases hcb : alookup t.node_yxs c with
      | none => rfl
      | some b =>
        simpa using h p hp c hc a b hpa hcb

/-! ### Helper lemmas for invariant preservation -/

theorem pyNorm_natCast (n i : Nat) (h : i < n) : pyNorm n (i : Int) = some i := by
  unfold pyNorm
  rw [if_pos (by omega), if_pos (by exact_mod_cast h)]
  simp

theorem pySliceFrom_natCast (l : List α) (a : Nat) (h : a ≤ l.length) :
    pySliceFrom l (a : Int) = l.drop a := by
  unfold pySliceFrom pyBound
  rw [if_pos (by omega)]
  simp [min_eq_left h]

/-- Under invariant 1 the flattened cell list has no duplicates. -/
theorem inv1_join_nodup (t : Tree) (h : Inv1P t) : t.node_layers.join.Nodup := by
  rw [List.nodup_join]
  constructor
  · intro L hL
    obtain ⟨j, hj⟩ := List.mem_iff_getElem?.1 hL
    show List.Pairwise (· ≠ ·) L
    rw [List.pairwise_iff_getElem]
    intro i1 i2 hi1 hi2 hlt
    intro heq
    have e1 : L.get? i1 = some L[i1] := by
      rw [List.get?_eq_getElem?]; exact List.getElem?_eq_getElem hi1
    have e2 : L.get? i2 = some L[i2] := by
      rw [List.get?_eq_getElem?]; exact List.getElem?_eq_getElem hi2
    have hj' : t.node_layers.get? j = some L := by
      rw [List.get?_eq_getElem?]; exact hj
    have l1 := h.2 j L hj' i1 _ e1
    have l2 := h.2 j L hj' i2 _ e2
    rw [heq] at l1
    rw [l1] at l2
    have : (i2 : Int) = (i1 : Int) := by
      have := Option.some.inj l2
      exact (Prod.mk.injEq _ _ _ _ ▸ this).2.symm
    omega
  · rw [List.pairwise_iff_getElem]
    intro j1 j2 hj1 hj2 hlt
    rw [List.disjoint_left]
    intro id hid1 hid2
    obtain ⟨i1, hi1⟩ := List.mem_iff_getElem?.1 hid1
    obtain ⟨i2, hi2⟩ := List.mem_iff_getElem?.1 hid2
    have g1 : t.node_layers.get? j1 = some t.node_layers[j1] := by
      rw [List.get?_eq_getElem?]; exact List.getElem?_eq_getElem hj1
    have g2 : t.node_layers.get? j2 = some t.node_layers[j2] := by
      rw [List.get?_eq_getElem?]; exact List.getElem?_eq_getElem hj2
    have l1 := h.2 j1 _ g1 i1 id (by rw [List.get?_eq_getElem?]; exact hi1)
    have l2 := h.2 j2 _ g2 i2 id (by rw [List.get?_eq_getElem?]; exact hi2)
    rw [l1] at l2
    have : ((j1 : Int), (i1 : Int)) = ((j2 : Int), (i2 : Int)) :=
      Option.some.inj l2
    have : (j1 : Int) = (j2 : Int) := (Prod.mk.injEq _ _ _ _ ▸ this).1
    omega

/-- Under invariant 1, membership in the cells below layer `jn` is the
same as having a cached `y` greater than `jn`. -/
theorem inv1_mem_slice_iff (t : Tree) (h : Inv1P t) (jn : Nat) (id : Int) :
    id ∈ (t.node_layers.drop (jn + 1)).join ↔
      ∃ q, alookup t.node_yxs id = some q ∧ (jn : Int) < q.1 := by
  constructor
  · intro hid
    obtain ⟨L, hL, hidL⟩ := List.mem_join.1 hid
    obtain ⟨d, hd⟩ := List.mem_iff_getElem?.1 hL
    rw [List.getElem?_drop] at hd
    obtain ⟨i, hi⟩ := List.mem_iff_getElem?.1 hidL
    have := h.2 (jn + 1 + d) L (by rw [List.get?_eq_getElem?]; exact hd) i id
      (by rw [List.get?_eq_getElem?]; exact hi)
    exact ⟨_, this, by push_cast; omega⟩
  · rintro ⟨⟨yq, xq⟩, hq, hlt⟩
    have hmem := mem_of_alookup hq
    obtain ⟨hy0, hx0, hcell⟩ := h.1 _ hmem
    simp only at hy0 hx0 hcell hlt
    obtain ⟨L, hL, hidL⟩ : ∃ L, t.node_layers.get? yq.toNat = some L ∧
        L.get? xq.toNat = some id := by
      cases hLo : t.node_layers.get? yq.toNat with
      | none => rw [hLo] at hcell; cases hcell
      | some L => rw [hLo] at hcell; exact ⟨L, rfl, hcell⟩
    refine List.mem_join.2 ⟨L, ?_, ?_⟩
    · rw [List.mem_iff_getElem?]
      refine ⟨yq.toNat - (jn + 1), ?_⟩
      rw [List.getElem?_drop]
      have : jn + 1 + (yq.toNat - (jn + 1)) = yq.toNat := by omega
      rw [this, ← List.get?_eq_getElem?]
      exact hL
    · exact List.get?_mem hidL

/-- A store satisfying all five invariants: nodes 0, 1 on layer 0 and node
2 on layer 1, with 2 a child of 0. -/
def c4Store : Tree :=
  { last_id := 2
    node_dict := [(0, ⟨0, {}, -1, [2]⟩), (1, ⟨1, {}, -1, []⟩),
                  (2, ⟨2, {}, 0, []⟩)]
    node_layers := [[0, 1], [2]]
    node_yxs := [(0, 0, 0), (1, 0, 1), (2, 1, 0)]
    settings := {} }

theorem childOrderOkB_congr (yxs' yxs : List (Int × Int × Int))
    (hx : ∀ k, (alookup yxs' k).map (fun q => q.2) =
      (alookup yxs k).map (fun q => q.2)) :
    ∀ l, childOrderOkB yxs' l = childOrderOkB yxs l := by
  intro l
  induction l with
  | nil => rfl
  | cons a l ih =>
    cases l with
    | nil => rfl
    | cons b rest =>
      rw [childOrderOkB, childOrderOkB, ih]
      congr 1
      have ha := hx a
      have hb := hx b
      cases h1 : alookup yxs' a with
      | none =>
        rw [h1] at ha
        have h1' : alookup yxs a = none := by
          cases h : alookup yxs a with
          | none => rfl
          | some q => rw [h] at ha; cases ha
        rw [h1']
      | some pa' =>
        rw [h1] at ha
        cases h1' : alookup yxs a with
        | none => rw [h1'] at ha; cases ha
        | some pa =>
          rw [h1'] at ha
          have hxa : pa'.2 = pa.2 := by
            simpa using ha
          cases h2 : alookup yxs' b with
          | none =>
            rw [h2] at hb
            have h2' : alookup yxs b = none := by
              cases h : alookup yxs b with
              | none => rfl
              | some q => rw [h] at hb; cases hb
            rw [h2']
          | some pb' =>
            rw [h2] at hb
            cases h2' : alookup yxs b with
            | none => rw [h2'] at hb; cases hb
            | some pb =>
              rw [h2'] at hb
              have hxb : pb'.2 = pb.2 := by
                simpa using hb
              simp only [hxa, hxb]

/-- C4 (counterexample): on `c4Store`, where all five invariants hold,
`SetAsChild(1, 2)` — re-parenting node 2, which already has parent 0 —
completes without raising any error, and afterwards the parent-child
biconditional is violated (node 0 still lists 2 as a child while 2's
parent is 1). -/
theorem c4_counterexample :
    (inv1B c4Store && inv2B c4Store && inv3B c4Store && inv4B c4Store &&
      inv5B c4Store) = true ∧
    (c4Store.applyEdit (.SetAsChild 1 2)).2 = none ∧
    inv2B (c4Store.applyEdit (.SetAsChild 1 2)).1 = false := by
  decide

/-- C4 (amended): on a store satisfying the invariants (with non-negative
ids and a well-formed reverse index, as the data model prescribes):
a `SetAsChild` whose child has no recorded parent either raises a typed
edit error leaving the store untouched, or preserves invariants 1–4
(child order, invariant 5, is the composite builders' responsibility, not
the atomic edit's); and a `DeleteLayer` aimed at an empty layer completes
without raising and preserves invariants 1, 2, 3 and 5. Without the
provisos the code violates invariants silently (see the counterexample). -/
theorem c4_amended (t : Tree) (p c : Int)
    (h1 : inv1B t = true) (h2 : inv2B t = true) (h3 : inv3B t = true)
    (h5 : inv5B t = true)
    (hnn : ∀ q ∈ t.node_dict, 0 ≤ q.1)
    (hsy : SKeys t.node_yxs) :
    ((∀ n ∈ alookup t.node_dict c, n.parent_id < 0) →
      ((t.applyEdit (.SetAsChild p c)).2.isSome →
        (t.applyEdit (.SetAsChild p c)).1 = t) ∧
      ((t.applyEdit (.SetAsChild p c)).2 = none →
        inv1B (t.applyEdit (.SetAsChild p c)).1 = inv1B t ∧
        inv4B (t.applyEdit (.SetAsChild p c)).1 = inv4B t ∧
        inv2B (t.applyEdit (.SetAsChild p c)).1 = true ∧
        inv3B (t.applyEdit (.SetAsChild p c)).1 = true)) ∧
    (∀ jn : Nat, t.node_layers.get? jn = some [] →
      (t.applyEdit (.DeleteLayer (jn : Int))).2 = none ∧
      inv1B (t.applyEdit (.DeleteLayer (jn : Int))).1 = true ∧
      inv2B (t.applyEdit (.DeleteLayer (jn : Int))).1 = true ∧
      inv3B (t.applyEdit (.DeleteLayer (jn : Int))).1 = true ∧
      inv5B (t.applyEdit (.DeleteLayer (jn : Int))).1 = true) := by
  constructor
  · -- SetAsChild with a parentless child
    intro hparent
    cases hP : alookup t.node_dict p with
    | none =>
      refine ⟨fun _ => ?_, fun hnone => ?_⟩
      · simp [Tree.applyEdit, hP]
      · simp [Tree.applyEdit, hP] at hnone
    | some P =>
      cases hC : alookup t.node_dict c with
      | none =>
        refine ⟨fun _ => ?_, fun hnone => ?_⟩
        · simp [Tree.applyEdit, hP, hC]
        · simp [Tree.applyEdit, hP, hC] at hnone
      | some C =>
        by_cases hdup : c ∈ P.child_ids ∨ C.parent_id = p
        · refine ⟨fun _ => ?_, fun hnone => ?_⟩
          · simp [Tree.applyEdit, hP, hC, hdup]
          · simp [Tree.applyEdit, hP, hC, hdup] at hnone
        · cases hyP : alookup t.node_yxs p with
          | none =>
            refine ⟨fun _ => ?_, fun hnone => ?_⟩
            · simp [Tree.applyEdit, hP, hC, hdup, hyP]
            · simp [Tree.applyEdit, hP, hC, hdup, hyP] at hnone
          | some ap =>
            obtain ⟨py, px⟩ := ap
            cases hyC : alookup t.node_yxs c with
            | none =>
              refine ⟨fun _ => ?_, fun hnone => ?_⟩
              · simp [Tree.applyEdit, hP, hC, hdup, hyP, hyC]
              · simp [Tree.applyEdit, hP, hC, hdup, hyP, hyC] at hnone
            | some ac =>
              obtain ⟨cy, cx⟩ := ac
              by_cases hadj : cy = py + 1
              · -- the successful branch
                have happ := applyEdit_setAsChild_success t p c P C py px cy cx
                  hP hC hdup hyP hyC hadj
                have hpc : p ≠ c := by
                  intro he
                  rw [he, hyC, Option.some.injEq, Prod.mk.injEq] at hyP
                  omega
                refine ⟨fun hsome => ?_, fun _ => ?_⟩
                · rw [happ] at hsome
                  cases hsome
                have horig := (inv2B_iff t).1 h2
                have horig3 := (inv3B_iff t).1 h3
                have hCmem : (c, C) ∈ t.node_dict := mem_of_alookup hC
                have hCp : C.parent_id < 0 := hparent C hC
                have hnoc : ∀ q ∈ t.node_dict, c ∉ q.2.child_ids := by
                  intro q hq hcin
                  have hb : C.parent_id = q.1 := (horig q hq (c, C) hCmem).1 hcin
                  have := hnn q hq
                  omega
                refine ⟨?_, ?_, ?_, ?_⟩
                · rw [happ]
                  rfl
                · rw [happ]
                  rfl
                · -- invariant 2 after the edit
                  rw [happ]
                  apply (inv2B_iff _).2
                  intro p' hp' c' hc'
                  simp only [List.mem_map] at hp' hc'
                  obtain ⟨q1, hq1, rfl⟩ := hp'
                  obtain ⟨q2, hq2, rfl⟩ := hc'
                  simp only [setChildMap_fst, setChildMap_child_ids _ _ _ hpc,
                    setChildMap_parent _ _ _ hpc]
                  by_cases hq1p : q1.1 = p
                  · rw [if_pos hq1p]
                    by_cases hq2c : q2.1 = c
                    · rw [if_pos hq2c]
                      refine iff_of_true ?_ ?_
                      · rw [hq2c]
                        exact List.mem_append_right _ (by simp)
                      · rw [hq1p]
                    · rw [if_neg hq2c]
                      have hbase := horig q1 hq1 q2 hq2
                      rw [hq1p] at hbase ⊢
                      constructor
                      · intro hin
                        rcases List.mem_append.1 hin with h | h
                        · exact hbase.1 h
                        · simp at h
                          exact absurd h hq2c
                      · intro hpar
                        exact List.mem_append_left _ (hbase.2 hpar)
                  · rw [if_neg hq1p]
                    by_cases hq2c : q2.1 = c
                    · rw [if_pos hq2c]
                      refine iff_of_false ?_ ?_
                      · rw [hq2c]
                        exact hnoc q1 hq1
                      · exact fun he => hq1p he.symm
                    · rw [if_neg hq2c]
                      exact horig q1 hq1 q2 hq2
                · -- invariant 3 after the edit
                  rw [happ]
                  apply (inv3B_iff _).2
                  intro p' hp' ch hch a b hpa hcb
                  simp only [List.mem_map] at hp'
                  obtain ⟨q1, hq1, rfl⟩ := hp'
                  simp only [setChildMap_fst] at hpa
                  simp only [setChildMap_child_ids _ _ _ hpc] at hch
                  by_cases hq1p : q1.1 = p
                  · rw [if_pos hq1p] at hch
                    rcases List.mem_append.1 hch with h | h
                    · exact horig3 q1 hq1 ch h a b hpa hcb
                    · simp at h
                      subst h
                      rw [hq1p, hyP] at hpa
                      rw [hyC] at hcb
                      cases hpa
                      cases hcb
                      simpa using hadj
                  · rw [if_neg hq1p] at hch
                    exact horig3 q1 hq1 ch hch a b hpa hcb
              · -- adjacency failure raises
                refine ⟨fun _ => ?_, fun hnone => ?_⟩
                · simp [Tree.applyEdit, hP, hC, hdup, hyP, hyC, hadj]
                · simp [Tree.applyEdit, hP, hC, hdup, hyP, hyC, hadj] at hnone
  · -- DeleteLayer on an empty layer
    intro jn hJempty
    have hlt : jn < t.node_layers.length := by
      obtain ⟨hlt', _⟩ := List.get?_eq_some.1 hJempty
      exact hlt'
    have hInv1 := (inv1B_iff t).1 h1
    have hcast : ((jn : Int) + 1) = ((jn + 1 : Nat) : Int) := by push_cast; ring
    have hslice : pySliceFrom t.node_layers ((jn : Int) + 1) =
        t.node_layers.drop (jn + 1) := by
      rw [hcast, pySliceFrom_natCast _ _ (by omega)]
    have hmemS : ∀ id ∈ (t.node_layers.drop (jn + 1)).join,
        ∃ q, alookup t.node_yxs id = some q := by
      intro id hid
      obtain ⟨q, hq, _⟩ := (inv1_mem_slice_iff t hInv1 jn id).1 hid
      exact ⟨q, hq⟩
    have hndS : (t.node_layers.drop (jn + 1)).join.Nodup := by
      have hjoin := inv1_join_nodup t hInv1
      have hsplit : t.node_layers.join =
          (t.node_layers.take (jn + 1)).join ++
            (t.node_layers.drop (jn + 1)).join := by
        rw [← List.join_append, List.take_append_drop]
      rw [hsplit] at hjoin
      exact (List.nodup_append.1 hjoin).2.1
    obtain ⟨hbe, hbs, hbchar⟩ :=
      bumpYs_spec (t.node_layers.drop (jn + 1)).join t.node_yxs (-1) hsy
        hndS hmemS
    have hbpair : bumpYs t.node_yxs
        (pySliceFrom t.node_layers ((jn : Int) + 1)).join (-1) =
        ((bumpYs t.node_yxs (t.node_layers.drop (jn + 1)).join (-1)).1,
          none) := by
      rw [hslice]
      exact Prod.ext rfl hbe
    have happ : t.applyEdit (.DeleteLayer (jn : Int)) =
        ({ t with
            node_yxs :=
              (bumpYs t.node_yxs (t.node_layers.drop (jn + 1)).join (-1)).1
            node_layers := t.node_layers.eraseIdx jn }, none) := by
      simp [Tree.applyEdit, hbpair, pyNorm_natCast _ _ hlt]
    -- the x-components of the reverse index are untouched
    have hxcomp : ∀ k,
        (alookup (bumpYs t.node_yxs
          (t.node_layers.drop (jn + 1)).join (-1)).1 k).map
            (fun q => q.2) =
        (alookup t.node_yxs k).map (fun q => q.2) := by
      intro k
      rw [hbchar k]
      by_cases hk : k ∈ (t.node_layers.drop (jn + 1)).join
      · rw [if_pos hk, Option.map_map]
        rfl
      · rw [if_neg hk]
    -- no id can be cached on the (empty) layer `jn`
    have hnotjn : ∀ id yq xq, alookup t.node_yxs id = some (yq, xq) →
        yq ≠ (jn : Int) := by
      intro id yq xq hq he
      obtain ⟨_, _, hcell⟩ := hInv1.1 _ (mem_of_alookup hq)
      simp only [he] at hcell
      rw [Int.toNat_natCast, hJempty] at hcell
      simp at hcell
    -- membership in the bumped set, phrased through the cache
    have hmem_iff : ∀ id yq xq, alookup t.node_yxs id = some (yq, xq) →
        (id ∈ (t.node_layers.drop (jn + 1)).join ↔ (jn : Int) < yq) := by
      intro id yq xq hq
      constructor
      · intro hid
        obtain ⟨q, hq', hlt'⟩ := (inv1_mem_slice_iff t hInv1 jn id).1 hid
        rw [hq] at hq'
        cases hq'
        exact hlt'
      · intro hlt'
        exact (inv1_mem_slice_iff t hInv1 jn id).2 ⟨(yq, xq), hq, hlt'⟩
    refine ⟨?_, ?_, ?_, ?_, ?_⟩
    · rw [happ]
    · -- invariant 1 is preserved
      rw [happ]
      apply (inv1B_iff _).2
      constructor
      · intro q hq
        obtain ⟨k, yk, xk⟩ := q
        have hql : alookup (bumpYs t.node_yxs
            (t.node_layers.drop (jn + 1)).join (-1)).1 k = some (yk, xk) :=
          alookup_of_mem hbs.nodup hq
        rw [hbchar k] at hql
        by_cases hk : k ∈ (t.node_layers.drop (jn + 1)).join
        · rw [if_pos hk] at hql
          cases horig : alookup t.node_yxs k with
          | none => rw [horig] at hql; cases hql
          | some q0 =>
            obtain ⟨y0, x0⟩ := q0
            rw [horig, Option.map_some', Option.some.injEq,
              Prod.mk.injEq] at hql
            obtain ⟨hyk, hxk⟩ := hql
            have hgt : (jn : Int) < y0 := (hmem_iff _ _ _ horig).1 hk
            obtain ⟨hy0, hx0, hcell⟩ := hInv1.1 _ (mem_of_alookup horig)
            simp only at hy0 hx0 hcell
            refine ⟨by simp only; omega, by simp only; omega, ?_⟩
            simp only
            have hget : (t.node_layers.eraseIdx jn).get? yk.toNat =
                t.node_layers.get? y0.toNat := by
              rw [List.get?_eq_getElem?, List.get?_eq_getElem?,
                List.getElem?_eraseIdx_of_ge _ _ _ (by omega)]
              congr 1
              omega
            rw [hget, ← hxk]
            exact hcell
        · rw [if_neg hk] at hql
          have hle : yk ≤ (jn : Int) := by
            by_contra hgt
            exact hk ((hmem_iff _ _ _ hql).2 (by omega))
          have hne : yk ≠ (jn : Int) := hnotjn _ _ _ hql
          obtain ⟨hy0, hx0, hcell⟩ := hInv1.1 _ (mem_of_alookup hql)
          simp only at hy0 hx0 hcell
          refine ⟨by simp only; omega, by simp only; omega, ?_⟩
          simp only
          have hget : (t.node_layers.eraseIdx jn).get? yk.toNat =
              t.node_layers.get? yk.toNat := by
            rw [List.get?_eq_getElem?, List.get?_eq_getElem?,
              List.getElem?_eraseIdx_of_lt _ _ _ (by omega)]
          rw [hget]
          exact hcell
      · intro j L hL i id hid
        rw [List.get?_eq_getElem?] at hL
        by_cases hj : j < jn
        · rw [List.getElem?_eraseIdx_of_lt _ _ _ hj,
            ← List.get?_eq_getElem?] at hL
          have horig := hInv1.2 j L hL i id hid
          rw [hbchar id, if_neg ?_]
          · exact horig
          · intro hin
            have := (hmem_iff _ _ _ horig).1 hin
            omega
        · rw [List.getElem?_eraseIdx_of_ge _ _ _ (by omega),
            ← List.get?_eq_getElem?] at hL
          have horig := hInv1.2 (j + 1) L hL i id hid
          rw [hbchar id, if_pos ((hmem_iff _ _ _ horig).2 (by push_cast; omega))]
          rw [horig, Option.map_some']
          congr 1
          rw [Prod.mk.injEq]
          constructor
          · push_cast
            ring
          · rfl
    · -- invariant 2 reads only the dict
      rw [happ]
      exact h2
    · -- invariant 3 is preserved
      rw [happ]
      apply (inv3B_iff _).2
      intro q hq ch hch a b hpa hcb
      obtain ⟨ya, xa⟩ := a
      obtain ⟨yb, xb⟩ := b
      have horig3 := (inv3B_iff t).1 h3
      rw [hbchar q.1] at hpa
      rw [hbchar ch] at hcb
      show yb = ya + 1
      by_cases hkp : q.1 ∈ (t.node_layers.drop (jn + 1)).join
      · rw [if_pos hkp] at hpa
        cases hoa : alookup t.node_yxs q.1 with
        | none => rw [hoa] at hpa; cases hpa
        | some a0 =>
          obtain ⟨ya0, xa0⟩ := a0
          rw [hoa, Option.map_some', Option.some.injEq, Prod.mk.injEq] at hpa
          have hgta : (jn : Int) < ya0 := (hmem_iff _ _ _ hoa).1 hkp
          by_cases hkc : ch ∈ (t.node_layers.drop (jn + 1)).join
          · rw [if_pos hkc] at hcb
            cases hob : alookup t.node_yxs ch with
            | none => rw [hob] at hcb; cases hcb
            | some b0 =>
              obtain ⟨yb0, xb0⟩ := b0
              rw [hob, Option.map_some', Option.some.injEq,
                Prod.mk.injEq] at hcb
              have hstep := horig3 q hq ch hch _ _ hoa hob
              simp only at hstep
              omega
          · rw [if_neg hkc] at hcb
            have hstep := horig3 q hq ch hch _ _ hoa hcb
            simp only at hstep
            -- the child would sit below layer jn yet above the parent
            exact absurd ((hmem_iff _ _ _ hcb).2 (by omega)) hkc
      · rw [if_neg hkp] at hpa
        have hlea : ya ≤ (jn : Int) := by
          by_contra hgt
          exact hkp ((hmem_iff _ _ _ hpa).2 (by omega))
        have hnea : ya ≠ (jn : Int) := hnotjn _ _ _ hpa
        by_cases hkc : ch ∈ (t.node_layers.drop (jn + 1)).join
        · rw [if_pos hkc] at hcb
          cases hob : alookup t.node_yxs ch with
          | none => rw [hob] at hcb; cases hcb
          | some b0 =>
            obtain ⟨yb0, xb0⟩ := b0
            rw [hob, Option.map_some', Option.some.injEq,
              Prod.mk.injEq] at hcb
            have hstep := horig3 q hq ch hch _ _ hpa hob
            simp only at hstep
            have hgtb : (jn : Int) < yb0 := (hmem_iff _ _ _ hob).1 hkc
            omega
        · rw [if_neg hkc] at hcb
          have hstep := horig3 q hq ch hch _ _ hpa hcb
          simpa using hstep
    · -- invariant 5: the x components are untouched
      rw [happ]
      unfold inv5B
      rw [show (fun q : Int × Node => childOrderOkB
          (bumpYs t.node_yxs (t.node_layers.drop (jn + 1)).join (-1)).1
          q.2.child_ids) =
        (fun q : Int × Node => childOrderOkB t.node_yxs q.2.child_ids) from
        funext fun q => childOrderOkB_congr _ _ hxcomp q.2.child_ids]
      exact h5

/-- Invariant-satisfying store with an empty middle layer, for discharging
the hypotheses of the amended C4 theorem. -/
def c4wStore : Tree :=
  { last_id := 2
    node_dict := [(0, ⟨0, {}, -1, []⟩), (1, ⟨1, {}, -1, []⟩),
                  (2, ⟨2, {}, -1, []⟩)]
    node_layers := [[0, 1], [], [2]]
    node_yxs := [(0, 0, 0), (1, 0, 1), (2, 2, 0)]
    settings := {} }

theorem c4_amended_witness :
    (c4wStore.applyEdit (.DeleteLayer ((1 : Nat) : Int))).2 = none ∧
    inv1B (c4wStore.applyEdit (.DeleteLayer ((1 : Nat) : Int))).1 = true :=
  have h := c4_amended c4wStore 0 2 (by decide) (by decide) (by decide)
    (by decide) (by decide)
    (by norm_num [SKeys, akeys, c4wStore, List.chain'_cons])
  ⟨(h.2 1 (by decide)).1, (h.2 1 (by decide)).2.1⟩

/-! ### C8: the redo stack is not cleared by a new operation -/

/-- A concrete session run: do one operation, undo it, then do a fresh
operation while the redo stack is non-empty. -/
def c8Run : Session :=
  ((({ tree := {}, undo_stack := [], redo_stack := [] } : Session).doOp
      [.NewLayer 0, .NewRightmostNode 0 0 {}]).undoOp).doOp [.NewLayer 0]

/-- C8 (code bug): after do‑undo‑do, the redo stack still holds the undone
sequence — `Window._do` pushes onto the undo stack but never clears
`_redo_stack`, although the spec requires a new operation to clear it
(and calls the omission a defect). Only `_undo` ever pushes onto redo. -/
theorem c8_redo_stack_not_cleared :
    c8Run.redo_stack = [[.NewLayer 0, .NewRightmostNode 0 0 {}]] ∧
    c8Run.redo_stack ≠ [] := by
  decide

/-! ### C6: generation-index consistency -/

theorem pyIdx_natCast (l : List α) (i : Nat) (h : i < l.length) :
    pyIdx l (i : Int) = l.get? i := by
  unfold pyIdx pyNorm
  rw [if_pos (by omega), if_pos (by exact_mod_cast h)]
  simp

theorem applyEdit_mgi (t : Tree) (id gi_index old v y x : Int)
    (hyx : alookup t.node_yxs id = some (y, x))
    (d : GenerationIndexDefinition)
    (hd : pyIdx t.settings.gi.defs gi_index = some d) :
    t.applyEdit (.ModifyGenerationIndex id gi_index old v) =
      ({ t with settings := { t.settings with gi :=
          { t.settings.gi with base := v - d.offset - y } } }, none) := by
  simp [Tree.applyEdit, hyx, hd]

/-- C6: (a) any two nodes recorded on the same layer have identical
generation-index lists; after `ModifyGenerationIndex(id, i, old, v)`
completes (which it does whenever the id is indexed and `i` is a valid
definition index), (b) the node's list still comes from its layer and its
`i`-th entry is exactly `v`, and (c) the difference between any two
generation indices (any nodes, any definitions) is unchanged — the whole
table shifts uniformly through the shared base. -/
theorem c6_generation_index_consistency (t : Tree) (id : Int) (gi_index : Nat)
    (old v y x : Int)
    (hyx : alookup t.node_yxs id = some (y, x))
    (hi : gi_index < t.settings.gi.defs.length) :
    (∀ a b p q, alookup t.node_yxs a = some p → alookup t.node_yxs b = some q →
      p.1 = q.1 → t.compute_gi a = t.compute_gi b) ∧
    (t.applyEdit (.ModifyGenerationIndex id (gi_index : Int) old v)).2 = none ∧
    ((t.applyEdit (.ModifyGenerationIndex id (gi_index : Int) old v)).1.compute_gi
        id =
      some ((t.applyEdit
        (.ModifyGenerationIndex id (gi_index : Int) old v)).1.compute_layer_gi
          y)) ∧
    (((t.applyEdit
        (.ModifyGenerationIndex id (gi_index : Int) old v)).1.compute_layer_gi
          y).get? gi_index = some v) ∧
    (∀ (y1 y2 : Int) (j k : Nat) (g1 g2 g1' g2' : Int),
      (t.compute_layer_gi y1).get? j = some g1 →
      (t.compute_layer_gi y2).get? k = some g2 →
      ((t.applyEdit
         (.ModifyGenerationIndex id (gi_index : Int) old v)).1.compute_layer_gi
           y1).get? j = some g1' →
      ((t.applyEdit
         (.ModifyGenerationIndex id (gi_index : Int) old v)).1.compute_layer_gi
           y2).get? k = some g2' →
      g1' - g2' = g1 - g2) := by
  obtain ⟨d, hd⟩ : ∃ d, t.settings.gi.defs.get? gi_index = some d :=
    List.get?_eq_get (l := t.settings.gi.defs) hi ▸ ⟨_, rfl⟩
  have hd' : pyIdx t.settings.gi.defs (gi_index : Int) = some d :=
    (pyIdx_natCast _ _ hi).trans hd
  have happ := applyEdit_mgi t id (gi_index : Int) old v y x hyx d hd'
  refine ⟨?_, ?_, ?_, ?_, ?_⟩
  · intro a b p q hp hq hy
    simp [Tree.compute_gi, hp, hq, Tree.compute_layer_gi, hy]
  · rw [happ]
  · rw [happ]
    simp [Tree.compute_gi, hyx]
  · rw [happ]
    simp only [Tree.compute_layer_gi, List.get?_map, hd, Option.map_some']
    congr 1
    ring
  · intro y1 y2 j k g1 g2 g1' g2' h1 h2 h1' h2'
    rw [happ] at h1' h2'
    simp only [Tree.compute_layer_gi, List.get?_map] at h1 h2 h1' h2'
    obtain ⟨dj, hdj, rfl⟩ := Option.map_eq_some'.1 h1
    obtain ⟨dk, hdk, rfl⟩ := Option.map_eq_some'.1 h2
    rw [hdj] at h1'
    rw [hdk] at h2'
    simp only [Option.map_some', Option.some.injEq] at h1' h2'
    omega

/-- A minimal store for discharging C6's hypotheses: one node. -/
def oneStore : Tree :=
  { last_id := 0
    node_dict := [(0, ⟨0, {}, -1, []⟩)]
    node_layers := [[0]]
    node_yxs := [(0, 0, 0)]
    settings := {} }

theorem c6_witness :
    ((oneStore.applyEdit (.ModifyGenerationIndex 0 0 1 17)).2 = none) ∧
    (((oneStore.applyEdit
        (.ModifyGenerationIndex 0 0 1 17)).1.compute_layer_gi 0).get? 0 =
      some 17) :=
  have h := c6_generation_index_consistency oneStore 0 0 1 17 0 0
    (by decide) (by decide)
  ⟨h.2.1, h.2.2.2.1⟩

/-- C1 (counterexample): the original claim quantifies over every edit
kind and distance, and fails twice over. (1) `ModifyGenerationIndex`: on
a reachable store the one-edit sequence `[ModifyGenerationIndex(0, 0, 1, 5)]`
applies cleanly; `[edit.reverse() for edit in reversed(S)]` is `[None]` —
the subclass never overrides the base `reverse`, whose body is `...` —
and applying it is a silent no-op, so the round trip raises nothing but
the resulting store differs from the start in the queryable generation
index of node 0. (2) Far moves: the valid one-edit sequence
`[MoveNode(0, 0, 2)]` on the four-node layer applies cleanly, but its
reverse `MoveNode(0, 2, 0)` is a leftward move with a non-empty shift
slice, where the loop's stale `id = node.id` rebinding makes the
del/insert/reindex tail act on the wrong node: the replay raises nothing
yet leaves layer `[1, 1, 2, 3]`, not the original `[0, 1, 2, 3]`. -/
theorem c1_counterexample :
    ((oneStore.applyEdits [.ModifyGenerationIndex 0 0 1 5]).2 = none ∧
    ((oneStore.applyEdits [.ModifyGenerationIndex 0 0 1 5]).1.applyOptEdits
      (([.ModifyGenerationIndex 0 0 1 5] : List TreeEdit).reverse.map
        TreeEdit.reverse)).2 = none ∧
    ((oneStore.applyEdits [.ModifyGenerationIndex 0 0 1 5]).1.applyOptEdits
      (([.ModifyGenerationIndex 0 0 1 5] : List TreeEdit).reverse.map
        TreeEdit.reverse)).1.compute_gi 0 ≠ oneStore.compute_gi 0) ∧
    (validSeqB fourStore [.MoveNode 0 0 2] = true ∧
    (fourStore.applyEdits [.MoveNode 0 0 2]).2 = none ∧
    ((fourStore.applyEdits [.MoveNode 0 0 2]).1.applyOptEdits
      (([.MoveNode 0 0 2] : List TreeEdit).reverse.map
        TreeEdit.reverse)).2 = none ∧
    ((fourStore.applyEdits [.MoveNode 0 0 2]).1.applyOptEdits
      (([.MoveNode 0 0 2] : List TreeEdit).reverse.map
        TreeEdit.reverse)).1.node_layers = [[1, 1, 2, 3]] ∧
    fourStore.node_layers = [[0, 1, 2, 3]]) := by
  decide

/-- C1 witness: a concrete valid one-edit sequence (an adjacent `MoveNode`
on the four-node store) whose application succeeds and whose reversed
replay restores the store exactly. -/
theorem c1_amended_witness :
    (SKeys fourStore.node_dict ∧ SKeys fourStore.node_yxs ∧
      validSeqB fourStore [.MoveNode 0 0 1] = true ∧
      ([.MoveNode 0 0 1] : List TreeEdit).all nearMoveB = true) ∧
    ((fourStore.applyEdits [.MoveNode 0 0 1]).2 = none ∧
      (fourStore.applyEdits [.MoveNode 0 0 1]).1.applyOptEdits
        (([.MoveNode 0 0 1] : List TreeEdit).reverse.map TreeEdit.reverse) =
        (fourStore, none)) :=
  have hsd : SKeys fourStore.node_dict := by
    simp [SKeys, akeys, fourStore, List.chain'_cons]
  have hsy : SKeys fourStore.node_yxs := by
    simp [SKeys, akeys, fourStore, List.chain'_cons]
  have hv : validSeqB fourStore [.MoveNode 0 0 1] = true := by decide
  have hnm : ([.MoveNode 0 0 1] : List TreeEdit).all nearMoveB = true := by
    decide
  ⟨⟨hsd, hsy, hv, hnm⟩,
    c1_amended [.MoveNode 0 0 1] fourStore hsd hsy hv hnm⟩

/-! ### Layout state: `update_contour` (inside `compute_painting_xs`) -/

abbrev QMap := List (Int × ℚ)
abbrev CMap := List (Int × List ℚ)

def qget (m : QMap) (k : Int) : ℚ := (alookup m k).getD 0
def cget (m : CMap) (k : Int) : List ℚ := (alookup m k).getD []

/-- `self._node_dict[id].child_ids`: every id the layout feeds here is a
dict key on coherent stores; an absent id defaults to no children. -/
def childIdsOf (dict : List (Int × Node)) (id : Int) : List Int :=
  ((alookup dict id).map Node.child_ids).getD []

/-- `update_contour(id)`: recompute the node's Reingold–Tilford contours
from its own x and its outermost children's stored contours. -/
def updateContour (dict : List (Int × Node)) (xs : QMap)
    (lcons rcons : CMap) (id : Int) : CMap × CMap :=
  let head : List ℚ := [qget xs id]
  match childIdsOf dict id with
  | [] => (ainsert lcons id head, ainsert rcons id head)
  | c0 :: rest =>
    let cl := (c0 :: rest).getLast (by simp)
    let lsub_lcon := cget lcons c0
    let lsub_rcon := cget rcons c0
    let rsub_lcon := cget lcons cl
    let rsub_rcon := cget rcons cl
    (ainsert lcons id (head ++ lsub_lcon ++ rsub_lcon.drop lsub_lcon.length),
     ainsert rcons id (head ++ rsub_rcon ++ lsub_rcon.drop rsub_rcon.length))

/-- The left-contour splice exactly as the spec words it: own x, then the
leftmost child's left contour, padded with the remainder of the rightmost
child's RIGHT contour beyond the leftmost child's contour length. Modeled
from the spec for comparison with `updateContour`. -/
def specSpliceLeft (xs : QMap) (lcons rcons : CMap) (id c0 cl : Int) :
    List ℚ :=
  [qget xs id] ++ cget lcons c0 ++
    (cget rcons cl).drop (cget lcons c0).length

/-- The right-contour splice as the spec words it: own x, then the
rightmost child's right contour, padded with the remainder of the leftmost
child's LEFT contour beyond that length. Modeled from the spec. -/
def specSpliceRight (xs : QMap) (lcons rcons : CMap) (id c0 cl : Int) :
    List ℚ :=
  [qget xs id] ++ cget rcons cl ++
    (cget lcons c0).drop (cget rcons cl).length

def c5Dict : List (Int × Node) := [(10, ⟨10, {}, -1, [1, 2]⟩)]
def c5Xs : QMap := [(10, 1)]
def c5Lcons : CMap := [(1, [0]), (2, [2, 7])]
def c5Rcons : CMap := [(1, [0]), (2, [2, 9])]

/-- C5 (counterexample): with a leaf leftmost child (contour `[0]`) and a
deeper rightmost child whose left contour `[2, 7]` differs from its right
contour `[2, 9]` below depth 1, the code pads the parent's left contour
from the rightmost child's LEFT contour (yielding `[1, 0, 7]`), not from
its right contour as the spec's formula says (which would yield
`[1, 0, 9]`). -/
theorem c5_counterexample :
    alookup (updateContour c5Dict c5Xs c5Lcons c5Rcons 10).1 10 =
      some [1, 0, 7] ∧
    specSpliceLeft c5Xs c5Lcons c5Rcons 10 1 2 = [1, 0, 9] ∧
    ([1, 0, 7] : List ℚ) ≠ [1, 0, 9] := by
  decide

/-- C5 (amended): for every node with at least one child, `update_contour`
sets the left contour to own x, then the leftmost child's left contour,
padded with the remainder of the rightmost child's LEFT contour beyond
the leftmost child's contour length; and the right contour to own x, then
the rightmost child's right contour, padded with the remainder of the
leftmost child's RIGHT contour beyond the rightmost child's right-contour
length. -/
theorem c5_amended (dict : List (Int × Node)) (xs : QMap)
    (lcons rcons : CMap) (id c0 : Int) (rest : List Int)
    (h : childIdsOf dict id = c0 :: rest) :
    alookup (updateContour dict xs lcons rcons id).1 id =
      some ([qget xs id] ++ cget lcons c0 ++
        (cget lcons ((c0 :: rest).getLast (by simp))).drop
          (cget lcons c0).length) ∧
    alookup (updateContour dict xs lcons rcons id).2 id =
      some ([qget xs id] ++ cget rcons ((c0 :: rest).getLast (by simp)) ++
        (cget rcons c0).drop
          (cget rcons ((c0 :: rest).getLast (by simp))).length) := by
  simp only [updateContour, h]
  exact ⟨alookup_ainsert_self _ _ _, alookup_ainsert_self _ _ _⟩

theorem c5_amended_witness :
    alookup (updateContour c5Dict c5Xs c5Lcons c5Rcons 10).1 10 =
      some ([qget c5Xs 10] ++ cget c5Lcons 1 ++
        (cget c5Lcons (([1, 2] : List Int).getLast (by simp))).drop
          (cget c5Lcons 1).length) ∧
    alookup (updateContour c5Dict c5Xs c5Lcons c5Rcons 10).2 10 =
      some ([qget c5Xs 10] ++ cget c5Rcons (([1, 2] : List Int).getLast (by simp)) ++
        (cget c5Rcons 1).drop
          (cget c5Rcons (([1, 2] : List Int).getLast (by simp))).length) :=
  c5_amended c5Dict c5Xs c5Lcons c5Rcons 10 1 [2] (by decide)

/-! ### C7: the string codec (`str_repr` / `from_str_repr`)

The source keeps `Node` objects in `_node_layers`; those objects are the
same Python objects stored in `_node_dict`, so reading a layer element's
fields is the same as reading the dict entry of its id. The id-list model
therefore reads layer nodes through the dict; a missing entry (impossible
for states corresponding to Python states) is treated as the `KeyError`
the dict read `self._node_dict[child_id]` can genuinely raise. -/

/-- Python `",".join(strs)`. -/
def joinComma : List (List Char) → List Char
  | [] => []
  | [s] => s
  | s :: r => s ++ ',' :: joinComma r

/-- Python `str.split(sep)` for a one-character separator: always returns
at least one (possibly empty) piece. -/
def pySplit (sep : Char) : List Char → List (List Char)
  | [] => [[]]
  | c :: r =>
    if c = sep then [] :: pySplit sep r
    else
      match pySplit sep r with
      | s :: ss => (c :: s) :: ss
      | [] => [[c]]

/-- The node string of one id: name, plus the parenthesised comma-joined
child names when `child_ids` is non-empty. -/
def nodeStr (t : Tree) (id : Int) : Option (List Char) :=
  match alookup t.node_dict id with
  | none => none
  | some node =>
    if node.child_ids = [] then some node.card.name
    else
      match childNamesOf t node.child_ids with
      | none => none
      | some cns => some (node.card.name ++ '(' :: joinComma cns ++ [')'])
where
  childNamesOf (t : Tree) : List Int → Option (List (List Char))
    | [] => some []
    | c :: cs =>
      match alookup t.node_dict c with
      | none => none
      | some m =>
        match childNamesOf t cs with
        | none => none
        | some r => some (m.card.name :: r)

/-- The node strings of one layer, in order. -/
def layerStrs (t : Tree) : List Int → Option (List (List Char))
  | [] => some []
  | id :: ids =>
    match nodeStr t id with
    | none => none
    | some s =>
      match layerStrs t ids with
      | none => none
      | some r => some (s :: r)

def strReprAux (t : Tree) : List (List Int) → Option (List Char)
  | [] => some []
  | lay :: ls =>
    match layerStrs t lay with
    | none => none
    | some ss =>
      match strReprAux t ls with
      | none => none
      | some r => some (joinComma ss ++ ';' :: r)

/-- `Tree.str_repr`: comma-joined node strings per layer, each layer
terminated by `;`. -/
def Tree.str_repr (t : Tree) : Option (List Char) :=
  strReprAux t t.node_layers

/-- The scanner's name characters, `[^\(\),]`. -/
def notSpecial (c : Char) : Bool := !(c = '(' || c = ')' || c = ',')

/-- The pattern's terminator `(?:,|$)`: a comma is consumed; end of input
matches empty. (Python's `$` would also match just before a string-final
newline; no evaluated input contains one.) -/
def matchEnd : List Char → Option (List Char)
  | ',' :: r => some r
  | [] => some []
  | _ => none

/-- One attempt of the node pattern with the name group bound to the first
`k` characters: the optional parenthesised children group is greedy
(`[^\)]*` runs to the first `)`), then the terminator; if the group's
continuation fails the group is dropped and the terminator tried
directly. -/
def tryNoGroup (l : List Char) (k : Nat) :
    Option ((List Char × List Char) × List Char) :=
  (matchEnd (l.drop k)).map fun r => ((l.take k, ([] : List Char)), r)

def tryWith (l : List Char) (k : Nat) :
    Option ((List Char × List Char) × List Char) :=
  if (l.drop k).head? = some '(' then
    if (((l.drop k).tail).drop (((l.drop k).tail).takeWhile
        (fun c => !(c = ')'))).length).head? = some ')' then
      match matchEnd ((((l.drop k).tail).drop (((l.drop k).tail).takeWhile
          (fun c => !(c = ')'))).length).tail) with
      | some r4 => some ((l.take k, ((l.drop k).tail).takeWhile
          (fun c => !(c = ')'))), r4)
      | none => tryNoGroup l k
    else tryNoGroup l k
  else tryNoGroup l k

/-- Backtracking over the greedy name group `[^\(\),]+`: lengths are tried
longest first, down to one character. -/
def reTryLen (l : List Char) : Nat → Option ((List Char × List Char) × List Char)
  | 0 => none
  | k + 1 =>
    match tryWith l (k + 1) with
    | some r => some r
    | none => reTryLen l k

/-- Attempt the node pattern at the current position. -/
def reTryAt (l : List Char) : Option ((List Char × List Char) × List Char) :=
  reTryLen l (l.takeWhile notSpecial).length

theorem matchEnd_length : ∀ {r r' : List Char},
    matchEnd r = some r' → r'.length ≤ r.length := by
  intro r r' h
  unfold matchEnd at h
  split at h
  · injection h with h; subst h; simp
  · injection h with h; subst h; exact Nat.le_refl _
  · cases h

theorem tryNoGroup_length {l : List Char} {k : Nat}
    {tk : List Char × List Char} {r' : List Char}
    (h : tryNoGroup l k = some (tk, r')) : r'.length ≤ l.length - k := by
  unfold tryNoGroup at h
  cases hm : matchEnd (l.drop k) with
  | none => rw [hm] at h; cases h
  | some r0 =>
    rw [hm] at h
    injection h with h
    have hr : r0 = r' := congrArg Prod.snd h
    subst hr
    have := matchEnd_length hm
    simpa [List.length_drop] using this

theorem tryWith_length {l : List Char} {k : Nat}
    {tk : List Char × List Char} {r' : List Char}
    (h : tryWith l k = some (tk, r')) : r'.length ≤ l.length - k := by
  unfold tryWith at h
  split at h
  · split at h
    · cases hm : matchEnd ((((l.drop k).tail).drop
          (((l.drop k).tail).takeWhile (fun c => !(c = ')'))).length).tail) with
      | none => rw [hm] at h; exact tryNoGroup_length h
      | some r4 =>
        rw [hm] at h
        injection h with h
        have hr : r4 = r' := congrArg Prod.snd h
        subst hr
        have h1 := matchEnd_length hm
        have h2 : ((((l.drop k).tail).drop
            (((l.drop k).tail).takeWhile
              (fun c => !(c = ')'))).length).tail).length ≤ l.length - k := by
          simp only [List.length_tail, List.length_drop]
          omega
        omega
    · exact tryNoGroup_length h
  · exact tryNoGroup_length h

theorem reTryLen_length : ∀ (n : Nat) {l : List Char}
    {tk : List Char × List Char} {r' : List Char}, l ≠ [] →
    reTryLen l n = some (tk, r') → r'.length < l.length := by
  intro n
  induction n with
  | zero => intro l tk r' _ h; cases h
  | succ k ih =>
    intro l tk r' hl h
    rw [reTryLen] at h
    cases htw : tryWith l (k + 1) with
    | some r =>
      rw [htw] at h
      injection h with h
      subst h
      have := tryWith_length htw
      have hlen : 1 ≤ l.length := by
        cases l with
        | nil => exact absurd rfl hl
        | cons a b => simp
      omega
    | none =>
      rw [htw] at h
      exact ih hl h

theorem reTryAt_length {l : List Char} {tk : List Char × List Char}
    {r' : List Char} (h : reTryAt l = some (tk, r')) :
    r'.length < l.length := by
  cases l with
  | nil => simp [reTryAt, reTryLen] at h
  | cons c r => exact reTryLen_length _ (by simp) h

/-- `re.finditer` of the node pattern over a layer string: try to match at
each position, skipping one character on failure, resuming after each
(necessarily non-empty) match. The recursion is driven by fuel; since each
step consumes at least one character (`reTryAt_length`), `l.length` units
are exactly enough. -/
def finditerF : Nat → List Char → List (List Char × List Char)
  | 0, _ => []
  | _ + 1, [] => []
  | fuel + 1, c :: r =>
    match reTryAt (c :: r) with
    | some (tk, r') => tk :: finditerF fuel r'
    | none => finditerF fuel r

def finditer (l : List Char) : List (List Char × List Char) :=
  finditerF l.length l

/-- Name → id lookup in the decoder's `nodes` dict: later bindings win. -/
def nlookup : List (List Char × Int) → List Char → Option Int
  | [], _ => none
  | (n, i) :: m, k =>
    match nlookup m k with
    | some j => some j
    | none => if k = n then some i else none

/-- Node registration for one layer: `obtain_id` hands out consecutive
ids; each node starts with a fresh card, no parent and no children, and is
recorded in the dict, the layer, the reverse index and the name map. -/
def regLayer (y : Int) : List (List Char) → Int → Int →
    List (Int × Node) × List Int × List (Int × Int × Int) ×
      List (List Char × Int) × Int
  | [], _, nid => ([], [], [], [], nid)
  | n :: ns, x, nid =>
    match regLayer y ns (x + 1) (nid + 1) with
    | (d, lay, yx, nm, nid') =>
      ((nid, ⟨nid, ⟨n, none, none, []⟩, -1, []⟩) :: d, nid :: lay, (nid, (y, x)) :: yx,
        (n, nid) :: nm, nid')

/-- Registration of all layers. -/
def regAll : List (List (List Char)) → Int → Int →
    List (Int × Node) × List (List Int) × List (Int × Int × Int) ×
      List (List Char × Int) × Int
  | [], _, nid => ([], [], [], [], nid)
  | l :: ls, y, nid =>
    match regLayer y l 0 nid with
    | (d1, lay1, yx1, nm1, nid1) =>
      match regAll ls (y + 1) nid1 with
      | (d2, lay2, yx2, nm2, nid2) =>
        (d1 ++ d2, lay1 :: lay2, yx1 ++ yx2, nm1 ++ nm2, nid2)

/-- Resolve one node's child names to (parent id, child id) pairs, in
order; an unknown name is the `KeyError` of `nodes[child_name]`. -/
def relPairsNode (nm : List (List Char × Int)) (pid : Int) :
    List (List Char) → Option (List (Int × Int))
  | [] => some []
  | c :: cs =>
    match nlookup nm c with
    | none => none
    | some cid =>
      match relPairsNode nm pid cs with
      | none => none
      | some r => some ((pid, cid) :: r)

def relPairsLayer (nm : List (List Char × Int)) :
    List (Int × List (List Char)) → Option (List (Int × Int))
  | [] => some []
  | (pid, cns) :: rest =>
    match relPairsNode nm pid cns with
    | none => none
    | some a =>
      match relPairsLayer nm rest with
      | none => none
      | some b => some (a ++ b)

def relPairsAll (nm : List (List Char × Int)) :
    List (List (Int × List (List Char))) → Option (List (Int × Int))
  | [] => some []
  | lay :: ls =>
    match relPairsLayer nm lay with
    | none => none
    | some a =>
      match relPairsAll nm ls with
      | none => none
      | some b => some (a ++ b)

/-- The two in-place mutations per resolved pair, in loop order: append
the child id to the parent's list, point the child at the parent. (The
`nodes` name map is never mutated during this pass, so resolving all
names first is equivalent; on a `KeyError` the partavely mutated tree is
discarded either way.) -/
def relFold (d : List (Int × Node)) : List (Int × Int) → List (Int × Node)
  | [] => d
  | (pid, cid) :: ps =>
    relFold
      (amodify (amodify d pid fun n =>
        { n with child_ids := n.child_ids ++ [cid] }) cid fun n =>
        { n with parent_id := pid }) ps

/-- `Tree.from_str_repr`: split on `;` dropping one trailing empty piece,
scan each layer with the node pattern, register the nodes, then rebuild
the relations. -/
def Tree.from_str_repr (s : List Char) : Option Tree :=
  let ls0 := pySplit ';' s
  let ls := if ls0.getLast? = some [] then ls0.dropLast else ls0
  let toks := ls.map finditer
  let nameLs := toks.map (List.map Prod.fst)
  let childLs := toks.map (List.map fun tk =>
    if tk.2 = [] then [] else pySplit ',' tk.2)
  match regAll nameLs 0 0 with
  | (d, lays, yxs, nm, nid) =>
    match relPairsAll nm (List.zipWith (fun lay ch => lay.zip ch) lays childLs) with
    | none => none
    | some ps =>
      some { last_id := nid - 1, node_dict := relFold d ps,
             node_layers := lays, node_yxs := yxs, settings := {} }

/-! #### The name-level structural views compared by the round trip -/

def layerNames (t : Tree) : List (List (List Char)) :=
  t.node_layers.map fun lay => lay.map fun id =>
    ((alookup t.node_dict id).map fun n => n.card.name).getD []

def layerChildNames (t : Tree) : List (List (List (List Char))) :=
  t.node_layers.map fun lay => lay.map fun id =>
    ((alookup t.node_dict id).map fun n =>
      n.child_ids.map fun c =>
        ((alookup t.node_dict c).map fun m => m.card.name).getD []).getD []

def layerParentNames (t : Tree) : List (List (Option (List Char))) :=
  t.node_layers.map fun lay => lay.map fun id =>
    (alookup t.node_dict id).bind fun n =>
      if n.parent_id = -1 then none
      else (alookup t.node_dict n.parent_id).map fun m => m.card.name

/-- A usable node name: non-empty and free of the four separators. -/
def specialFreeB (n : List Char) : Bool :=
  n.all fun c => !(c = '(' || c = ')' || c = ',' || c = ';')

/-- The claim's own conditions on names: over the tree's (layer) nodes,
names are unique, non-empty and separator-free. -/
def c7NamesOkB (t : Tree) : Bool :=
  decide (t.node_layers.join.map fun id =>
    ((alookup t.node_dict id).map fun n => n.card.name).getD []).Nodup &&
  t.node_layers.join.all fun id =>
    match alookup t.node_dict id with
    | none => false
    | some n => decide (n.card.name ≠ []) && specialFreeB n.card.name

/-- Relation consistency, which the original claim omits: each cell id is
unique, non-negative and backed by a dict node; every child of a layer
node is itself a layer node whose parent field points back; every
non-null parent field is matched by membership in that parent's ordered
child list. -/
def c7WellFormedB (t : Tree) : Bool :=
  decide t.node_layers.join.Nodup &&
  (t.node_layers.join.all fun id =>
    decide (0 ≤ id) && (alookup t.node_dict id).isSome) &&
  (t.node_layers.join.all fun p =>
    match alookup t.node_dict p with
    | none => false
    | some P => P.child_ids.all fun c =>
        decide (c ∈ t.node_layers.join) &&
        (match alookup t.node_dict c with
         | none => false
         | some C => decide (C.parent_id = p))) &&
  (t.node_layers.join.all fun c =>
    match alookup t.node_dict c with
    | none => false
    | some C =>
      decide (C.parent_id = -1) ||
      (decide (C.parent_id ∈ t.node_layers.join) &&
       (match alookup t.node_dict C.parent_id with
        | none => false
        | some P => decide (c ∈ P.child_ids))))

/-- The double-parenting store `SetAsChild(1, 2); SetAsChild(0, 2)`
reaches from three fresh nodes: both parents list child 2, the child's
parent field names the parent set last — node 0, the LEFT one. -/
def c7Store : Tree :=
  { last_id := 2
    node_dict := [(0, ⟨0, ⟨['a'], none, none, []⟩, -1, [2]⟩),
                  (1, ⟨1, ⟨['b'], none, none, []⟩, -1, [2]⟩),
                  (2, ⟨2, ⟨['c'], none, none, []⟩, 0, []⟩)]
    node_layers := [[0, 1], [2]]
    node_yxs := [(0, 0, 0), (1, 0, 1), (2, 1, 0)]
    settings := {} }

/-- C7 (counterexample to the original claim): the claim quantifies over
every store whose node names are unique, non-empty and separator-free —
conditions `c7Store` meets. `c7Store` is reachable (two `SetAsChild`s
double-parent node 2, the left parent set last), its encoding
`a(c),b(c);c;` round-trips the name layers and child lists, but the
decoder's relation pass makes the LAST parent that lists `c` win, so the
rebuilt store hangs `c` under `b` while the original hangs it under `a`:
the parent relation is not preserved. -/
theorem c7_counterexample :
    c7NamesOkB c7Store = true ∧
    (c7Store.str_repr.bind Tree.from_str_repr).map layerNames =
      some (layerNames c7Store) ∧
    (c7Store.str_repr.bind Tree.from_str_repr).map layerChildNames =
      some (layerChildNames c7Store) ∧
    (c7Store.str_repr.bind Tree.from_str_repr).map layerParentNames ≠
      some (layerParentNames c7Store) := by
  decide

/-! #### Evaluating the encoder under the amended hypotheses -/

def nameOfId (t : Tree) (id : Int) : List Char :=
  ((alookup t.node_dict id).map fun n => n.card.name).getD []

def childIdsOfId (t : Tree) (id : Int) : List Int :=
  ((alookup t.node_dict id).map fun n => n.child_ids).getD []

def parentOfId (t : Tree) (id : Int) : Int :=
  ((alookup t.node_dict id).map fun n => n.parent_id).getD (-1)

/-- The (name group, children group) token one node contributes. -/
def tokenOf (t : Tree) (id : Int) : List Char × List Char :=
  (nameOfId t id,
   if childIdsOfId t id = [] then []
   else joinComma ((childIdsOfId t id).map (nameOfId t)))

/-- The layer-string text of one token. -/
def tokenStr (tk : List Char × List Char) : List Char :=
  if tk.2 = [] then tk.1 else tk.1 ++ '(' :: tk.2 ++ [')']

theorem joinComma_ne_nil : ∀ (ns : List (List Char)), ns ≠ [] →
    (∀ nm ∈ ns, nm ≠ []) → joinComma ns ≠ [] := by
  intro ns h0 h1
  match ns with
  | [] => exact absurd rfl h0
  | [s] =>
    have := h1 s (List.mem_cons_self _ _)
    simpa [joinComma] using this
  | s :: s2 :: r =>
    have hs := h1 s (List.mem_cons_self _ _)
    intro hc
    rw [show joinComma (s :: s2 :: r) = s ++ ',' :: joinComma (s2 :: r)
      from rfl] at hc
    cases s with
    | nil => exact hs rfl
    | cons a b => cases hc

theorem childNamesOf_eval (t : Tree) : ∀ (cs : List Int),
    (∀ c ∈ cs, (alookup t.node_dict c).isSome = true) →
    nodeStr.childNamesOf t cs = some (cs.map (nameOfId t)) := by
  intro cs
  induction cs with
  | nil => intro _; rfl
  | cons c cs ih =>
    intro h
    obtain ⟨n, hn⟩ := Option.isSome_iff_exists.mp (h c (List.mem_cons_self _ _))
    rw [nodeStr.childNamesOf, hn,
      ih fun x hx => h x (List.mem_cons_of_mem _ hx)]
    simp [nameOfId, hn]

theorem nodeStr_eval (t : Tree) (id : Int)
    (hid : (alookup t.node_dict id).isSome = true)
    (hch : ∀ c ∈ childIdsOfId t id, (alookup t.node_dict c).isSome = true)
    (hne : ∀ c ∈ childIdsOfId t id, nameOfId t c ≠ []) :
    nodeStr t id = some (tokenStr (tokenOf t id)) := by
  obtain ⟨n, hn⟩ := Option.isSome_iff_exists.mp hid
  have hcid : childIdsOfId t id = n.child_ids := by simp [childIdsOfId, hn]
  unfold nodeStr
  rw [hn]
  show (if n.child_ids = [] then some n.card.name
        else match nodeStr.childNamesOf t n.child_ids with
          | none => none
          | some cns => some (n.card.name ++ '(' :: joinComma cns ++ [')'])) =
      some (tokenStr (tokenOf t id))
  by_cases hc : n.child_ids = []
  · rw [if_pos hc]
    simp [tokenStr, tokenOf, nameOfId, childIdsOfId, hn, hc]
  · rw [if_neg hc, childNamesOf_eval t _ (by rw [← hcid]; exact hch)]
    have hjoin : joinComma (n.child_ids.map (nameOfId t)) ≠ [] := by
      refine joinComma_ne_nil _ (by simpa using hc) ?_
      intro nm hnm
      obtain ⟨c, hcm, rfl⟩ := List.mem_map.mp hnm
      exact hne c (by rwa [hcid])
    rw [tokenOf, tokenStr, hcid, if_neg hc]
    simp only [if_neg hjoin]
    simp [nameOfId, hn]

theorem layerStrs_eval (t : Tree) : ∀ (lay : List Int),
    (∀ id ∈ lay, nodeStr t id = some (tokenStr (tokenOf t id))) →
    layerStrs t lay = some (lay.map fun id => tokenStr (tokenOf t id)) := by
  intro lay
  induction lay with
  | nil => intro _; rfl
  | cons id lay ih =>
    intro h
    rw [layerStrs, h id (List.mem_cons_self _ _),
      ih fun x hx => h x (List.mem_cons_of_mem _ hx)]
    rfl

theorem strReprAux_eval (t : Tree) : ∀ (L : List (List Int)),
    (∀ lay ∈ L, ∀ id ∈ lay, nodeStr t id = some (tokenStr (tokenOf t id))) →
    strReprAux t L = some ((L.map fun lay =>
      joinComma (lay.map fun id => tokenStr (tokenOf t id)) ++ [';']).join) := by
  intro L
  induction L with
  | nil => intro _; rfl
  | cons lay L ih =>
    intro h
    rw [strReprAux, layerStrs_eval t lay (h lay (List.mem_cons_self _ _)),
      ih fun l hl => h l (List.mem_cons_of_mem _ hl)]
    simp

/-! #### Splitting the encoded string back into layers -/

theorem pySplit_nosep (sep : Char) : ∀ (l : List Char), sep ∉ l →
    pySplit sep l = [l] := by
  intro l
  induction l with
  | nil => intro _; rfl
  | cons c r ih =>
    intro h
    rw [pySplit,
      if_neg (fun hc => h (by rw [← hc]; exact List.mem_cons_self _ _)),
      ih fun hc => h (List.mem_cons_of_mem _ hc)]

theorem pySplit_append (sep : Char) : ∀ (l r : List Char), sep ∉ l →
    pySplit sep (l ++ sep :: r) = l :: pySplit sep r := by
  intro l
  induction l with
  | nil =>
    intro r _
    simp [pySplit]
  | cons c l ih =>
    intro r h
    rw [List.cons_append, pySplit,
      if_neg (fun hc => h (by rw [← hc]; exact List.mem_cons_self _ _)),
      ih r fun hc => h (List.mem_cons_of_mem _ hc)]

theorem pySplit_encode (sep : Char) : ∀ (LS : List (List Char)),
    (∀ s ∈ LS, sep ∉ s) →
    pySplit sep ((LS.map fun s => s ++ [sep]).join) = LS ++ [[]] := by
  intro LS
  induction LS with
  | nil => intro _; rfl
  | cons s LS ih =>
    intro h
    have : ((s :: LS).map fun s => s ++ [sep]).join =
        s ++ sep :: (LS.map fun s => s ++ [sep]).join := by
      simp
    rw [this, pySplit_append sep s _ (h s (List.mem_cons_self _ _)),
      ih fun x hx => h x (List.mem_cons_of_mem _ hx)]
    rfl

/-- Splitting a comma-join back apart. -/
theorem pySplit_joinComma : ∀ (ns : List (List Char)), ns ≠ [] →
    (∀ nm ∈ ns, ',' ∉ nm) →
    pySplit ',' (joinComma ns) = ns := by
  intro ns
  induction ns with
  | nil => intro h _; exact absurd rfl h
  | cons s r ih =>
    intro _ h
    cases r with
    | nil =>
      rw [show joinComma [s] = s from rfl]
      exact pySplit_nosep ',' s (h s (List.mem_cons_self _ _))
    | cons s2 r2 =>
      rw [show joinComma (s :: s2 :: r2) = s ++ ',' :: joinComma (s2 :: r2)
          from rfl,
        pySplit_append ',' s _ (h s (List.mem_cons_self _ _)),
        ih (by simp) fun x hx => h x (List.mem_cons_of_mem _ hx)]

/-! #### Scanning a well-formed layer string -/

theorem takeWhile_append_stop {p : Char → Bool} : ∀ (a b : List Char),
    (∀ c ∈ a, p c = true) → (∀ c, b.head? = some c → p c = false) →
    (a ++ b).takeWhile p = a := by
  intro a
  induction a with
  | nil =>
    intro b _ hb
    cases b with
    | nil => rfl
    | cons c r =>
      simp [List.takeWhile_cons, hb c rfl]
  | cons x a ih =>
    intro b h hb
    rw [List.cons_append, List.takeWhile_cons,
      h x (List.mem_cons_self _ _)]
    simp [ih b (fun c hc => h c (List.mem_cons_of_mem _ hc)) hb]

/-- The node pattern, attempted at the start of a well-formed token: the
greedy name needs no backtracking and the match consumes the following
comma (or the end of the string). -/
theorem reTryAt_token (name cs rest : List Char)
    (hname : name ≠ []) (hns : ∀ c ∈ name, notSpecial c = true)
    (hcs : ')' ∉ cs)
    (hrest : rest = [] ∨ ∃ r, rest = ',' :: r) :
    reTryAt (tokenStr (name, cs) ++ rest) =
      some ((name, cs), rest.tail) := by
  have hrhead : ∀ c, rest.head? = some c → notSpecial c = false := by
    intro c hc
    rcases hrest with h | ⟨r, h⟩
    · rw [h] at hc; cases hc
    · rw [h] at hc
      injection hc with hc
      rw [← hc]
      rfl
  have hend : matchEnd rest = some rest.tail := by
    rcases hrest with h | ⟨r, h⟩ <;> rw [h] <;> rfl
  obtain ⟨n0, name0, rfl⟩ : ∃ n0 name0, name = n0 :: name0 := by
    cases name with
    | nil => exact absurd rfl hname
    | cons a b => exact ⟨a, b, rfl⟩
  by_cases hc : cs = []
  · subst hc
    have htok : tokenStr ((n0 :: name0 : List Char), ([] : List Char)) =
        n0 :: name0 := rfl
    rw [htok]
    have htw : ((n0 :: name0) ++ rest).takeWhile notSpecial = n0 :: name0 :=
      takeWhile_append_stop _ rest hns hrhead
    rw [reTryAt, htw]
    show reTryLen ((n0 :: name0) ++ rest) (name0.length + 1) = _
    rw [reTryLen]
    have hdropk : ((n0 :: name0) ++ rest).drop (name0.length + 1) = rest :=
      drop_append_eq _ _ _ (by simp)
    have htakek : ((n0 :: name0) ++ rest).take (name0.length + 1) =
        n0 :: name0 :=
      take_append_eq _ _ _ (by simp)
    have hcond : ¬(((n0 :: name0) ++ rest).drop
        (name0.length + 1)).head? = some '(' := by
      rw [hdropk]
      rcases hrest with h | ⟨r, h⟩ <;> subst h
      · intro hcon; cases hcon
      · intro hcon
        injection hcon with hcon
        cases hcon
    have htry : tryWith ((n0 :: name0) ++ rest) (name0.length + 1) =
        some (((n0 :: name0 : List Char), ([] : List Char)), rest.tail) := by
      unfold tryWith
      rw [if_neg hcond]
      unfold tryNoGroup
      rw [hdropk, hend, htakek]
      rfl
    rw [htry]
  · have htok : tokenStr ((n0 :: name0 : List Char), cs) =
        (n0 :: name0) ++ '(' :: cs ++ [')'] := by
      rw [tokenStr, if_neg hc]
    rw [htok]
    have hshape : ((n0 :: name0) ++ '(' :: cs ++ [')']) ++ rest =
        (n0 :: name0) ++ '(' :: (cs ++ ')' :: rest) := by simp
    rw [hshape]
    have htw : ((n0 :: name0) ++ '(' :: (cs ++ ')' :: rest)).takeWhile
        notSpecial = n0 :: name0 :=
      takeWhile_append_stop _ _ hns
        (by intro c hcon; injection hcon with hcon; rw [← hcon]; rfl)
    rw [reTryAt, htw]
    show reTryLen ((n0 :: name0) ++ '(' :: (cs ++ ')' :: rest))
      (name0.length + 1) = _
    rw [reTryLen]
    have hdropk : ((n0 :: name0) ++ '(' :: (cs ++ ')' :: rest)).drop
        (name0.length + 1) = '(' :: (cs ++ ')' :: rest) :=
      drop_append_eq _ _ _ (by simp)
    have htakek : ((n0 :: name0) ++ '(' :: (cs ++ ')' :: rest)).take
        (name0.length + 1) = n0 :: name0 :=
      take_append_eq _ _ _ (by simp)
    have htwcs : (cs ++ ')' :: rest).takeWhile (fun c => !(c = ')')) = cs :=
      takeWhile_append_stop cs _
        (fun c hcm => by
          simp only [Bool.not_eq_true']
          exact decide_eq_false fun he => hcs (he ▸ hcm))
        (by intro c hcon; injection hcon with hcon; rw [← hcon]; rfl)
    have htry : tryWith ((n0 :: name0) ++ '(' :: (cs ++ ')' :: rest))
        (name0.length + 1) = some (((n0 :: name0 : List Char), cs), rest.tail) := by
      unfold tryWith
      rw [hdropk]
      rw [show ('(' :: (cs ++ ')' :: rest) : List Char).tail =
        cs ++ ')' :: rest from rfl]
      rw [htwcs, drop_append_eq _ _ _ rfl]
      rw [if_pos (show (('(' : Char) :: (cs ++ ')' :: rest)).head? =
        some '(' from rfl)]
      rw [if_pos (show ((')' : Char) :: rest).head? = some ')' from rfl)]
      rw [show ((')' : Char) :: rest).tail = rest from rfl, hend, htakek]
    rw [htry]

/-- A token's well-formedness for the scanner. -/
def wfTok (tk : List Char × List Char) : Prop :=
  tk.1 ≠ [] ∧ (∀ c ∈ tk.1, notSpecial c = true) ∧ ')' ∉ tk.2

theorem tokenStr_ne_nil (tk : List Char × List Char) (h : tk.1 ≠ []) :
    tokenStr tk ≠ [] := by
  obtain ⟨n, cs⟩ := tk
  rw [tokenStr]
  split
  · exact h
  · cases n with
    | nil => exact absurd rfl h
    | cons a b => simp

theorem finditerF_tokens : ∀ (ts : List (List Char × List Char)) (fuel : Nat),
    (∀ tk ∈ ts, wfTok tk) →
    (joinComma (ts.map tokenStr)).length ≤ fuel →
    finditerF fuel (joinComma (ts.map tokenStr)) = ts := by
  intro ts
  induction ts with
  | nil =>
    intro fuel _ _
    cases fuel <;> rfl
  | cons tk ts ih =>
    intro fuel hwf hfuel
    obtain ⟨hn, hns, hcs⟩ := hwf tk (List.mem_cons_self _ _)
    have hjoin : joinComma ((tk :: ts).map tokenStr) =
        tokenStr tk ++ (if ts = [] then []
          else ',' :: joinComma (ts.map tokenStr)) := by
      cases ts with
      | nil => simp [joinComma]
      | cons t2 r2 => rw [if_neg (by simp)]; rfl
    have hrest : (if ts = [] then ([] : List Char)
        else ',' :: joinComma (ts.map tokenStr)) = [] ∨
        ∃ r, (if ts = [] then ([] : List Char)
          else ',' :: joinComma (ts.map tokenStr)) = ',' :: r := by
      by_cases hts : ts = []
      · exact Or.inl (by rw [if_pos hts])
      · exact Or.inr ⟨_, by rw [if_neg hts]⟩
    have hstep := reTryAt_token tk.1 tk.2 _ hn hns hcs hrest
    rw [hjoin]
    obtain ⟨c0, l0, hl0⟩ : ∃ c0 l0, tokenStr tk ++ (if ts = [] then []
        else ',' :: joinComma (ts.map tokenStr)) = c0 :: l0 := by
      cases htk : tokenStr tk with
      | nil => exact absurd htk (tokenStr_ne_nil tk hn)
      | cons a b => exact ⟨a, b ++ _, by rw [List.cons_append]⟩
    cases fuel with
    | zero =>
      rw [hjoin, hl0] at hfuel
      simp at hfuel
    | succ f =>
      rw [hl0, finditerF, ← hl0]
      have htkfull : tokenStr (tk.1, tk.2) = tokenStr tk := by
        obtain ⟨a, b⟩ := tk
        rfl
      rw [htkfull] at hstep
      rw [hstep]
      by_cases hts : ts = []
      · subst hts
        rw [if_pos rfl]
        show tk :: finditerF f [] = [tk]
        cases f <;> rfl
      · rw [if_neg hts]
        show tk :: finditerF f (joinComma (ts.map tokenStr)) = tk :: ts
        have hlen : (joinComma (ts.map tokenStr)).length ≤ f := by
          rw [hjoin, if_neg hts] at hfuel
          have h1 : (tokenStr tk).length ≥ 1 := by
            cases htk : tokenStr tk with
            | nil => exact absurd htk (tokenStr_ne_nil tk hn)
            | cons a b => simp
          rw [List.length_append, List.length_cons] at hfuel
          omega
        rw [ih f (fun x hx => hwf x (List.mem_cons_of_mem _ hx)) hlen]

/-- The scan of a well-formed layer string. -/
theorem finditer_tokens (ts : List (List Char × List Char))
    (hwf : ∀ tk ∈ ts, wfTok tk) :
    finditer (joinComma (ts.map tokenStr)) = ts :=
  finditerF_tokens ts _ hwf (Nat.le_refl _)

/-! #### Closed forms of the registration pass -/

def buildDict : List (List Char) → Int → List (Int × Node)
  | [], _ => []
  | nm :: ns, i => (i, ⟨i, ⟨nm, none, none, []⟩, -1, []⟩) :: buildDict ns (i + 1)

def buildNames : List (List Char) → Int → List (List Char × Int)
  | [], _ => []
  | nm :: ns, i => (nm, i) :: buildNames ns (i + 1)

def idsOf : List α → Int → List Int
  | [], _ => []
  | _ :: r, i => i :: idsOf r (i + 1)

def buildLays : List (List (List Char)) → Int → List (List Int)
  | [], _ => []
  | l :: ls, i => idsOf l i :: buildLays ls (i + (l.length : Int))

def buildYxs (y : Int) : List α → Int → Int → List (Int × Int × Int)
  | [], _, _ => []
  | _ :: r, x, i => (i, (y, x)) :: buildYxs y r (x + 1) (i + 1)

def buildYxsAll : List (List (List Char)) → Int → Int → List (Int × Int × Int)
  | [], _, _ => []
  | l :: ls, y, i => buildYxs y l 0 i ++ buildYxsAll ls (y + 1) (i + (l.length : Int))

theorem regLayer_eq (y : Int) : ∀ (l : List (List Char)) (x nid : Int),
    regLayer y l x nid =
      (buildDict l nid, idsOf l nid, buildYxs y l x nid, buildNames l nid,
        nid + (l.length : Int)) := by
  intro l
  induction l with
  | nil => intro x nid; simp [regLayer, buildDict, idsOf, buildYxs, buildNames]
  | cons nm l ih =>
    intro x nid
    rw [regLayer, ih]
    simp only [buildDict, idsOf, buildYxs, buildNames, List.length_cons]
    rw [show nid + 1 + (l.length : Int) = nid + ((l.length + 1 : Nat) : Int)
      from by push_cast; ring]

theorem regAll_eq : ∀ (L : List (List (List Char))) (y nid : Int),
    regAll L y nid =
      (buildDict L.join nid, buildLays L nid, buildYxsAll L y nid,
        buildNames L.join nid, nid + (L.join.length : Int)) := by
  intro L
  have hbd : ∀ (a b : List (List Char)) (n : Int),
      buildDict (a ++ b) n = buildDict a n ++ buildDict b (n + (a.length : Int)) := by
    intro a
    induction a with
    | nil => intro b n; simp [buildDict]
    | cons nm a ih =>
      intro b n
      rw [List.cons_append, buildDict, buildDict, ih]
      simp only [List.length_cons]
      rw [show n + 1 + (a.length : Int) = n + ((a.length + 1 : Nat) : Int)
        from by push_cast; ring, List.cons_append]
  have hbn : ∀ (a b : List (List Char)) (n : Int),
      buildNames (a ++ b) n = buildNames a n ++ buildNames b (n + (a.length : Int)) := by
    intro a
    induction a with
    | nil => intro b n; simp [buildNames]
    | cons nm a ih =>
      intro b n
      rw [List.cons_append, buildNames, buildNames, ih]
      simp only [List.length_cons]
      rw [show n + 1 + (a.length : Int) = n + ((a.length + 1 : Nat) : Int)
        from by push_cast; ring, List.cons_append]
  induction L with
  | nil => intro y nid; simp [regAll, buildDict, buildLays, buildYxsAll, buildNames]
  | cons l L ih =>
    intro y nid
    simp only [regAll, regLayer_eq, ih, List.join_cons, buildLays,
      buildYxsAll, hbd, hbn, List.length_append]
    rw [show nid + (l.length : Int) + (L.join.length : Int) =
      nid + ((l.length + L.join.length : Nat) : Int) from by push_cast; ring]

/-- Dict lookup into the registration's dict, by flat position. -/
theorem alookup_buildDict : ∀ (ns : List (List Char)) (n : Int) (j : Nat),
    alookup (buildDict ns n) (n + (j : Int)) =
      (ns[j]?).map fun nm => ⟨n + (j : Int), ⟨nm, none, none, []⟩, -1, []⟩ := by
  intro ns
  induction ns with
  | nil => intro n j; simp [buildDict, alookup]
  | cons nm ns ih =>
    intro n j
    rw [buildDict, alookup_cons]
    cases j with
    | zero =>
      rw [if_pos (by simp)]
      simp
    | succ j =>
      rw [if_neg (by push_cast; omega)]
      have harg : n + ((j + 1 : Nat) : Int) = (n + 1) + (j : Int) := by
        push_cast
        ring
      rw [harg, ih (n + 1) j]
      simp

/-- An absent name finds nothing. -/
theorem nlookup_buildNames_none : ∀ (ns : List (List Char)) (n : Int)
    (nm : List Char), nm ∉ ns → nlookup (buildNames ns n) nm = none := by
  intro ns
  induction ns with
  | nil => intro n nm _; rfl
  | cons a ns ih =>
    intro n nm h
    rw [buildNames, nlookup,
      ih (n + 1) nm fun hc => h (List.mem_cons_of_mem _ hc)]
    rw [if_neg fun hc => h (by rw [hc]; exact List.mem_cons_self _ _)]

/-- With distinct names, lookup finds the (unique) registered id. -/
theorem nlookup_buildNames : ∀ (ns : List (List Char)) (n : Int) (j : Nat)
    (nm : List Char), ns.Nodup → ns[j]? = some nm →
    nlookup (buildNames ns n) nm = some (n + (j : Int)) := by
  intro ns
  induction ns with
  | nil => intro n j nm _ h; cases j <;> cases h
  | cons a ns ih =>
    intro n j nm hnd h
    obtain ⟨hna, hnd'⟩ := List.nodup_cons.mp hnd
    rw [buildNames, nlookup]
    cases j with
    | zero =>
      have ha : a = nm := by simpa using h
      subst ha
      rw [nlookup_buildNames_none ns (n + 1) a hna, if_pos rfl]
      simp
    | succ j =>
      rw [ih (n + 1) j nm hnd' (by simpa using h)]
      have harg : (n + 1) + (j : Int) = n + ((j + 1 : Nat) : Int) := by
        push_cast
        ring
      rw [harg]

/-! #### What the relation pass does to the dict -/

/-- The children appended to node `k` by a pair list, in order. -/
def appendsFor (k : Int) : List (Int × Int) → List Int
  | [] => []
  | (p, c) :: ps => if p = k then c :: appendsFor k ps else appendsFor k ps

/-- The parent that last claimed node `k`, if any. -/
def lastParent (k : Int) : List (Int × Int) → Option Int
  | [] => none
  | (p, c) :: ps =>
    match lastParent k ps with
    | some q => some q
    | none => if c = k then some p else none

theorem alookup_amodify (d : List (Int × Node)) (p k : Int)
    (f : Node → Node) : alookup (amodify d p f) k =
      (alookup d k).map fun n => if k = p then f n else n := by
  unfold amodify
  rw [alookup_map_entry _ _ (fun q =>
    show (if q.1 = p then (q.1, f q.2) else q).1 = q.1 by split <;> rfl)]
  cases alookup d k with
  | none => rfl
  | some n =>
    simp only [Option.map_some']
    by_cases h : k = p <;> simp [h]

theorem relFold_lookup : ∀ (ps : List (Int × Int)) (d : List (Int × Node))
    (k : Int), alookup (relFold d ps) k = (alookup d k).map fun n =>
      { n with child_ids := n.child_ids ++ appendsFor k ps,
               parent_id := (lastParent k ps).getD n.parent_id } := by
  intro ps
  induction ps with
  | nil =>
    intro d k
    rw [relFold, appendsFor, lastParent]
    cases alookup d k with
    | none => rfl
    | some n => simp
  | cons pc ps ih =>
    intro d k
    obtain ⟨p, c⟩ := pc
    rw [relFold, ih, appendsFor, lastParent, alookup_amodify,
      alookup_amodify]
    cases hdk : alookup d k with
    | none => rfl
    | some n =>
      simp only [Option.map_some', Option.some.injEq]
      by_cases hp : k = p
      · subst hp
        by_cases hc : k = c
        · subst hc
          cases hlp : lastParent k ps <;> simp [hlp, List.append_assoc]
        · have hc' : ¬c = k := fun h => hc h.symm
          cases hlp : lastParent k ps <;>
            simp [hc, hc', hlp, List.append_assoc]
      · have hp' : ¬p = k := fun h => hp h.symm
        by_cases hc : k = c
        · subst hc
          cases hlp : lastParent k ps <;> simp [hp, hp', hlp]
        · have hc' : ¬c = k := fun h => hc h.symm
          cases hlp : lastParent k ps <;> simp [hp, hp', hc, hc', hlp]

/-- The decode-side pair list, layer structure flattened: position `i`
contributes its resolved child names in order. -/
def specPairs (f : List Char → Int) : List (List (List Char)) → Int →
    List (Int × Int)
  | [], _ => []
  | cns :: rest, i => cns.map (fun cn => (i, f cn)) ++ specPairs f rest (i + 1)

theorem join_cons_eq (l : List α) (L : List (List α)) :
    (l :: L).join = l ++ L.join := rfl

theorem join_append_eq (A B : List (List α)) :
    (A ++ B).join = A.join ++ B.join := by
  induction A with
  | nil => rfl
  | cons a A ih =>
    rw [List.cons_append, join_cons_eq, join_cons_eq, ih, List.append_assoc]

theorem relPairsNode_eval (nm : List (List Char × Int)) (pid : Int)
    (f : List Char → Int) : ∀ (cns : List (List Char)),
    (∀ cn ∈ cns, nlookup nm cn = some (f cn)) →
    relPairsNode nm pid cns = some (cns.map fun cn => (pid, f cn)) := by
  intro cns
  induction cns with
  | nil => intro _; rfl
  | cons c cns ih =>
    intro h
    rw [relPairsNode, h c (List.mem_cons_self _ _),
      ih fun x hx => h x (List.mem_cons_of_mem _ hx)]
    rfl

theorem relPairsLayer_eval (nm : List (List Char × Int))
    (f : List Char → Int) : ∀ (cl : List (List (List Char))) (l : List α)
    (i : Int), cl.length = l.length →
    (∀ cn ∈ cl.join, nlookup nm cn = some (f cn)) →
    relPairsLayer nm ((idsOf l i).zip cl) = some (specPairs f cl i) := by
  intro cl
  induction cl with
  | nil =>
    intro l i _ _
    simp [relPairsLayer, specPairs]
  | cons c cl ih =>
    intro l i hlen h
    cases l with
    | nil => cases hlen
    | cons a l =>
      rw [idsOf, List.zip_cons_cons, relPairsLayer,
        relPairsNode_eval nm i f c fun x hx =>
          h x (List.mem_join.mpr ⟨c, List.mem_cons_self _ _, hx⟩),
        ih l (i + 1) (by simpa using hlen) fun x hx => h x (by
          obtain ⟨s, hs, hxs⟩ := List.mem_join.mp hx
          exact List.mem_join.mpr ⟨s, List.mem_cons_of_mem _ hs, hxs⟩)]
      rfl

theorem specPairs_append (f : List Char → Int) : ∀ (a b : List (List (List Char)))
    (i : Int), specPairs f (a ++ b) i =
      specPairs f a i ++ specPairs f b (i + (a.length : Int)) := by
  intro a
  induction a with
  | nil => intro b i; simp [specPairs]
  | cons c a ih =>
    intro b i
    rw [List.cons_append, specPairs, specPairs, ih]
    simp only [List.length_cons, List.append_assoc]
    rw [show i + 1 + (a.length : Int) = i + ((a.length + 1 : Nat) : Int)
      from by push_cast; ring]

theorem relPairsAll_eval (nm : List (List Char × Int)) (f : List Char → Int) :
    ∀ (CL : List (List (List (List Char)))) (NL : List (List (List Char)))
    (i : Int), CL.map List.length = NL.map List.length →
    (∀ cn ∈ CL.join.join, nlookup nm cn = some (f cn)) →
    relPairsAll nm (List.zipWith (fun lay ch => lay.zip ch)
      (buildLays NL i) CL) = some (specPairs f CL.join i) := by
  intro CL
  induction CL with
  | nil =>
    intro NL i _ _
    simp [relPairsAll, specPairs]
  | cons cl CL ih =>
    intro NL i hshape h
    cases NL with
    | nil => cases hshape
    | cons l NL =>
      simp only [List.map_cons] at hshape
      injection hshape with hlen hshape
      rw [buildLays, List.zipWith_cons_cons, relPairsAll,
        relPairsLayer_eval nm f cl l i hlen (fun x hx => h x (by
          obtain ⟨s, hs, hxs⟩ := List.mem_join.mp hx
          exact List.mem_join.mpr ⟨s,
            List.mem_join.mpr ⟨cl, List.mem_cons_self _ _, hs⟩, hxs⟩)),
        ih NL (i + (l.length : Int)) hshape fun x hx => h x (by
          obtain ⟨s, hs, hxs⟩ := List.mem_join.mp hx
          obtain ⟨s2, hs2, hss2⟩ := List.mem_join.mp hs
          exact List.mem_join.mpr ⟨s,
            List.mem_join.mpr ⟨s2, List.mem_cons_of_mem _ hs2, hss2⟩, hxs⟩)]
      rw [join_cons_eq, specPairs_append, hlen]

/-! #### Counting a node's appended children and last claiming parent -/

theorem appendsFor_append (k : Int) : ∀ (a b : List (Int × Int)),
    appendsFor k (a ++ b) = appendsFor k a ++ appendsFor k b := by
  intro a
  induction a with
  | nil => intro b; rfl
  | cons pc a ih =>
    intro b
    obtain ⟨p, c⟩ := pc
    rw [List.cons_append, appendsFor, appendsFor, ih]
    split <;> rfl

theorem appendsFor_seg (k i : Int) (f : List Char → Int) :
    ∀ (cns : List (List Char)),
    appendsFor k (cns.map fun cn => (i, f cn)) =
      if i = k then cns.map f else [] := by
  intro cns
  induction cns with
  | nil => simp [appendsFor]
  | cons cn cns ih =>
    rw [List.map_cons, appendsFor, ih]
    split <;> rfl

theorem appendsFor_lt (f : List Char → Int) :
    ∀ (C : List (List (List Char))) (i k : Int), k < i →
    appendsFor k (specPairs f C i) = [] := by
  intro C
  induction C with
  | nil => intro i k _; rfl
  | cons c C ih =>
    intro i k h
    rw [specPairs, appendsFor_append, appendsFor_seg,
      if_neg (by omega), ih (i + 1) k (by omega)]
    rfl

theorem appendsFor_specPairs (f : List Char → Int) :
    ∀ (C : List (List (List Char))) (i : Int) (j : Nat),
    appendsFor (i + (j : Int)) (specPairs f C i) =
      ((C[j]?).getD []).map f := by
  intro C
  induction C with
  | nil => intro i j; simp [specPairs, appendsFor]
  | cons c C ih =>
    intro i j
    rw [specPairs, appendsFor_append, appendsFor_seg]
    cases j with
    | zero =>
      rw [if_pos (by simp), appendsFor_lt f C (i + 1) _ (by omega)]
      simp
    | succ j =>
      rw [if_neg (by push_cast; omega)]
      have harg : i + ((j + 1 : Nat) : Int) = (i + 1) + (j : Int) := by
        push_cast
        ring
      rw [harg, ih (i + 1) j]
      simp

theorem lastParent_append (k : Int) : ∀ (a b : List (Int × Int)),
    lastParent k (a ++ b) =
      match lastParent k b with
      | some q => some q
      | none => lastParent k a := by
  intro a
  induction a with
  | nil =>
    intro b
    simp only [List.nil_append]
    cases lastParent k b <;> rfl
  | cons pc a ih =>
    intro b
    obtain ⟨p, c⟩ := pc
    rw [List.cons_append, lastParent, lastParent, ih]
    cases lastParent k b <;> cases lastParent k a <;> simp

theorem lastParent_seg (k i : Int) (f : List Char → Int) :
    ∀ (cns : List (List Char)),
    lastParent k (cns.map fun cn => (i, f cn)) =
      if k ∈ cns.map f then some i else none := by
  intro cns
  induction cns with
  | nil => simp [lastParent]
  | cons cn cns ih =>
    rw [List.map_cons, lastParent, ih]
    by_cases hm : k ∈ cns.map f
    · simp [hm]
    · by_cases he : f cn = k
      · simp [hm, he]
      · have he' : ¬k = f cn := fun h => he h.symm
        simp [hm, he, he']

/-- The position whose child-name list last contains a claim resolving to
the node — decode's winner for the node's parent field. -/
def lastClaim (k : Int) (f : List Char → Int) :
    List (List (List Char)) → Int → Option Int
  | [], _ => none
  | c :: C, i =>
    match lastClaim k f C (i + 1) with
    | some p => some p
    | none => if k ∈ c.map f then some i else none

theorem lastParent_specPairs (k : Int) (f : List Char → Int) :
    ∀ (C : List (List (List Char))) (i : Int),
    lastParent k (specPairs f C i) = lastClaim k f C i := by
  intro C
  induction C with
  | nil => intro i; rfl
  | cons c C ih =>
    intro i
    rw [specPairs, lastParent_append, lastParent_seg, lastClaim, ih]

/-! #### Reading a per-id view back through the layer shape -/

theorem idsOf_map_congr {β γ : Type} {g : Int → β} {F : γ → β} :
    ∀ (l : List α) (z : List γ) (n : Int), l.length = z.length →
    (∀ (j : Nat) (x : γ), z[j]? = some x → g (n + (j : Int)) = F x) →
    (idsOf l n).map g = z.map F := by
  intro l
  induction l with
  | nil =>
    intro z n hlen _
    cases z with
    | nil => rfl
    | cons x z => cases hlen
  | cons a l ih =>
    intro z n hlen h
    cases z with
    | nil => cases hlen
    | cons x z =>
      rw [idsOf, List.map_cons, List.map_cons]
      have hhead : g n = F x := by
        have := h 0 x (by simp)
        simpa using this
      rw [hhead, ih z (n + 1) (by simpa using hlen) fun j y hy => by
        have := h (j + 1) y (by simpa using hy)
        rw [show n + ((j + 1 : Nat) : Int) = (n + 1) + (j : Int)
          from by push_cast; ring] at this
        exact this]

def idxOfName : List (List Char) → List Char → Nat
  | [], _ => 0
  | n :: ns, nm => if nm = n then 0 else idxOfName ns nm + 1

theorem idxOfName_get : ∀ (ns : List (List Char)) (nm : List Char),
    nm ∈ ns → ns[idxOfName ns nm]? = some nm := by
  intro ns
  induction ns with
  | nil => intro nm h; cases h
  | cons n ns ih =>
    intro nm h
    rw [idxOfName]
    by_cases he : nm = n
    · rw [if_pos he]
      simp [he]
    · rw [if_neg he]
      have hmem : nm ∈ ns := by
        rcases List.mem_cons.mp h with h1 | h1
        · exact absurd h1 he
        · exact h1
      simpa using ih nm hmem

theorem idxOfName_unique : ∀ (ns : List (List Char)) (nm : List Char)
    (j : Nat), ns.Nodup → ns[j]? = some nm → idxOfName ns nm = j := by
  intro ns
  induction ns with
  | nil => intro nm j _ h; cases j <;> cases h
  | cons n ns ih =>
    intro nm j hnd h
    obtain ⟨hn, hnd'⟩ := List.nodup_cons.mp hnd
    rw [idxOfName]
    cases j with
    | zero =>
      have : n = nm := by simpa using h
      rw [if_pos this.symm]
    | succ j =>
      have hj : ns[j]? = some nm := by simpa using h
      have hmem : nm ∈ ns := by
        have hlt := (List.getElem?_eq_some.mp hj).1
        have hget : ns.get ⟨j, hlt⟩ = nm := by
          simpa [List.get_eq_getElem] using (List.getElem?_eq_some.mp hj).2
        exact hget ▸ List.get_mem ns j hlt
      rw [if_neg (by intro he; rw [he] at hmem; exact hn hmem),
        ih nm j hnd' hj]

/-- Decode's winner at name level: the last position whose child-name
list contains the name. -/
def lastClaimName (nm : List Char) : List (List (List Char)) → Int → Option Int
  | [], _ => none
  | c :: C, i =>
    match lastClaimName nm C (i + 1) with
    | some p => some p
    | none => if nm ∈ c then some i else none

/-- No one claims the name: the relation pass leaves the parent null. -/
theorem lastClaimName_none (nm : List Char) :
    ∀ (C : List (List (List Char))) (i : Int), (∀ c ∈ C, nm ∉ c) →
    lastClaimName nm C i = none := by
  intro C
  induction C with
  | nil => intro i _; rfl
  | cons c C ih =>
    intro i h
    rw [lastClaimName, ih (i + 1) fun x hx => h x (List.mem_cons_of_mem _ hx),
      if_neg (h c (List.mem_cons_self _ _))]

theorem lastClaimName_ge (nm : List Char) :
    ∀ (C : List (List (List Char))) (i p : Int),
    lastClaimName nm C i = some p → i ≤ p := by
  intro C
  induction C with
  | nil => intro i p h; cases h
  | cons c C ih =>
    intro i p h
    rw [lastClaimName] at h
    cases hrec : lastClaimName nm C (i + 1) with
    | some q =>
      rw [hrec] at h
      injection h with h
      have := ih (i + 1) q hrec
      omega
    | none =>
      rw [hrec] at h
      by_cases hm : nm ∈ c
      · rw [if_pos hm] at h
        injection h with h
        omega
      · rw [if_neg hm] at h
        cases h

/-- With claims occurring exactly at the copies of `p`, the last claim is
the (unique) position of `p`. -/
theorem lastClaimName_map (nm : List Char) (p : Int)
    (cnfn : Int → List (List Char)) :
    ∀ (Jp : List Int) (i : Int), Jp.Nodup → p ∈ Jp →
    (∀ q ∈ Jp, nm ∈ cnfn q ↔ q = p) →
    ∃ r : Nat, Jp[r]? = some p ∧
      lastClaimName nm (Jp.map cnfn) i = some (i + (r : Int)) := by
  intro Jp
  induction Jp with
  | nil => intro i _ h _; cases h
  | cons q Jp ih =>
    intro i hnd hp hiff
    obtain ⟨hq, hnd'⟩ := List.nodup_cons.mp hnd
    by_cases hpq : p ∈ Jp
    · obtain ⟨r, hr, hrec⟩ := ih (i + 1) hnd' hpq fun x hx =>
        hiff x (List.mem_cons_of_mem _ hx)
      refine ⟨r + 1, by simpa using hr, ?_⟩
      rw [List.map_cons, lastClaimName, hrec]
      rw [show (i + 1) + (r : Int) = i + ((r + 1 : Nat) : Int)
        from by push_cast; ring]
    · have hqp : q = p := by
        rcases List.mem_cons.mp hp with h1 | h1
        · exact h1.symm
        · exact absurd h1 hpq
      subst hqp
      refine ⟨0, by simp, ?_⟩
      have hnone : ∀ c ∈ Jp.map cnfn, nm ∉ c := by
        intro c hc
        obtain ⟨x, hx, rfl⟩ := List.mem_map.mp hc
        intro hin
        have hxp := (hiff x (List.mem_cons_of_mem _ hx)).mp hin
        rw [hxp] at hx
        exact hpq hx
      rw [List.map_cons, lastClaimName, lastClaimName_none nm _ (i + 1) hnone,
        if_pos ((hiff q (List.mem_cons_self _ _)).mpr rfl)]
      simp

/-- Resolution turns name claims into id claims: when `f` identifies the
name `nm` with the id `k` (injectively over the registered names), the
id-level and name-level last claims agree. -/
theorem lastClaim_name (k : Int) (nm : List Char) (f : List Char → Int)
    (FN : List (List Char)) (hkey : ∀ cn ∈ FN, (f cn = k ↔ cn = nm)) :
    ∀ (C : List (List (List Char))) (i : Int),
    (∀ c ∈ C, ∀ cn ∈ c, cn ∈ FN) →
    lastClaim k f C i = lastClaimName nm C i := by
  intro C
  induction C with
  | nil => intro i _; rfl
  | cons c C ih =>
    intro i h
    rw [lastClaim, lastClaimName,
      ih (i + 1) fun x hx => h x (List.mem_cons_of_mem _ hx)]
    have hmem : (k ∈ c.map f) = (nm ∈ c) := by
      apply propext
      constructor
      · intro hk
        obtain ⟨cn, hcn, heq⟩ := List.mem_map.mp hk
        have := (hkey cn (h c (List.mem_cons_self _ _) cn hcn)).mp heq
        rwa [this] at hcn
      · intro hnm
        exact List.mem_map.mpr ⟨nm,
          hnm, (hkey nm (h c (List.mem_cons_self _ _) nm hnm)).mpr rfl⟩
    simp only [hmem]

theorem join_map_map (f : α → β) (L : List (List α)) :
    (L.map (List.map f)).join = L.join.map f :=
  (List.map_flatten f L).symm

theorem join_length_congr : ∀ (A : List (List α)) (B : List (List β)),
    A.map List.length = B.map List.length → A.join.length = B.join.length := by
  intro A
  induction A with
  | nil =>
    intro B h
    cases B with
    | nil => rfl
    | cons b B => cases h
  | cons a A ih =>
    intro B h
    cases B with
    | nil => cases h
    | cons b B =>
      simp only [List.map_cons] at h
      injection h with h1 h2
      rw [join_cons_eq, join_cons_eq, List.length_append, List.length_append,
        h1, ih B h2]

theorem mem_joinComma (c : Char) : ∀ (ns : List (List Char)),
    c ∈ joinComma ns → c = ',' ∨ ∃ nm ∈ ns, c ∈ nm := by
  intro ns
  match ns with
  | [] => intro h; cases h
  | [s] =>
    intro h
    exact Or.inr ⟨s, List.mem_cons_self _ _, h⟩
  | s :: s2 :: r =>
    intro h
    rw [show joinComma (s :: s2 :: r) = s ++ ',' :: joinComma (s2 :: r)
      from rfl] at h
    rcases List.mem_append.mp h with h1 | h1
    · exact Or.inr ⟨s, List.mem_cons_self _ _, h1⟩
    · rcases List.mem_cons.mp h1 with h2 | h2
      · exact Or.inl h2
      · rcases mem_joinComma c (s2 :: r) h2 with h3 | ⟨nm, hnm, hc⟩
        · exact Or.inl h3
        · exact Or.inr ⟨nm, List.mem_cons_of_mem _ hnm, hc⟩

theorem mem_tokenStr (c : Char) (nm cs : List Char)
    (h : c ∈ tokenStr (nm, cs)) :
    c ∈ nm ∨ c = '(' ∨ c = ')' ∨ c ∈ cs := by
  rw [tokenStr] at h
  split at h
  · exact Or.inl h
  · rcases List.mem_append.mp h with h1 | h1
    · rcases List.mem_append.mp h1 with h2 | h2
      · exact Or.inl h2
      · rcases List.mem_cons.mp h2 with h3 | h3
        · exact Or.inr (Or.inl h3)
        · exact Or.inr (Or.inr (Or.inr h3))
    · rcases List.mem_cons.mp h1 with h3 | h3
      · exact Or.inr (Or.inr (Or.inl h3))
      · cases h3

theorem specialFreeB_notSpecial {nm : List Char}
    (h : specialFreeB nm = true) : ∀ c ∈ nm, notSpecial c = true := by
  intro c hc
  have := List.all_eq_true.mp h c hc
  rw [notSpecial]
  simp only [Bool.not_eq_true', Bool.or_eq_false_iff, decide_eq_false_iff_not]
  simp only [Bool.not_eq_true', Bool.or_eq_false_iff,
    decide_eq_false_iff_not] at this
  exact ⟨⟨this.1.1.1, this.1.1.2⟩, this.1.2⟩

theorem specialFreeB_no (nm : List Char) (h : specialFreeB nm = true)
    (c : Char) (hc : c ∈ nm) :
    ¬(c = '(' ∨ c = ')' ∨ c = ',' ∨ c = ';') := by
  have := List.all_eq_true.mp h c hc
  simp only [Bool.not_eq_true', Bool.or_eq_false_iff,
    decide_eq_false_iff_not] at this
  rintro (h1 | h1 | h1 | h1)
  · exact this.1.1.1 h1
  · exact this.1.1.2 h1
  · exact this.1.2 h1
  · exact this.2 h1

theorem buildLays_map_congr {β γ : Type} (g : Int → β) (F : γ → β) :
    ∀ (NL : List (List (List Char))) (Z : List (List γ)) (n : Int),
    NL.map List.length = Z.map List.length →
    (∀ (j : Nat) (x : γ), (Z.join)[j]? = some x → g (n + (j : Int)) = F x) →
    (buildLays NL n).map (List.map g) = Z.map (List.map F) := by
  intro NL
  induction NL with
  | nil =>
    intro Z n hshape _
    cases Z with
    | nil => rfl
    | cons z Z => cases hshape
  | cons l NL ih =>
    intro Z n hshape h
    cases Z with
    | nil => cases hshape
    | cons z Z =>
      simp only [List.map_cons] at hshape
      injection hshape with hlen hshape
      rw [buildLays, List.map_cons, List.map_cons,
        idsOf_map_congr l z n hlen fun j x hx => h j x (by
          rw [join_cons_eq]
          rw [List.getElem?_append_left (List.getElem?_eq_some.mp hx).1]
          exact hx)]
      rw [ih Z (n + (l.length : Int)) hshape fun j x hx => by
        have hidx : (((z :: Z).join))[z.length + j]? = some x := by
          rw [join_cons_eq, List.getElem?_append_right (by omega)]
          simpa using hx
        have := h (z.length + j) x hidx
        rw [show n + ((z.length + j : Nat) : Int) =
          (n + (l.length : Int)) + (j : Int) from by
            rw [hlen]; push_cast; ring] at this
        exact this]

/-! #### The decoded tree in closed form, and facts from the hypotheses -/

def nameLayers (t : Tree) : List (List (List Char)) :=
  t.node_layers.map fun lay => lay.map (nameOfId t)

def childNameLayers (t : Tree) : List (List (List (List Char))) :=
  t.node_layers.map fun lay => lay.map fun id =>
    (childIdsOfId t id).map (nameOfId t)

def resolveF (t : Tree) (cn : List Char) : Int :=
  0 + ((idxOfName ((nameLayers t).join) cn : Nat) : Int)

def decodeDict (t : Tree) : List (Int × Node) :=
  relFold (buildDict ((nameLayers t).join) 0)
    (specPairs (resolveF t) ((childNameLayers t).join) 0)

def decodeTree (t : Tree) : Tree :=
  { last_id := 0 + (((nameLayers t).join.length : Nat) : Int) - 1,
    node_dict := decodeDict t,
    node_layers := buildLays (nameLayers t) 0,
    node_yxs := buildYxsAll (nameLayers t) 0 0,
    settings := {} }

def parentNameF (t : Tree) (nm : List Char) : Option (List Char) :=
  (lastClaimName nm ((childNameLayers t).join) 0).bind fun pos =>
    (alookup (decodeDict t) pos).map fun m => m.card.name

theorem band_elim {a b : Bool} (h : (a && b) = true) :
    a = true ∧ b = true := by
  simp only [Bool.and_eq_true] at h
  exact h

theorem bor_elim {a b : Bool} (h : (a || b) = true) :
    a = true ∨ b = true := by
  simp only [Bool.or_eq_true] at h
  exact h

theorem c7_name_facts {t : Tree} (h1 : c7NamesOkB t = true) :
    ∀ id ∈ t.node_layers.join,
      nameOfId t id ≠ [] ∧ specialFreeB (nameOfId t id) = true := by
  intro id hid
  have h := (band_elim h1).2
  have hx := List.all_eq_true.mp h id hid
  cases hd : alookup t.node_dict id with
  | none => rw [hd] at hx; simp at hx
  | some n =>
    rw [hd] at hx
    replace hx : (decide (n.card.name ≠ []) && specialFreeB n.card.name)
        = true := hx
    obtain ⟨ha, hb⟩ := band_elim hx
    rw [show nameOfId t id = n.card.name from by simp [nameOfId, hd]]
    exact ⟨of_decide_eq_true ha, hb⟩

theorem c7_nodup {t : Tree} (h1 : c7NamesOkB t = true) :
    (t.node_layers.join.map (nameOfId t)).Nodup :=
  of_decide_eq_true (band_elim h1).1

theorem c7_lay_nodup {t : Tree} (h2 : c7WellFormedB t = true) :
    t.node_layers.join.Nodup :=
  of_decide_eq_true (band_elim (band_elim
    (band_elim h2).1).1).1

theorem c7_id_facts {t : Tree} (h2 : c7WellFormedB t = true) :
    ∀ id ∈ t.node_layers.join,
      0 ≤ id ∧ (alookup t.node_dict id).isSome = true := by
  intro id hid
  have h := (band_elim (band_elim
    (band_elim h2).1).1).2
  have hx := List.all_eq_true.mp h id hid
  obtain ⟨ha, hb⟩ := band_elim hx
  exact ⟨of_decide_eq_true ha, hb⟩

theorem c7_child_facts {t : Tree} (h2 : c7WellFormedB t = true) :
    ∀ p ∈ t.node_layers.join, ∀ c ∈ childIdsOfId t p,
      c ∈ t.node_layers.join ∧
      ∃ C, alookup t.node_dict c = some C ∧ C.parent_id = p := by
  intro p hp c hc
  have h := (band_elim (band_elim h2).1).2
  have hx := List.all_eq_true.mp h p hp
  cases hd : alookup t.node_dict p with
  | none => rw [hd] at hx; simp at hx
  | some P =>
    rw [hd] at hx
    replace hx : (P.child_ids.all fun c =>
        decide (c ∈ t.node_layers.join) &&
        (match alookup t.node_dict c with
         | none => false
         | some C => decide (C.parent_id = p))) = true := hx
    rw [show childIdsOfId t p = P.child_ids from by
      simp [childIdsOfId, hd]] at hc
    have h4 := List.all_eq_true.mp hx c hc
    obtain ⟨ha, hb⟩ := band_elim h4
    refine ⟨of_decide_eq_true ha, ?_⟩
    cases hdc : alookup t.node_dict c with
    | none => rw [hdc] at hb; simp at hb
    | some C =>
      rw [hdc] at hb
      replace hb : decide (C.parent_id = p) = true := hb
      exact ⟨C, rfl, of_decide_eq_true hb⟩

theorem c7_parent_facts {t : Tree} (h2 : c7WellFormedB t = true) :
    ∀ c ∈ t.node_layers.join, ∀ C, alookup t.node_dict c = some C →
      C.parent_id ≠ -1 →
      C.parent_id ∈ t.node_layers.join ∧
      ∃ P, alookup t.node_dict C.parent_id = some P ∧ c ∈ P.child_ids := by
  intro c hc C hC hne
  have h := (band_elim h2).2
  have hx := List.all_eq_true.mp h c hc
  rw [hC] at hx
  replace hx : (decide (C.parent_id = -1) ||
      (decide (C.parent_id ∈ t.node_layers.join) &&
       (match alookup t.node_dict C.parent_id with
        | none => false
        | some P => decide (c ∈ P.child_ids)))) = true := hx
  rcases bor_elim hx with h4 | h4
  · exact absurd (of_decide_eq_true h4) hne
  · obtain ⟨ha, hb⟩ := band_elim h4
    refine ⟨of_decide_eq_true ha, ?_⟩
    cases hdp : alookup t.node_dict C.parent_id with
    | none => rw [hdp] at hb; simp at hb
    | some P =>
      rw [hdp] at hb
      replace hb : decide (c ∈ P.child_ids) = true := hb
      exact ⟨P, rfl, of_decide_eq_true hb⟩

theorem c7_FN_eq (t : Tree) :
    (nameLayers t).join = t.node_layers.join.map (nameOfId t) :=
  join_map_map (nameOfId t) t.node_layers

theorem c7_FC_eq (t : Tree) :
    (childNameLayers t).join = t.node_layers.join.map fun q =>
      (childIdsOfId t q).map (nameOfId t) :=
  join_map_map _ t.node_layers

theorem c7_FN_nodup {t : Tree} (h1 : c7NamesOkB t = true) :
    ((nameLayers t).join).Nodup := by
  rw [c7_FN_eq]
  exact c7_nodup h1

theorem c7_name_inj {t : Tree} (h1 : c7NamesOkB t = true) :
    ∀ a ∈ t.node_layers.join, ∀ b ∈ t.node_layers.join,
      nameOfId t a = nameOfId t b → a = b := by
  intro a ha b hb hab
  exact List.inj_on_of_nodup_map (c7_nodup h1) ha hb hab

theorem c7_FN_mem {t : Tree} (q : Int) (hq : q ∈ t.node_layers.join) :
    nameOfId t q ∈ (nameLayers t).join := by
  rw [c7_FN_eq]
  exact List.mem_map.mpr ⟨q, hq, rfl⟩

theorem c7_shape (t : Tree) :
    (childNameLayers t).map List.length = (nameLayers t).map List.length := by
  simp [childNameLayers, nameLayers, List.map_map, Function.comp]

theorem mem_of_getq (l : List α) (j : Nat) (x : α) (h : l[j]? = some x) :
    x ∈ l := by
  have hlt := (List.getElem?_eq_some.mp h).1
  have hget := (List.getElem?_eq_some.mp h).2
  exact hget ▸ List.getElem_mem hlt

theorem c7_FC_mem_names {t : Tree} (h2 : c7WellFormedB t = true)
    (x : List (List Char)) (hxm : x ∈ (childNameLayers t).join) :
    ∀ cn ∈ x, cn ∈ (nameLayers t).join := by
  intro cn hcn
  rw [c7_FC_eq] at hxm
  obtain ⟨q, hq, rfl⟩ := List.mem_map.mp hxm
  obtain ⟨cc, hcc, rfl⟩ := List.mem_map.mp hcn
  exact c7_FN_mem cc (c7_child_facts h2 q hq cc hcc).1

/-! #### Running the codec under the amended hypotheses -/

theorem c7_cs_chars {t : Tree} (id : Int) (ch : Char)
    (hch : ch ∈ (tokenOf t id).2) :
    ch = ',' ∨ ∃ c ∈ childIdsOfId t id, ch ∈ nameOfId t c := by
  by_cases hc0 : childIdsOfId t id = []
  · rw [show (tokenOf t id).2 = [] from by simp [tokenOf, hc0]] at hch
    cases hch
  · rw [show (tokenOf t id).2 =
        joinComma ((childIdsOfId t id).map (nameOfId t)) from by
      simp [tokenOf, hc0]] at hch
    rcases mem_joinComma ch _ hch with h | ⟨nm, hnm, hin⟩
    · exact Or.inl h
    · obtain ⟨c, hcm, rfl⟩ := List.mem_map.mp hnm
      exact Or.inr ⟨c, hcm, hin⟩

theorem c7_encode {t : Tree} (h1 : c7NamesOkB t = true)
    (h2 : c7WellFormedB t = true) :
    t.str_repr = some ((t.node_layers.map fun lay =>
      joinComma (lay.map fun id => tokenStr (tokenOf t id)) ++ [';']).join) := by
  show strReprAux t t.node_layers = _
  refine strReprAux_eval t t.node_layers ?_
  intro lay hlay id hid
  have hidJ : id ∈ t.node_layers.join := List.mem_join.mpr ⟨lay, hlay, hid⟩
  refine nodeStr_eval t id (c7_id_facts h2 id hidJ).2 ?_ ?_
  · intro c hc
    exact (c7_id_facts h2 c (c7_child_facts h2 id hidJ c hc).1).2
  · intro c hc
    exact (c7_name_facts h1 c (c7_child_facts h2 id hidJ c hc).1).1

theorem c7_semifree {t : Tree} (h1 : c7NamesOkB t = true)
    (h2 : c7WellFormedB t = true) :
    ∀ s ∈ (t.node_layers.map fun lay =>
      joinComma (lay.map fun id => tokenStr (tokenOf t id))), ';' ∉ s := by
  intro s hs hin
  obtain ⟨lay, hlay, rfl⟩ := List.mem_map.mp hs
  rcases mem_joinComma ';' _ hin with h | ⟨nm, hnm, hcin⟩
  · exact absurd h (by decide)
  · obtain ⟨id, hidm, rfl⟩ := List.mem_map.mp hnm
    have hidJ : id ∈ t.node_layers.join := List.mem_join.mpr ⟨lay, hlay, hidm⟩
    rcases mem_tokenStr ';' _ _ hcin with h | h | h | h
    · exact specialFreeB_no _ (c7_name_facts h1 id hidJ).2 ';' h
        (Or.inr (Or.inr (Or.inr rfl)))
    · exact absurd h (by decide)
    · exact absurd h (by decide)
    · rcases c7_cs_chars id ';' h with h' | ⟨c, hcm, hin'⟩
      · exact absurd h' (by decide)
      · exact specialFreeB_no _
          (c7_name_facts h1 c (c7_child_facts h2 id hidJ c hcm).1).2 ';' hin'
          (Or.inr (Or.inr (Or.inr rfl)))

theorem c7_wfTok {t : Tree} (h1 : c7NamesOkB t = true)
    (h2 : c7WellFormedB t = true) (id : Int)
    (hid : id ∈ t.node_layers.join) : wfTok (tokenOf t id) := by
  refine ⟨(c7_name_facts h1 id hid).1, ?_, ?_⟩
  · intro c hc
    exact specialFreeB_notSpecial (c7_name_facts h1 id hid).2 c hc
  · intro h
    rcases c7_cs_chars id ')' h with h' | ⟨c, hcm, hin'⟩
    · exact absurd h' (by decide)
    · exact specialFreeB_no _
        (c7_name_facts h1 c (c7_child_facts h2 id hid c hcm).1).2 ')' hin'
        (Or.inr (Or.inl rfl))

theorem c7_scan {t : Tree} (h1 : c7NamesOkB t = true)
    (h2 : c7WellFormedB t = true) :
    (t.node_layers.map fun lay =>
      joinComma (lay.map fun id => tokenStr (tokenOf t id))).map finditer =
    t.node_layers.map fun lay => lay.map (tokenOf t) := by
  rw [List.map_map]
  refine List.map_congr_left ?_
  intro lay hlay
  show finditer (joinComma (lay.map fun id => tokenStr (tokenOf t id))) = _
  rw [show (lay.map fun id => tokenStr (tokenOf t id)) =
      (lay.map (tokenOf t)).map tokenStr from by rw [List.map_map]; rfl]
  refine finditer_tokens _ ?_
  intro tk htk
  obtain ⟨id, hidm, rfl⟩ := List.mem_map.mp htk
  exact c7_wfTok h1 h2 id (List.mem_join.mpr ⟨lay, hlay, hidm⟩)

theorem c7_nameLs (t : Tree) :
    (t.node_layers.map fun lay => lay.map (tokenOf t)).map
      (List.map Prod.fst) = nameLayers t := by
  rw [List.map_map]
  refine List.map_congr_left fun lay _ => ?_
  show (lay.map (tokenOf t)).map Prod.fst = lay.map (nameOfId t)
  rw [List.map_map]
  rfl

theorem c7_childLs {t : Tree} (h1 : c7NamesOkB t = true)
    (h2 : c7WellFormedB t = true) :
    (t.node_layers.map fun lay => lay.map (tokenOf t)).map
      (List.map fun tk => if tk.2 = [] then [] else pySplit ',' tk.2) =
    childNameLayers t := by
  rw [List.map_map]
  refine List.map_congr_left fun lay hlay => ?_
  show (lay.map (tokenOf t)).map
      (fun tk => if tk.2 = [] then [] else pySplit ',' tk.2) =
    lay.map fun id => (childIdsOfId t id).map (nameOfId t)
  rw [List.map_map]
  refine List.map_congr_left fun id hidm => ?_
  have hidJ : id ∈ t.node_layers.join := List.mem_join.mpr ⟨lay, hlay, hidm⟩
  show (if (tokenOf t id).2 = [] then []
        else pySplit ',' (tokenOf t id).2) =
      (childIdsOfId t id).map (nameOfId t)
  by_cases hc0 : childIdsOfId t id = []
  · rw [show (tokenOf t id).2 = [] from by simp [tokenOf, hc0], if_pos rfl, hc0]
    rfl
  · have hne : (childIdsOfId t id).map (nameOfId t) ≠ [] := by
      simpa using hc0
    have hcsv : (tokenOf t id).2 =
        joinComma ((childIdsOfId t id).map (nameOfId t)) := by
      simp [tokenOf, hc0]
    have hnm1 : ∀ nm ∈ (childIdsOfId t id).map (nameOfId t), nm ≠ [] := by
      intro nm hnm
      obtain ⟨c, hcm, rfl⟩ := List.mem_map.mp hnm
      exact (c7_name_facts h1 c (c7_child_facts h2 id hidJ c hcm).1).1
    have hnm2 : ∀ nm ∈ (childIdsOfId t id).map (nameOfId t), ',' ∉ nm := by
      intro nm hnm hin
      obtain ⟨c, hcm, rfl⟩ := List.mem_map.mp hnm
      exact specialFreeB_no _
        (c7_name_facts h1 c (c7_child_facts h2 id hidJ c hcm).1).2 ',' hin
        (Or.inr (Or.inr (Or.inl rfl)))
    rw [hcsv, if_neg (joinComma_ne_nil _ hne hnm1),
      pySplit_joinComma _ hne hnm2]

theorem c7_split {t : Tree} (h1 : c7NamesOkB t = true)
    (h2 : c7WellFormedB t = true) :
    pySplit ';' ((t.node_layers.map fun lay =>
        joinComma (lay.map fun id => tokenStr (tokenOf t id)) ++ [';']).join) =
      (t.node_layers.map fun lay =>
        joinComma (lay.map fun id => tokenStr (tokenOf t id))) ++ [[]] := by
  have h := pySplit_encode ';' (t.node_layers.map fun lay : List Int =>
    joinComma (lay.map fun id => tokenStr (tokenOf t id))) (c7_semifree h1 h2)
  rw [List.map_map] at h
  exact h

theorem c7_resolve {t : Tree} (h1 : c7NamesOkB t = true)
    (h2 : c7WellFormedB t = true) :
    ∀ cn ∈ ((childNameLayers t).join).join,
      nlookup (buildNames ((nameLayers t).join) 0) cn =
        some (resolveF t cn) := by
  intro cn hcn
  have hFN : cn ∈ (nameLayers t).join := by
    obtain ⟨c, hc, hcnc⟩ := List.mem_join.mp hcn
    exact c7_FC_mem_names h2 c hc cn hcnc
  exact nlookup_buildNames _ 0 (idxOfName ((nameLayers t).join) cn) cn
    (c7_FN_nodup h1) (idxOfName_get _ cn hFN)

theorem c7_pairs {t : Tree} (h1 : c7NamesOkB t = true)
    (h2 : c7WellFormedB t = true) :
    relPairsAll (buildNames ((nameLayers t).join) 0)
      (List.zipWith (fun lay ch => lay.zip ch)
        (buildLays (nameLayers t) 0) (childNameLayers t)) =
      some (specPairs (resolveF t) ((childNameLayers t).join) 0) :=
  relPairsAll_eval _ (resolveF t) (childNameLayers t) (nameLayers t) 0
    (c7_shape t) (c7_resolve h1 h2)

theorem c7_decode {t : Tree} (h1 : c7NamesOkB t = true)
    (h2 : c7WellFormedB t = true) :
    Tree.from_str_repr ((t.node_layers.map fun lay =>
        joinComma (lay.map fun id => tokenStr (tokenOf t id)) ++ [';']).join) =
      some (decodeTree t) := by
  simp only [Tree.from_str_repr, c7_split h1 h2, List.getLast?_concat,
    eq_self_iff_true, if_true, List.dropLast_concat, c7_scan h1 h2,
    c7_nameLs, c7_childLs h1 h2, regAll_eq, c7_pairs h1 h2]
  rfl

/-! #### Reading the decoded dict, and the three preserved views -/

theorem c7_dict_lookup (t : Tree) (j : Nat) (nm : List Char)
    (hnm : ((nameLayers t).join)[j]? = some nm) :
    alookup (decodeDict t) (0 + (j : Int)) = some
      { id := 0 + (j : Int),
        card := { name := nm, birth_year := none, death_year := none,
                  bio := [] },
        parent_id := (lastClaim (0 + (j : Int)) (resolveF t)
          ((childNameLayers t).join) 0).getD (-1),
        child_ids := ((((childNameLayers t).join)[j]?).getD []).map
          (resolveF t) } := by
  rw [decodeDict, relFold_lookup, alookup_buildDict, hnm]
  simp only [Option.map_some']
  rw [lastParent_specPairs, appendsFor_specPairs]
  simp

theorem c7_resolve_names {t : Tree} (h1 : c7NamesOkB t = true) :
    ∀ (x : List (List Char)), (∀ cn ∈ x, cn ∈ (nameLayers t).join) →
    (x.map (resolveF t)).map (fun c =>
      ((alookup (decodeDict t) c).map fun m => m.card.name).getD []) = x := by
  intro x
  induction x with
  | nil => intro _; rfl
  | cons cn x ih =>
    intro h
    rw [List.map_cons, List.map_cons,
      ih fun y hy => h y (List.mem_cons_of_mem _ hy)]
    have hcn := h cn (List.mem_cons_self _ _)
    rw [show resolveF t cn =
        0 + ((idxOfName ((nameLayers t).join) cn : Nat) : Int) from rfl,
      c7_dict_lookup t (idxOfName ((nameLayers t).join) cn) cn
        (idxOfName_get _ cn hcn)]
    simp

theorem c7_lastClaim_eq {t : Tree} (h1 : c7NamesOkB t = true)
    (h2 : c7WellFormedB t = true) (j : Nat) (x : List Char)
    (hx : ((nameLayers t).join)[j]? = some x) :
    lastClaim (0 + (j : Int)) (resolveF t) ((childNameLayers t).join) 0 =
      lastClaimName x ((childNameLayers t).join) 0 := by
  refine lastClaim_name _ _ _ ((nameLayers t).join) ?_ _ 0 ?_
  · intro cn hcn
    constructor
    · intro hf
      simp only [resolveF] at hf
      have hj : idxOfName ((nameLayers t).join) cn = j := by omega
      have hg := idxOfName_get _ cn hcn
      rw [hj, hx] at hg
      injection hg with hg
      exact hg.symm
    · intro he
      subst he
      simp only [resolveF]
      rw [idxOfName_unique _ cn j (c7_FN_nodup h1) hx]
  · intro c hc cn hcn
    exact c7_FC_mem_names h2 c hc cn hcn

theorem c7_nameLayers_eq (t : Tree) : nameLayers t = layerNames t := rfl

theorem c7_childNameLayers_eq (t : Tree) :
    childNameLayers t = layerChildNames t := by
  refine List.map_congr_left fun lay _ => ?_
  refine List.map_congr_left fun id _ => ?_
  cases hd : alookup t.node_dict id with
  | none => simp [childIdsOfId, hd]
  | some n =>
    simp only [hd, Option.map_some', Option.getD_some]
    rw [show childIdsOfId t id = n.child_ids from by simp [childIdsOfId, hd]]
    rfl

theorem c7_viewN {t : Tree} (h1 : c7NamesOkB t = true)
    (h2 : c7WellFormedB t = true) :
    layerNames (decodeTree t) = layerNames t := by
  have hmain : (buildLays (nameLayers t) 0).map (List.map fun id =>
      ((alookup (decodeDict t) id).map fun n => n.card.name).getD []) =
      (nameLayers t).map (List.map fun nm => nm) := by
    refine buildLays_map_congr _ _ (nameLayers t) (nameLayers t) 0 rfl ?_
    intro j x hx
    show ((alookup (decodeDict t) (0 + (j : Int))).map
        fun n => n.card.name).getD [] = x
    rw [c7_dict_lookup t j x hx]
    simp
  show (buildLays (nameLayers t) 0).map (List.map fun id =>
      ((alookup (decodeDict t) id).map fun n => n.card.name).getD []) =
    layerNames t
  rw [hmain]
  rw [show (nameLayers t).map (List.map fun nm => nm) = nameLayers t from by
    simp]
  rfl

theorem c7_viewC {t : Tree} (h1 : c7NamesOkB t = true)
    (h2 : c7WellFormedB t = true) :
    layerChildNames (decodeTree t) = layerChildNames t := by
  have hlen : ((childNameLayers t).join).length =
      ((nameLayers t).join).length :=
    join_length_congr _ _ (c7_shape t)
  have hmain : (buildLays (nameLayers t) 0).map (List.map fun id =>
      ((alookup (decodeDict t) id).map fun n =>
        n.child_ids.map fun c =>
          ((alookup (decodeDict t) c).map fun m =>
            m.card.name).getD []).getD []) =
      (childNameLayers t).map (List.map fun cns => cns) := by
    refine buildLays_map_congr _ _ (nameLayers t) (childNameLayers t) 0
      (c7_shape t).symm ?_
    intro j x hx
    have hj : j < ((nameLayers t).join).length := by
      have := (List.getElem?_eq_some.mp hx).1
      omega
    obtain ⟨nm, hnm⟩ : ∃ nm, ((nameLayers t).join)[j]? = some nm :=
      ⟨_, List.getElem?_eq_getElem hj⟩
    show ((alookup (decodeDict t) (0 + (j : Int))).map fun n =>
        n.child_ids.map fun c =>
          ((alookup (decodeDict t) c).map fun m =>
            m.card.name).getD []).getD [] = x
    rw [c7_dict_lookup t j nm hnm]
    simp only [Option.map_some', Option.getD_some]
    rw [hx]
    simp only [Option.getD_some]
    exact c7_resolve_names h1 x
      (c7_FC_mem_names h2 x (mem_of_getq _ j x hx))
  show (buildLays (nameLayers t) 0).map (List.map fun id =>
      ((alookup (decodeDict t) id).map fun n =>
        n.child_ids.map fun c =>
          ((alookup (decodeDict t) c).map fun m =>
            m.card.name).getD []).getD []) =
    layerChildNames t
  rw [hmain]
  rw [show (childNameLayers t).map (List.map fun cns => cns) =
      childNameLayers t from by simp]
  exact c7_childNameLayers_eq t

theorem c7_viewP {t : Tree} (h1 : c7NamesOkB t = true)
    (h2 : c7WellFormedB t = true) :
    layerParentNames (decodeTree t) = layerParentNames t := by
  have hmain : (buildLays (nameLayers t) 0).map (List.map fun id =>
      (alookup (decodeDict t) id).bind fun n =>
        if n.parent_id = -1 then none
        else (alookup (decodeDict t) n.parent_id).map fun m => m.card.name) =
      (nameLayers t).map (List.map (parentNameF t)) := by
    refine buildLays_map_congr _ _ (nameLayers t) (nameLayers t) 0 rfl ?_
    intro j x hx
    show ((alookup (decodeDict t) (0 + (j : Int))).bind fun n =>
        if n.parent_id = -1 then none
        else (alookup (decodeDict t) n.parent_id).map fun m => m.card.name) =
      parentNameF t x
    rw [c7_dict_lookup t j x hx]
    simp only [Option.some_bind]
    rw [c7_lastClaim_eq h1 h2 j x hx]
    cases hlc : lastClaimName x ((childNameLayers t).join) 0 with
    | none => simp [parentNameF, hlc]
    | some pos =>
      have hge : (0 : Int) ≤ pos := lastClaimName_ge x _ 0 pos hlc
      simp only [parentNameF, hlc, Option.some_bind, Option.getD_some]
      rw [if_neg (by omega)]
  have hT : (nameLayers t).map (List.map (parentNameF t)) =
      layerParentNames t := by
    show (t.node_layers.map fun lay => lay.map (nameOfId t)).map
        (List.map (parentNameF t)) = layerParentNames t
    rw [List.map_map]
    refine List.map_congr_left fun lay hlay => ?_
    show (lay.map (nameOfId t)).map (parentNameF t) =
      lay.map fun id => (alookup t.node_dict id).bind fun n =>
        if n.parent_id = -1 then none
        else (alookup t.node_dict n.parent_id).map fun m => m.card.name
    rw [List.map_map]
    refine List.map_congr_left fun id hidm => ?_
    have hidJ : id ∈ t.node_layers.join := List.mem_join.mpr ⟨lay, hlay, hidm⟩
    obtain ⟨n, hn⟩ := Option.isSome_iff_exists.mp (c7_id_facts h2 id hidJ).2
    show parentNameF t (nameOfId t id) =
      (alookup t.node_dict id).bind fun n =>
        if n.parent_id = -1 then none
        else (alookup t.node_dict n.parent_id).map fun m => m.card.name
    rw [hn]
    simp only [Option.some_bind]
    by_cases hpar : n.parent_id = -1
    · rw [if_pos hpar]
      have hnone : lastClaimName (nameOfId t id)
          ((childNameLayers t).join) 0 = none := by
        rw [c7_FC_eq]
        refine lastClaimName_none _ _ 0 ?_
        intro c hc
        obtain ⟨q, hq, rfl⟩ := List.mem_map.mp hc
        intro hin
        obtain ⟨cc, hcc, heq⟩ := List.mem_map.mp hin
        have hccJ := (c7_child_facts h2 q hq cc hcc).1
        have hcid : cc = id := c7_name_inj h1 cc hccJ id hidJ heq
        subst hcid
        obtain ⟨C, hC, hCp⟩ := (c7_child_facts h2 q hq cc hcc).2
        rw [hn] at hC
        injection hC with hC
        rw [← hC] at hCp
        have hq0 := (c7_id_facts h2 q hq).1
        rw [hCp] at hpar
        omega
      simp [parentNameF, hnone]
    · rw [if_neg hpar]
      obtain ⟨hpJ, P, hP, hmem⟩ := c7_parent_facts h2 id hidJ n hn hpar
      have hiff : ∀ q ∈ t.node_layers.join,
          nameOfId t id ∈ (childIdsOfId t q).map (nameOfId t) ↔
          q = n.parent_id := by
        intro q hq
        constructor
        · intro hin
          obtain ⟨cc, hcc, heq⟩ := List.mem_map.mp hin
          have hccJ := (c7_child_facts h2 q hq cc hcc).1
          have hcid : cc = id := c7_name_inj h1 cc hccJ id hidJ heq
          subst hcid
          obtain ⟨C, hC, hCp⟩ := (c7_child_facts h2 q hq cc hcc).2
          rw [hn] at hC
          injection hC with hC
          rw [hC]
          exact hCp.symm
        · intro hq'
          subst hq'
          rw [show childIdsOfId t n.parent_id = P.child_ids from by
            simp [childIdsOfId, hP]]
          exact List.mem_map.mpr ⟨id, hmem, rfl⟩
      obtain ⟨r, hr, heq⟩ := lastClaimName_map (nameOfId t id) n.parent_id
        (fun q => (childIdsOfId t q).map (nameOfId t)) t.node_layers.join 0
        (c7_lay_nodup h2) hpJ hiff
      have hlcn : lastClaimName (nameOfId t id)
          ((childNameLayers t).join) 0 = some (0 + (r : Int)) := by
        rw [c7_FC_eq]
        exact heq
      have hFNr : ((nameLayers t).join)[r]? =
          some (nameOfId t n.parent_id) := by
        rw [c7_FN_eq, List.getElem?_map, hr]
        rfl
      simp only [parentNameF, hlcn, Option.some_bind]
      rw [c7_dict_lookup t r (nameOfId t n.parent_id) hFNr]
      simp [nameOfId, hP]
  show (buildLays (nameLayers t) 0).map (List.map fun id =>
      (alookup (decodeDict t) id).bind fun n =>
        if n.parent_id = -1 then none
        else (alookup (decodeDict t) n.parent_id).map fun m => m.card.name) =
    layerParentNames t
  rw [hmain, hT]

/-- C7 (amended): on a store whose layer-node names are unique, non-empty
and separator-free (the original claim's conditions) AND whose relations
are well formed — duplicate-free non-negative dict-backed cell ids,
children that are layer nodes pointing back at their parent, and non-null
parents matched by child-list membership — `from_str_repr(str_repr())`
succeeds and rebuilds a store with the same layer structure: matching
name layers, matching ordered child-name lists, and matching parent
names. Without the well-formedness condition the parent view can flip,
as the counterexample's double-parented store shows. -/
theorem c7_amended (t : Tree) (h1 : c7NamesOkB t = true)
    (h2 : c7WellFormedB t = true) :
    ∃ t', t.str_repr.bind Tree.from_str_repr = some t' ∧
      layerNames t' = layerNames t ∧
      layerChildNames t' = layerChildNames t ∧
      layerParentNames t' = layerParentNames t := by
  refine ⟨decodeTree t, ?_, c7_viewN h1 h2, c7_viewC h1 h2, c7_viewP h1 h2⟩
  rw [c7_encode h1 h2]
  exact c7_decode h1 h2

/-- A small consistent store: `a` in layer 0 with child `b` in layer 1. -/
def c7GoodStore : Tree :=
  { last_id := 1,
    node_dict := [(0, ⟨0, ⟨['a'], none, none, []⟩, -1, [1]⟩),
                  (1, ⟨1, ⟨['b'], none, none, []⟩, 0, []⟩)],
    node_layers := [[0], [1]],
    node_yxs := [(0, 0, 0), (1, 1, 0)],
    settings := {} }

/-- Witness: `c7GoodStore` satisfies both hypothesis bundles, and the
amended round-trip theorem applies to it. -/
theorem c7_amended_witness :
    c7NamesOkB c7GoodStore = true ∧ c7WellFormedB c7GoodStore = true ∧
    ∃ t', c7GoodStore.str_repr.bind Tree.from_str_repr = some t' ∧
      layerNames t' = layerNames c7GoodStore ∧
      layerChildNames t' = layerChildNames c7GoodStore ∧
      layerParentNames t' = layerParentNames c7GoodStore :=
  ⟨by decide, by decide, c7_amended c7GoodStore (by decide) (by decide)⟩

/-! ### C2: `compute_painting_xs` — the full two-pass layout

The maps mirror the Python dicts; as for `update_contour`, ids the layout
reads are dict keys on coherent stores, with absent ids defaulting. The
one genuinely fallible operation is Python's `min([])` (`ValueError` on
an empty zip), modeled with `Option`. -/

def parentIdOf (dict : List (Int × Node)) (id : Int) : Int :=
  ((alookup dict id).map Node.parent_id).getD (-1)

def qsum (l : List ℚ) : ℚ := l.foldl (fun a b => a + b) 0

def pyMin : List ℚ → Option ℚ
  | [] => none
  | a :: r => some (r.foldl min a)

/-- `(xs, mods, lcons, rcons)`. -/
abbrev LSt := QMap × QMap × CMap × CMap

/-- One node of the per-layer contour loop: reposition over the children's
modded xs (if any), then recompute the contour. -/
def layoutNode (dict : List (Int × Node)) (st : LSt) (id : Int) : LSt :=
  match st with
  | (xs, mods, lcons, rcons) =>
    let xs' := match childIdsOf dict id with
      | [] => xs
      | c :: cs =>
        let cm := (c :: cs).map fun cid => qget xs cid + qget mods cid
        ainsert xs id (qsum cm / (cm.length : ℚ))
    match updateContour dict xs' lcons rcons id with
    | (l', r') => (xs', mods, l', r')

/-- `compare_and_mod(lid, rid)`. -/
def compareAndMod (dict : List (Int × Node)) (lid rid : Int) (st : LSt) :
    Option LSt :=
  match st with
  | (xs, mods, lcons, rcons) =>
    let spacing : ℚ :=
      if parentIdOf dict lid ≠ parentIdOf dict rid ∨
          (parentIdOf dict lid < 0 ∧ parentIdOf dict rid < 0)
      then 3/2 else 1
    match pyMin (((cget rcons lid).zip (cget lcons rid)).map
        fun p => p.2 - p.1) with
    | none => none
    | some min_dist =>
      let m : ℚ := if min_dist < spacing then spacing - min_dist else 0
      some (xs, ainsert mods rid m,
        ainsert lcons rid ((cget lcons rid).map fun v => v + m),
        ainsert rcons rid ((cget rcons rid).map fun v => v + m))

/-- The `lx, rx` sliding-window loop over a layer. -/
def comparePairs (dict : List (Int × Node)) : List Int → LSt → Option LSt
  | [], st => some st
  | [_], st => some st
  | a :: b :: r, st =>
    match compareAndMod dict a b st with
    | none => none
    | some st' => comparePairs dict (b :: r) st'

/-- The first half of `move_nodes`, over an already-reversed layer list. -/
def phase1 (dict : List (Int × Node)) : List (List Int) → LSt → Option LSt
  | [], st => some st
  | lay :: rest, st =>
    match comparePairs dict lay (lay.foldl (layoutNode dict) st) with
    | none => none
    | some st' => phase1 dict rest st'

/-- One node of the top-down mod application. -/
def settleNode (dict : List (Int × Node)) (st : QMap × QMap) (id : Int) :
    QMap × QMap :=
  match st with
  | (xs, mods) =>
    let m := qget mods id
    let xs' := ainsert xs id (qget xs id + m)
    let mods' := (childIdsOf dict id).foldl
      (fun ms c => ainsert ms c (qget ms c + m)) mods
    (xs', ainsert mods' id 0)

def phase2 (dict : List (Int × Node)) (layers : List (List Int))
    (st : QMap × QMap) : QMap × QMap :=
  layers.foldl (fun s lay => lay.foldl (settleNode dict) s) st

/-- `move_nodes()`. -/
def moveNodes (dict : List (Int × Node)) (layers : List (List Int))
    (st : LSt) : Option LSt :=
  (phase1 dict layers.reverse st).map fun st' =>
    match st' with
    | (xs, mods, l, r) =>
      match phase2 dict layers (xs, mods) with
      | (xs', mods') => (xs', mods', l, r)

/-- Seeding the last layer: `xs = index + 0.5`, contours updated. -/
def seedAux (dict : List (Int × Node)) : List Int → Nat → LSt → LSt
  | [], _, st => st
  | id :: r, i, st =>
    match st with
    | (xs, mods, lcons, rcons) =>
      let xs' := ainsert xs id ((i : ℚ) + 1/2)
      match updateContour dict xs' lcons rcons id with
      | (l', r') => seedAux dict r (i + 1) (xs', mods, l', r')

def Tree.compute_painting_xs (t : Tree) : Option QMap :=
  if t.node_layers.length < 1 then some []
  else
    let st0 : LSt := (t.node_dict.map fun p => (p.1, (0 : ℚ)),
      t.node_dict.map fun p => (p.1, (0 : ℚ)),
      t.node_dict.map fun p => (p.1, ([] : List ℚ)),
      t.node_dict.map fun p => (p.1, ([] : List ℚ)))
    let st1 := seedAux t.node_dict ((t.node_layers.getLast?).getD []) 0 st0
    match moveNodes t.node_dict t.node_layers st1 with
    | none => none
    | some st2 =>
      match moveNodes t.node_dict t.node_layers st2 with
      | none => none
      | some st3 => some st3.1

/-- The spacing the claim requires between adjacent nodes. -/
def c2ReqSpacing (dict : List (Int × Node)) (a b : Int) : ℚ :=
  if parentIdOf dict a = parentIdOf dict b ∧ 0 ≤ parentIdOf dict a then 1
  else 3/2

/-- The claim's no-overlap property over a computed coordinate map. -/
def noOverlapB (t : Tree) (xs : QMap) : Bool :=
  t.node_layers.all fun lay =>
    (lay.zip lay.tail).all fun p =>
      decide (c2ReqSpacing t.node_dict p.1 p.2 ≤ qget xs p.2 - qget xs p.1)

/-- Roots 0, 1, 5, 6 and 3; node 2 under 1, node 4 under 3. The middle
layer's short node 3 hides node 4 from the comparisons that settle the
bottom layer. -/
def c2Store : Tree :=
  { last_id := 6,
    node_dict := [(0, ⟨0, ⟨['a'], none, none, []⟩, -1, []⟩),
                  (1, ⟨1, ⟨['b'], none, none, []⟩, -1, [2]⟩),
                  (2, ⟨2, ⟨['c'], none, none, []⟩, 1, []⟩),
                  (3, ⟨3, ⟨['d'], none, none, []⟩, -1, [4]⟩),
                  (4, ⟨4, ⟨['e'], none, none, []⟩, 3, []⟩),
                  (5, ⟨5, ⟨['f'], none, none, []⟩, -1, []⟩),
                  (6, ⟨6, ⟨['g'], none, none, []⟩, -1, []⟩)],
    node_layers := [[0, 1], [2, 3], [4, 5, 6]],
    node_yxs := [(0, 0, 0), (1, 0, 1), (2, 1, 0), (3, 1, 1),
                 (4, 2, 0), (5, 2, 1), (6, 2, 2)],
    settings := {} }

section
attribute [local semireducible] Rat.add Rat.sub Rat.mul Rat.inv

set_option maxHeartbeats 2000000 in
/-- C2 (counterexample): on `c2Store` the two settle passes leave bottom
nodes 4 and 5 at the same x (both 3), although they have different
parents (3 and none) and so need a gap of 1.5: the claimed universal
no-overlap property fails. -/
theorem c2_counterexample :
    c2Store.compute_painting_xs.map (fun xs => noOverlapB c2Store xs) =
      some false ∧
    c2Store.compute_painting_xs.map (fun xs => (qget xs 4, qget xs 5)) =
      some (3, 3) := by
  decide

end

/-! #### The guarantee that does hold: a lone layer of childless roots -/

theorem qget_ainsert_self (m : QMap) (k : Int) (v : ℚ) :
    qget (ainsert m k v) k = v := by
  rw [qget, alookup_ainsert_self]
  rfl

theorem qget_ainsert_ne (m : QMap) (k k' : Int) (v : ℚ) (h : k' ≠ k) :
    qget (ainsert m k v) k' = qget m k' := by
  rw [qget, alookup_ainsert_ne _ _ _ _ h, qget]

theorem cget_ainsert_self (m : CMap) (k : Int) (v : List ℚ) :
    cget (ainsert m k v) k = v := by
  rw [cget, alookup_ainsert_self]
  rfl

theorem cget_ainsert_ne (m : CMap) (k k' : Int) (v : List ℚ) (h : k' ≠ k) :
    cget (ainsert m k v) k' = cget m k' := by
  rw [cget, alookup_ainsert_ne _ _ _ _ h, cget]

theorem qget_zero_map (d : List (Int × Node)) (k : Int) :
    qget (d.map fun p => (p.1, (0 : ℚ))) k = 0 := by
  induction d with
  | nil => rfl
  | cons p d ih =>
    rw [List.map_cons, qget, alookup_cons]
    by_cases h : k = p.1
    · rw [if_pos h]
      rfl
    · rw [if_neg h]
      exact ih

theorem seedAux_mods (dict : List (Int × Node)) : ∀ (l : List Int) (i : Nat)
    (st : LSt), (seedAux dict l i st).2.1 = st.2.1 := by
  intro l
  induction l with
  | nil => intro i st; rfl
  | cons id r ih =>
    intro i st
    obtain ⟨xs, mods, lc, rc⟩ := st
    rw [seedAux]
    cases updateContour dict (ainsert xs id ((i : ℚ) + 1/2)) lc rc id with
    | mk l' r' => exact ih (i + 1) _

theorem layoutNode_childless (dict : List (Int × Node)) (xs mods : QMap)
    (lc rc : CMap) (id : Int) (h : childIdsOf dict id = []) :
    layoutNode dict (xs, mods, lc, rc) id =
      (xs, mods, ainsert lc id [qget xs id], ainsert rc id [qget xs id]) := by
  rw [layoutNode]
  simp only [h, updateContour]

theorem layout_fold (dict : List (Int × Node)) : ∀ (l : List Int)
    (xs mods : QMap) (lc rc : CMap),
    (∀ id ∈ l, childIdsOf dict id = []) →
    ∃ lc' rc', List.foldl (layoutNode dict) (xs, mods, lc, rc) l =
        (xs, mods, lc', rc') ∧
      (∀ k, k ∈ l → cget lc' k = [qget xs k] ∧ cget rc' k = [qget xs k]) ∧
      (∀ k, k ∉ l → cget lc' k = cget lc k ∧ cget rc' k = cget rc k) := by
  intro l
  induction l with
  | nil =>
    intro xs mods lc rc _
    exact ⟨lc, rc, rfl, fun k hk => absurd hk (List.not_mem_nil k),
      fun k _ => ⟨rfl, rfl⟩⟩
  | cons id r ih =>
    intro xs mods lc rc h
    obtain ⟨lc', rc', heq, hin, hout⟩ := ih xs mods
      (ainsert lc id [qget xs id]) (ainsert rc id [qget xs id])
      (fun x hx => h x (List.mem_cons_of_mem _ hx))
    refine ⟨lc', rc', ?_, ?_, ?_⟩
    · rw [List.foldl_cons,
        layoutNode_childless dict xs mods lc rc id
          (h id (List.mem_cons_self _ _)), heq]
    · intro k hk
      by_cases hkr : k ∈ r
      · exact hin k hkr
      · rcases List.mem_cons.mp hk with hk1 | hk1
        · subst hk1
          obtain ⟨h1, h2⟩ := hout k hkr
          rw [h1, h2, cget_ainsert_self, cget_ainsert_self]
          exact ⟨rfl, rfl⟩
        · exact absurd hk1 hkr
    · intro k hk
      have hkid : k ≠ id := fun hc => hk (hc ▸ List.mem_cons_self _ _)
      have hkr : k ∉ r := fun hc => hk (List.mem_cons_of_mem _ hc)
      obtain ⟨h1, h2⟩ := hout k hkr
      rw [h1, h2, cget_ainsert_ne _ _ _ _ hkid, cget_ainsert_ne _ _ _ _ hkid]
      exact ⟨rfl, rfl⟩

theorem compareAndMod_roots (dict : List (Int × Node)) (a b : Int)
    (xs mods : QMap) (lc rc : CMap) (A B : ℚ)
    (hpa : parentIdOf dict a = -1) (hpb : parentIdOf dict b = -1)
    (hrca : cget rc a = [A]) (hlcb : cget lc b = [B]) :
    compareAndMod dict a b (xs, mods, lc, rc) = some
      (xs, ainsert mods b (if B - A < 3/2 then 3/2 - (B - A) else 0),
       ainsert lc b ((cget lc b).map fun v =>
         v + (if B - A < 3/2 then 3/2 - (B - A) else 0)),
       ainsert rc b ((cget rc b).map fun v =>
         v + (if B - A < 3/2 then 3/2 - (B - A) else 0))) := by
  rw [compareAndMod]
  simp only [hpa, hpb, hrca, hlcb]
  rw [if_pos (Or.inr ⟨by norm_num, by norm_num⟩)]
  rfl

theorem compare_chain (dict : List (Int × Node)) : ∀ (l : List Int)
    (xs mods : QMap) (lc rc : CMap),
    (∀ id ∈ l, parentIdOf dict id = -1) →
    (∀ id ∈ l, cget lc id = [qget xs id + qget mods id] ∧
      cget rc id = [qget xs id + qget mods id]) →
    (∀ id ∈ l.tail, qget mods id = 0) →
    l.Nodup →
    ∃ mods' lc' rc',
      comparePairs dict l (xs, mods, lc, rc) = some (xs, mods', lc', rc') ∧
      (∀ k, k ∉ l.tail → qget mods' k = qget mods k) ∧
      (∀ p ∈ l.zip l.tail,
        qget xs p.1 + qget mods' p.1 + 3/2 ≤ qget xs p.2 + qget mods' p.2) := by
  intro l
  induction l with
  | nil =>
    intro xs mods lc rc _ _ _ _
    exact ⟨mods, lc, rc, rfl, fun k _ => rfl, fun p hp => absurd hp
      (List.not_mem_nil p)⟩
  | cons a rest ih =>
    intro xs mods lc rc h1 h2 h3 h4
    cases rest with
    | nil =>
      exact ⟨mods, lc, rc, rfl, fun k _ => rfl, fun p hp => absurd hp
        (List.not_mem_nil p)⟩
    | cons b r =>
      have hmb : qget mods b = 0 := h3 b (List.mem_cons_self _ _)
      have hA : cget rc a = [qget xs a + qget mods a] :=
        (h2 a (List.mem_cons_self _ _)).2
      have hB : cget lc b = [qget xs b + qget mods b] :=
        (h2 b (List.mem_cons_of_mem _ (List.mem_cons_self _ _))).1
      obtain ⟨hab, h4'⟩ := List.nodup_cons.mp h4
      have hbr : b ∉ r := (List.nodup_cons.mp h4').1
      have har : a ∉ r := fun hc => hab (List.mem_cons_of_mem _ hc)
      have hab : a ≠ b := fun hc => hab (hc ▸ List.mem_cons_self _ _)
      set A := qget xs a + qget mods a with hAd
      set B := qget xs b + qget mods b with hBd
      set m : ℚ := if B - A < 3/2 then 3/2 - (B - A) else 0 with hmd
      have hcomp := compareAndMod_roots dict a b xs mods lc rc A B
        (h1 a (List.mem_cons_self _ _))
        (h1 b (List.mem_cons_of_mem _ (List.mem_cons_self _ _))) hA hB
      have hcond2 : ∀ id ∈ b :: r,
          cget (ainsert lc b ((cget lc b).map fun v => v + m)) id =
            [qget xs id + qget (ainsert mods b m) id] ∧
          cget (ainsert rc b ((cget rc b).map fun v => v + m)) id =
            [qget xs id + qget (ainsert mods b m) id] := by
        intro x hx
        rcases List.mem_cons.mp hx with hx1 | hx1
        · subst hx1
          constructor
          · rw [cget_ainsert_self, hB, qget_ainsert_self]
            rw [show ([B].map fun v => v + m) = [B + m] from rfl]
            rw [hBd, hmb, add_zero]
          · rw [cget_ainsert_self,
              (h2 x (List.mem_cons_of_mem _ (List.mem_cons_self _ _))).2,
              qget_ainsert_self]
            rw [show ([B].map fun v => v + m) = [B + m] from rfl]
            rw [hBd, hmb, add_zero]
        · have hxb : x ≠ b := fun hc => hbr (hc ▸ hx1)
          rw [cget_ainsert_ne _ _ _ _ hxb, cget_ainsert_ne _ _ _ _ hxb,
            qget_ainsert_ne _ _ _ _ hxb]
          exact h2 x (List.mem_cons_of_mem _ (List.mem_cons_of_mem _ hx1))
      have hcond3 : ∀ id ∈ (b :: r).tail,
          qget (ainsert mods b m) id = 0 := by
        intro x hx
        have hxb : x ≠ b := fun hc => hbr (hc ▸ hx)
        rw [qget_ainsert_ne _ _ _ _ hxb]
        exact h3 x (List.mem_cons_of_mem _ hx)
      obtain ⟨mods', lc', rc', heq, hpres, hpairs⟩ := ih xs
        (ainsert mods b m)
        (ainsert lc b ((cget lc b).map fun v => v + m))
        (ainsert rc b ((cget rc b).map fun v => v + m))
        (fun x hx => h1 x (List.mem_cons_of_mem _ hx))
        hcond2 hcond3 h4'
      refine ⟨mods', lc', rc', ?_, ?_, ?_⟩
      · rw [show comparePairs dict (a :: b :: r) (xs, mods, lc, rc) =
          (match compareAndMod dict a b (xs, mods, lc, rc) with
           | none => none
           | some st' => comparePairs dict (b :: r) st') from rfl, hcomp]
        exact heq
      · intro k hk
        have hkb : k ≠ b := fun hc => hk (hc ▸ List.mem_cons_self _ _)
        have hkr : k ∉ r := fun hc => hk (List.mem_cons_of_mem _ hc)
        rw [hpres k hkr, qget_ainsert_ne _ _ _ _ hkb]
      · intro p hp
        rw [show (a :: b :: r).zip ((a :: b :: r).tail) =
          (a, b) :: (b :: r).zip ((b :: r).tail) from rfl] at hp
        rcases List.mem_cons.mp hp with hp1 | hp1
        · subst hp1
          have hma : qget mods' a = qget mods a := by
            rw [hpres a har, qget_ainsert_ne _ _ _ _ hab]
          have hmb' : qget mods' b = m := by
            rw [hpres b hbr, qget_ainsert_self]
          show qget xs a + qget mods' a + 3/2 ≤ qget xs b + qget mods' b
          rw [hma, hmb']
          have hBx : B = qget xs b := by rw [hBd, hmb, add_zero]
          by_cases hlt : B - A < 3/2
          · rw [hmd, if_pos hlt]
            rw [hAd] at *
            linarith [hBx]
          · rw [hmd, if_neg hlt]
            rw [hAd] at *
            linarith [hBx, not_lt.mp hlt]
        · exact hpairs p hp1

theorem settleNode_childless (dict : List (Int × Node)) (xs mods : QMap)
    (id : Int) (h : childIdsOf dict id = []) :
    settleNode dict (xs, mods) id =
      (ainsert xs id (qget xs id + qget mods id), ainsert mods id 0) := by
  rw [settleNode]
  simp only [h, List.foldl_nil]

theorem settle_fold (dict : List (Int × Node)) : ∀ (l : List Int)
    (xs mods : QMap),
    (∀ id ∈ l, childIdsOf dict id = []) → l.Nodup →
    ∃ xs' mods', List.foldl (settleNode dict) (xs, mods) l = (xs', mods') ∧
      (∀ k, k ∈ l → qget xs' k = qget xs k + qget mods k ∧
        qget mods' k = 0) ∧
      (∀ k, k ∉ l → qget xs' k = qget xs k ∧ qget mods' k = qget mods k) := by
  intro l
  induction l with
  | nil =>
    intro xs mods _ _
    exact ⟨xs, mods, rfl, fun k hk => absurd hk (List.not_mem_nil k),
      fun k _ => ⟨rfl, rfl⟩⟩
  | cons id r ih =>
    intro xs mods h hnd
    obtain ⟨hir, hnd'⟩ := List.nodup_cons.mp hnd
    obtain ⟨xs', mods', heq, hin, hout⟩ := ih
      (ainsert xs id (qget xs id + qget mods id)) (ainsert mods id 0)
      (fun x hx => h x (List.mem_cons_of_mem _ hx)) hnd'
    refine ⟨xs', mods', ?_, ?_, ?_⟩
    · rw [List.foldl_cons,
        settleNode_childless dict xs mods id (h id (List.mem_cons_self _ _)),
        heq]
    · intro k hk
      rcases List.mem_cons.mp hk with hk1 | hk1
      · subst hk1
        obtain ⟨h1, h2⟩ := hout k hir
        rw [h1, h2, qget_ainsert_self, qget_ainsert_self]
        exact ⟨rfl, rfl⟩
      · obtain ⟨h1, h2⟩ := hin k hk1
        have hkid : k ≠ id := fun hc => hir (hc ▸ hk1)
        rw [h1, h2, qget_ainsert_ne _ _ _ _ hkid, qget_ainsert_ne _ _ _ _ hkid]
        exact ⟨rfl, rfl⟩
    · intro k hk
      have hkid : k ≠ id := fun hc => hk (hc ▸ List.mem_cons_self _ _)
      have hkr : k ∉ r := fun hc => hk (List.mem_cons_of_mem _ hc)
      obtain ⟨h1, h2⟩ := hout k hkr
      rw [h1, h2, qget_ainsert_ne _ _ _ _ hkid, qget_ainsert_ne _ _ _ _ hkid]
      exact ⟨rfl, rfl⟩

theorem moveNodes_single (dict : List (Int × Node)) (lay : List Int)
    (xs mods : QMap) (lc rc : CMap)
    (hch : ∀ id ∈ lay, childIdsOf dict id = [])
    (hpar : ∀ id ∈ lay, parentIdOf dict id = -1)
    (hnd : lay.Nodup) (hm0 : ∀ k, qget mods k = 0) :
    ∃ xs' mods' lc' rc',
      moveNodes dict [lay] (xs, mods, lc, rc) = some (xs', mods', lc', rc') ∧
      (∀ k, qget mods' k = 0) ∧
      (∀ p ∈ lay.zip lay.tail, qget xs' p.1 + 3/2 ≤ qget xs' p.2) := by
  obtain ⟨lcA, rcA, heqA, hinA, _⟩ := layout_fold dict lay xs mods lc rc hch
  have hcontA : ∀ id ∈ lay, cget lcA id = [qget xs id + qget mods id] ∧
      cget rcA id = [qget xs id + qget mods id] := by
    intro id hid
    obtain ⟨h1, h2⟩ := hinA id hid
    rw [h1, h2, hm0 id, add_zero]
    exact ⟨rfl, rfl⟩
  obtain ⟨modsB, lcB, rcB, heqB, hpresB, hpairsB⟩ :=
    compare_chain dict lay xs mods lcA rcA hpar hcontA
      (fun id hid => hm0 id) hnd
  obtain ⟨xsC, modsC, heqC, hinC, houtC⟩ :=
    settle_fold dict lay xs modsB hch hnd
  refine ⟨xsC, modsC, lcB, rcB, ?_, ?_, ?_⟩
  · rw [moveNodes]
    rw [show ([lay] : List (List Int)).reverse = [lay] from by simp]
    rw [show phase1 dict [lay] (xs, mods, lc, rc) =
      (match comparePairs dict lay
          (lay.foldl (layoutNode dict) (xs, mods, lc, rc)) with
       | none => none
       | some st' => phase1 dict [] st') from rfl]
    rw [heqA, heqB]
    simp only [phase1, Option.map_some']
    rw [show phase2 dict [lay] (xs, modsB) =
      lay.foldl (settleNode dict) (xs, modsB) from by simp [phase2], heqC]
  · intro k
    by_cases hk : k ∈ lay
    · exact (hinC k hk).2
    · rw [(houtC k hk).2, hpresB k
        (fun hc => hk (List.mem_of_mem_tail hc)), hm0 k]
  · intro p hp
    have hp1 : p.1 ∈ lay := (List.of_mem_zip hp).1
    have hp2 : p.2 ∈ lay := List.mem_of_mem_tail (List.of_mem_zip hp).2
    rw [(hinC p.1 hp1).1, (hinC p.2 hp2).1]
    exact hpairsB p hp

/-- C2 (amended): the no-overlap guarantee does hold on a store whose
single layer holds only childless roots — the seeded spacing plus the
root-to-root comparisons settle every adjacent pair at least 1.5 apart,
and the pass structure (run exactly twice) keeps it. The claimed
universal no-overlap is false: the two heuristic settle passes compare
only adjacent subtrees, and a deep clash hidden behind a short middle
subtree survives both passes, as the counterexample shows. -/
theorem c2_amended (t : Tree) (lay : List Int)
    (hlay : t.node_layers = [lay])
    (hch : ∀ id ∈ lay, childIdsOf t.node_dict id = [])
    (hpar : ∀ id ∈ lay, parentIdOf t.node_dict id = -1)
    (hnd : lay.Nodup) :
    ∃ xs, t.compute_painting_xs = some xs ∧ noOverlapB t xs = true := by
  obtain ⟨xs1, mods1, lc1, rc1, hseed, hm1⟩ :
      ∃ xs1 mods1 lc1 rc1, seedAux t.node_dict lay 0
        (t.node_dict.map fun p => (p.1, (0 : ℚ)),
         t.node_dict.map fun p => (p.1, (0 : ℚ)),
         t.node_dict.map fun p => (p.1, ([] : List ℚ)),
         t.node_dict.map fun p => (p.1, ([] : List ℚ))) =
          (xs1, mods1, lc1, rc1) ∧ ∀ k, qget mods1 k = 0 := by
    refine ⟨_, _, _, _, rfl, ?_⟩
    intro k
    rw [show (seedAux t.node_dict lay 0
        (t.node_dict.map fun p => (p.1, (0 : ℚ)),
         t.node_dict.map fun p => (p.1, (0 : ℚ)),
         t.node_dict.map fun p => (p.1, ([] : List ℚ)),
         t.node_dict.map fun p => (p.1, ([] : List ℚ)))).2.1 =
      t.node_dict.map fun p => (p.1, (0 : ℚ)) from seedAux_mods _ _ _ _]
    exact qget_zero_map _ k
  obtain ⟨xs2, mods2, lc2, rc2, hmv1, hm2, hpr1⟩ :=
    moveNodes_single t.node_dict lay xs1 mods1 lc1 rc1 hch hpar hnd hm1
  obtain ⟨xs3, mods3, lc3, rc3, hmv2, hm3, hpr2⟩ :=
    moveNodes_single t.node_dict lay xs2 mods2 lc2 rc2 hch hpar hnd hm2
  refine ⟨xs3, ?_, ?_⟩
  · show Tree.compute_painting_xs t = some xs3
    simp only [Tree.compute_painting_xs, hlay]
    rw [if_neg (by simp)]
    rw [show (([lay] : List (List Int)).getLast?).getD [] = lay from rfl]
    rw [hseed, hmv1]
    show (match moveNodes t.node_dict [lay] (xs2, mods2, lc2, rc2) with
          | none => none
          | some st3 => some st3.1) = some xs3
    rw [hmv2]
  · rw [noOverlapB, hlay]
    simp only [List.all_cons, List.all_nil, Bool.and_true]
    refine List.all_eq_true.mpr ?_
    intro p hp
    refine decide_eq_true ?_
    have h1 : parentIdOf t.node_dict p.1 = -1 :=
      hpar p.1 (List.of_mem_zip hp).1
    have h2 : parentIdOf t.node_dict p.2 = -1 :=
      hpar p.2 (List.mem_of_mem_tail (List.of_mem_zip hp).2)
    rw [c2ReqSpacing, h1, h2]
    rw [if_neg (by norm_num)]
    have := hpr2 p hp
    linarith

/-- A single layer of two childless roots. -/
def c2OneLayer : Tree :=
  { last_id := 1,
    node_dict := [(0, ⟨0, ⟨['a'], none, none, []⟩, -1, []⟩),
                  (1, ⟨1, ⟨['b'], none, none, []⟩, -1, []⟩)],
    node_layers := [[0, 1]],
    node_yxs := [(0, 0, 0), (1, 0, 1)],
    settings := {} }

/-- Witness: the amended layout guarantee applies to `c2OneLayer`. -/
theorem c2_amended_witness :
    c2OneLayer.node_layers = [[0, 1]] ∧
    (∀ id ∈ ([0, 1] : List Int), childIdsOf c2OneLayer.node_dict id = []) ∧
    (∀ id ∈ ([0, 1] : List Int), parentIdOf c2OneLayer.node_dict id = -1) ∧
    ([0, 1] : List Int).Nodup ∧
    ∃ xs, c2OneLayer.compute_painting_xs = some xs ∧
      noOverlapB c2OneLayer xs = true :=
  ⟨rfl, by decide, by decide, by decide,
    c2_amended c2OneLayer [0, 1] rfl (by decide) (by decide) (by decide)⟩

end GM
